import Mathlib

/-!
Shallow embedding of the Clifford+T circuit optimizer ("LysCompiler") of this
repository, together with theorems checking its natural-language specification.

The repository fixes the Pauli-string width at `numQubits = 4`
(`Operation.hpp`, `#define numQubits 4`); Pauli strings are pairs of
`bitset<4>` values, which we model as natural numbers (the bitset's value),
with bitwise operations masked to 4 bits exactly where the C++ bitset width
does so.  C++ `int` values (angles, indices) are modelled as `Int`.

The repository contains two revisions of `LysCompiler.cpp`:
`Trillium/src/cpp_compiler/LysCompiler.cpp` (namespace `Trillium` below) and
the file `unnamed/part_008` (namespace `Part8` below).  They differ in the
sign bookkeeping of `applyCommutation` and in `optimizeRotation` /
`runLysCompiler` / `basis_permutation`; functions that are identical in the
two revisions are defined once, at the top of namespace `Lys`.
-/

namespace Lys

/-- `numQubits` from `Operation.hpp`. -/
def numQubits : Nat := 4

/-- All-ones mask of a `bitset<numQubits>`. -/
def fullMask : Nat := 2 ^ numQubits - 1

/-- Bitwise complement at `bitset<numQubits>` width (C++ `~` on `bitset<4>`). -/
def compl4 (x : Nat) : Nat := x ^^^ fullMask

/-- `bitset<numQubits>::count()`: the number of set bits of the stored value,
written out for the fixed width `numQubits = 4` (every bitset value of the
program is smaller than `2 ^ numQubits`). -/
def popCount (n : Nat) : Nat := n % 2 + n / 2 % 2 + n / 4 % 2 + n / 8 % 2

/-- `Rotation` (`Rotation.hpp`): encoded Pauli string plus an integer angle. -/
structure Rotation where
  angle : Int
  xBasis : Nat
  zBasis : Nat
  deriving Repr, DecidableEq

/-- `Measure` (`Measure.hpp`): encoded Pauli string, boolean phase, the list of
classically-controlled rotations and the `outputPosition` bookkeeping index. -/
structure Measure where
  phase : Bool
  xBasis : Nat
  zBasis : Nat
  rotations : List Rotation := []
  outputPosition : Int := -1
  deriving Repr, DecidableEq

/-- `Operation` is the (runtime-polymorphic) sum of `Rotation` and `Measure`. -/
inductive Operation where
  | rot (r : Rotation)
  | meas (m : Measure)
  deriving Repr, DecidableEq

instance : Inhabited Operation := ⟨.rot ⟨0, 0, 0⟩⟩

/-- The `xBasis` field of the underlying `Operation` base object. -/
def Operation.xB : Operation → Nat
  | .rot r => r.xBasis
  | .meas m => m.xBasis

/-- The `zBasis` field of the underlying `Operation` base object. -/
def Operation.zB : Operation → Nat
  | .rot r => r.zBasis
  | .meas m => m.zBasis

/-- `Operation::isCommute` (`Operation.cpp`): two operations commute iff
`popcount(A.X & B.Z) + popcount(A.Z & B.X)` is even. -/
def isCommuteB (ax az bx bz : Nat) : Bool :=
  (popCount (ax &&& bz) + popCount (az &&& bx)) % 2 = 0

/-- `isCommute` on two operations (reads only the base-object bit vectors). -/
def Operation.isCommute (a b : Operation) : Bool :=
  isCommuteB a.xB a.zB b.xB b.zB

/-- `Operation::isIdentity`: both bit vectors are all-zero. -/
def Operation.isIdentity (a : Operation) : Bool :=
  a.xB = 0 && a.zB = 0

/-- `Rotation` view of `isIdentity`. -/
def Rotation.isIdentity (r : Rotation) : Bool :=
  r.xBasis = 0 && r.zBasis = 0

/-- `Measure` view of `isIdentity`. -/
def Measure.isIdentity (m : Measure) : Bool :=
  m.xBasis = 0 && m.zBasis = 0

/-- `Rotation::isTgate` (`Rotation.cpp`): non-identity and `|angle| = 1`.
`Measure::isTgate` and `Operation::isTgate` return `false`. -/
def Rotation.isTgate (r : Rotation) : Bool :=
  if r.isIdentity then false else r.angle.natAbs = 1

/-- Virtual `isTgate` dispatched on the dynamic type. -/
def Operation.isTgate : Operation → Bool
  | .rot r => r.isTgate
  | .meas _ => false

/-- Virtual `isRotation` dispatched on the dynamic type. -/
def Operation.isRotation : Operation → Bool
  | .rot _ => true
  | .meas _ => false

/-- `Operation::isSingleQubit`: the union of the bit vectors has one set bit. -/
def Operation.isSingleQubit (a : Operation) : Bool :=
  popCount (a.xB ||| a.zB) = 1

/-- `Rotation::blockAction(ancillaBegin)` (`Rotation.cpp`): `'a'` when the
support touches only ancilla bits, `'d'` when only data bits, `'b'` otherwise.
`maskData` is the all-ones mask shifted left by `numQubits - ancillaBegin`
(qubit `q` lives at bit `numQubits - 1 - q`). -/
def Rotation.blockAction (r : Rotation) (ancillaBegin : Nat) : Char :=
  let xOrz := r.xBasis ||| r.zBasis
  let maskData := (fullMask <<< (numQubits - ancillaBegin)) &&& fullMask
  let maskAncilla := compl4 maskData
  if maskData &&& xOrz = 0 then 'a'
  else if maskAncilla &&& xOrz = 0 then 'd'
  else 'b'

/-- `Rotation::operator==` (`part_010`): fieldwise equality, or both sides
have the identity Pauli string (in which case angles are ignored). -/
def rotationEq (a b : Rotation) : Bool :=
  (a.xBasis = b.xBasis && a.zBasis = b.zBasis && a.angle = b.angle) ||
    (a.isIdentity && b.isIdentity)

/-- `Measure::operator==` (`part_009`): fieldwise equality (phase and the
controlled-rotation list included), or both sides have the identity Pauli
string (in which case phase and rotations are ignored). -/
def measureEq (a b : Measure) : Bool :=
  (a.xBasis = b.xBasis && a.zBasis = b.zBasis && a.phase = b.phase &&
      a.rotations = b.rotations) ||
    (a.isIdentity && b.isIdentity)

/-- `LysCompiler::combineRotation` (identical in both revisions): try to fuse
two rotations, returning the `(combined?, survivors)` pair. -/
def combineRotation (R11 R22 : Rotation) : Bool × List Rotation :=
  let R1 := R11
  let R2 := R22
  if R1.isIdentity && R2.isIdentity then (true, [])
  else if R1.isIdentity && !R2.isIdentity then (true, [R2])
  else if !R1.isIdentity && R2.isIdentity then (true, [R1])
  else if !(R1.xBasis = R2.xBasis && R1.zBasis = R2.zBasis) then (false, [R1, R2])
  else
    let newAngle := R1.angle + R2.angle
    if newAngle = 0 then (true, [])
    else if (R1.angle = 0 || R2.angle = 0) &&
        !((R1.angle = -2 && R2.angle = 0) || (R1.angle = 0 && R2.angle = -2)) then
      (false, [R1, R2])
    else
      let newAngle2 :=
        if (R1.angle = 0 || R2.angle = 0) && newAngle = -2 then (2 : Int) else newAngle
      if newAngle2.natAbs = 3 then (false, [R1, R2])
      else
        let newAngle3 := if newAngle2.natAbs = 4 then (0 : Int) else newAngle2
        (true, [{ R1 with angle := newAngle3 }])

/-- `LysCompiler::combineGate` (identical in both revisions): delegate to
`combineRotation` when both operations are rotations; otherwise refuse. -/
def combineGate (R11 R22 : Operation) : Bool × List Operation :=
  match R11, R22 with
  | .rot r1, .rot r2 =>
    let res := combineRotation r1 r2
    (res.1, res.2.map .rot)
  | a, b => (false, [a, b])

/-- `(int)pow(2, numQubits - 1 - q)`: `2 ^ (numQubits - 1 - q)` when
`q ≤ numQubits - 1`, and `0` otherwise (the `(int)` cast of a positive double
smaller than one). -/
def basisAddend (q : Int) : Nat :=
  if q ≤ (numQubits : Int) - 1 then 2 ^ ((numQubits : Int) - 1 - q).toNat else 0

/-- The accumulation loop of `Operation::Operation(vector<char>, vector<int>)`:
walk the basis characters and qubit indices in lockstep, accumulating the
`xBasisInteger` / `zBasisInteger` sums, and throw on an unknown character.
The final integers are truncated to `numQubits` bits by the `bitset`
constructor. -/
def operationFromBasisGo : List Char → List Int → Nat → Nat →
    Except String (Nat × Nat)
  | [], _, xInt, zInt => .ok (xInt % 2 ^ numQubits, zInt % 2 ^ numQubits)
  | _, [], xInt, zInt => .ok (xInt % 2 ^ numQubits, zInt % 2 ^ numQubits)
  | c :: cs, q :: qs, xInt, zInt =>
    if c = 'x' then operationFromBasisGo cs qs (xInt + basisAddend q) zInt
    else if c = 'z' then operationFromBasisGo cs qs xInt (zInt + basisAddend q)
    else if c = 'y' then
      operationFromBasisGo cs qs (xInt + basisAddend q) (zInt + basisAddend q)
    else .error "Unknown basis"

/-- `Operation::Operation(vector<char>, vector<int>)` (`Operation.cpp`,
identical to `part_010`'s `Rotation` constructor): build the encoded
`(xBasis, zBasis)` pair from basis characters and qubit indices, throwing
`invalid_argument` on a size mismatch or an unknown basis character. -/
def operationFromBasis (basis : List Char) (qubits : List Int) :
    Except String (Nat × Nat) :=
  if basis.length ≠ qubits.length then
    .error "Illegal declaration. Number of basis and number of qubits must be equal and the qubits must be unique."
  else
    operationFromBasisGo basis qubits 0 0

/-- `updatedAngle = -1 * updatedAngle` guarded by an `if`: flip the running
integer when the condition holds. -/
def condFlip (c : Prop) [Decidable c] (a : Int) : Int := if c then -a else a

/-- `new_measure_object.phase = !(new_measure_object.phase)` guarded by an
`if`: flip the running phase when the condition holds. -/
def condFlipB (c : Prop) [Decidable c] (p : Bool) : Bool := if c then !p else p

namespace Trillium

/-- `LysCompiler::applyCommutation(Rotation, Rotation)`
(`Trillium/src/cpp_compiler/LysCompiler.cpp`, lines 220-270).  A zero-angle
(Pauli) left operand flips the angle; any other angle takes the Clifford
branch: bases are XORed and the angle sign is flipped once per parity
condition (`ZX`, `XZX`, `ZXZ`, and the count of factors of `i`). -/
def applyCommutationRR (nonTgateRotation tgateRotation : Rotation) : Rotation :=
  if nonTgateRotation.angle = 0 then
    ⟨-1 * tgateRotation.angle, tgateRotation.xBasis, tgateRotation.zBasis⟩
  else
    let updatedXbasis := nonTgateRotation.xBasis ^^^ tgateRotation.xBasis
    let updatedZbasis := nonTgateRotation.zBasis ^^^ tgateRotation.zBasis
    let nonTY := nonTgateRotation.xBasis &&& nonTgateRotation.zBasis
    let TY := tgateRotation.xBasis &&& tgateRotation.zBasis
    let a1 := condFlip (nonTgateRotation.angle < 0) tgateRotation.angle
    let a2 := condFlip (popCount (compl4 nonTgateRotation.xBasis &&&
      nonTgateRotation.zBasis &&& tgateRotation.xBasis &&&
      compl4 tgateRotation.zBasis) % 2 = 1) a1
    let a3 := condFlip (popCount (nonTY &&& tgateRotation.xBasis &&&
      compl4 tgateRotation.zBasis) % 2 = 1) a2
    let a4 := condFlip (popCount (compl4 nonTgateRotation.xBasis &&&
      nonTgateRotation.zBasis &&& TY) % 2 = 1) a3
    let a5 := condFlip (((popCount nonTY : Int) + popCount TY -
      popCount (updatedXbasis &&& updatedZbasis) + 1) % 4 ≠ 0) a4
    ⟨a5, updatedXbasis, updatedZbasis⟩

/-- The four sign-flip conditions of the Clifford branch of
`Trillium.applyCommutationRR` (all but the `angle < 0` flip), aggregated as a
Boolean parity: `true` means the product of the flips is `-1`. -/
def signFlag (nx nz tx tz : Nat) : Bool :=
  xor (decide (popCount (compl4 nx &&& nz &&& tx &&& compl4 tz) % 2 = 1))
  (xor (decide (popCount (nx &&& nz &&& tx &&& compl4 tz) % 2 = 1))
  (xor (decide (popCount (compl4 nx &&& nz &&& (tx &&& tz)) % 2 = 1))
       (decide (((popCount (nx &&& nz) : Int) + popCount (tx &&& tz) -
         popCount ((nx ^^^ tx) &&& (nz ^^^ tz)) + 1) % 4 ≠ 0))))

/-- `LysCompiler::applyCommutation(Rotation, Measure)`
(`Trillium/src/cpp_compiler/LysCompiler.cpp`, lines 274-333).  A Pauli left
operand flips the measurement's phase; a Clifford left operand XORs the bases
and flips the phase per the `ZX`/`XZX`/`ZXZ` parities, per the fourth
condition `(cY(R) + cY(M) - cY(M')) % 2 == 1 && > 0`, and once more when the
angle is `-2`; any other angle throws.  In every non-throwing path each
classically-controlled rotation that anticommutes with the left operand is
rewritten by `applyCommutationRR`. -/
def applyCommutationRM (R1 : Rotation) (M1 : Measure) : Except String Measure :=
  let mapRots : List Rotation → List Rotation := fun rs =>
    rs.map fun cRot =>
      if isCommuteB cRot.xBasis cRot.zBasis R1.xBasis R1.zBasis then cRot
      else applyCommutationRR R1 cRot
  if R1.angle = 0 then
    .ok { M1 with phase := !M1.phase, rotations := mapRots M1.rotations }
  else if R1.angle.natAbs = 2 then
    let ux := R1.xBasis ^^^ M1.xBasis
    let uz := R1.zBasis ^^^ M1.zBasis
    let RY := R1.xBasis &&& R1.zBasis
    let MY := M1.xBasis &&& M1.zBasis
    let p1 := condFlipB (popCount (compl4 R1.xBasis &&& R1.zBasis &&&
      M1.xBasis &&& compl4 M1.zBasis) % 2 = 1) M1.phase
    let p2 := condFlipB (popCount (RY &&& M1.xBasis &&& compl4 M1.zBasis) % 2 = 1) p1
    let p3 := condFlipB (popCount (compl4 R1.xBasis &&& R1.zBasis &&& MY) % 2 = 1) p2
    let n : Int := (popCount RY : Int) + popCount MY - popCount (ux &&& uz)
    let p4 := condFlipB (n % 2 = 1 ∧ 0 < n) p3
    let p5 := condFlipB (R1.angle = -2) p4
    .ok { phase := p5, xBasis := ux, zBasis := uz,
          rotations := mapRots M1.rotations, outputPosition := M1.outputPosition }
  else .error "Rotation must be Clifford or Pauli"

end Trillium

namespace Part8

/-- `LysCompiler::applyCommutation(Rotation, Rotation)` (`part_008`,
lines 277-334): as the Trillium revision, plus the extra `XZXZ` parity flip
on `popcount(nY & tY)`. -/
def applyCommutationRR (nonTgateRotation tgateRotation : Rotation) : Rotation :=
  if nonTgateRotation.angle = 0 then
    ⟨-1 * tgateRotation.angle, tgateRotation.xBasis, tgateRotation.zBasis⟩
  else
    let updatedXbasis := nonTgateRotation.xBasis ^^^ tgateRotation.xBasis
    let updatedZbasis := nonTgateRotation.zBasis ^^^ tgateRotation.zBasis
    let nonTY := nonTgateRotation.xBasis &&& nonTgateRotation.zBasis
    let TY := tgateRotation.xBasis &&& tgateRotation.zBasis
    let a1 := condFlip (nonTgateRotation.angle < 0) tgateRotation.angle
    let a2 := condFlip (popCount (compl4 nonTgateRotation.xBasis &&&
      nonTgateRotation.zBasis &&& tgateRotation.xBasis &&&
      compl4 tgateRotation.zBasis) % 2 = 1) a1
    let a3 := condFlip (popCount (nonTY &&& tgateRotation.xBasis &&&
      compl4 tgateRotation.zBasis) % 2 = 1) a2
    let a4 := condFlip (popCount (compl4 nonTgateRotation.xBasis &&&
      nonTgateRotation.zBasis &&& TY) % 2 = 1) a3
    let a5 := condFlip (popCount (nonTY &&& TY) % 2 = 1) a4
    let a6 := condFlip (((popCount nonTY : Int) + popCount TY -
      popCount (updatedXbasis &&& updatedZbasis) + 1) % 4 ≠ 0) a5
    ⟨a6, updatedXbasis, updatedZbasis⟩

/-- The five sign-flip conditions of the Clifford branch of
`Part8.applyCommutationRR` (all but the `angle < 0` flip), aggregated as a
Boolean parity: `true` means the product of the flips is `-1`. -/
def signFlag (nx nz tx tz : Nat) : Bool :=
  xor (decide (popCount (compl4 nx &&& nz &&& tx &&& compl4 tz) % 2 = 1))
  (xor (decide (popCount (nx &&& nz &&& tx &&& compl4 tz) % 2 = 1))
  (xor (decide (popCount (compl4 nx &&& nz &&& (tx &&& tz)) % 2 = 1))
  (xor (decide (popCount (nx &&& nz &&& (tx &&& tz)) % 2 = 1))
       (decide (((popCount (nx &&& nz) : Int) + popCount (tx &&& tz) -
         popCount ((nx ^^^ tx) &&& (nz ^^^ tz)) + 1) % 4 ≠ 0)))))

/-- `LysCompiler::applyCommutation(Rotation, Measure)` (`part_008`,
lines 336-409): as the Trillium revision but with the `XZXZ` flip and with
the fourth condition written `(cY(R) + cY(M) - cY(M') + 1) % 4 != 0`,
mirroring the Rotation-Rotation overload of this revision. -/
def applyCommutationRM (R1 : Rotation) (M1 : Measure) : Except String Measure :=
  let mapRots : List Rotation → List Rotation := fun rs =>
    rs.map fun cRot =>
      if isCommuteB cRot.xBasis cRot.zBasis R1.xBasis R1.zBasis then cRot
      else applyCommutationRR R1 cRot
  if R1.angle = 0 then
    .ok { M1 with phase := !M1.phase, rotations := mapRots M1.rotations }
  else if R1.angle.natAbs = 2 then
    let ux := R1.xBasis ^^^ M1.xBasis
    let uz := R1.zBasis ^^^ M1.zBasis
    let RY := R1.xBasis &&& R1.zBasis
    let MY := M1.xBasis &&& M1.zBasis
    let p1 := condFlipB (popCount (compl4 R1.xBasis &&& R1.zBasis &&&
      M1.xBasis &&& compl4 M1.zBasis) % 2 = 1) M1.phase
    let p2 := condFlipB (popCount (RY &&& M1.xBasis &&& compl4 M1.zBasis) % 2 = 1) p1
    let p3 := condFlipB (popCount (compl4 R1.xBasis &&& R1.zBasis &&& MY) % 2 = 1) p2
    let p4 := condFlipB (popCount (RY &&& MY) % 2 = 1) p3
    let p5 := condFlipB (((popCount RY : Int) + popCount MY -
      popCount (ux &&& uz) + 1) % 4 ≠ 0) p4
    let p6 := condFlipB (R1.angle = -2) p5
    .ok { phase := p6, xBasis := ux, zBasis := uz,
          rotations := mapRots M1.rotations, outputPosition := M1.outputPosition }
  else .error "Rotation must be Clifford or Pauli"

end Part8

/-! ### Bit-level facts used to analyse the sign bookkeeping of the
commutation rewriter. -/

/-- Reading an operation through a `shared_ptr<Rotation>`. -/
def rotView (g : Measure → Int) : Operation → Rotation
  | .rot r => r
  | .meas m => ⟨g m, m.xBasis, m.zBasis⟩

/-- The inner `while (pivot > firstNontgateIndex)` loop of
`pushTForwardThread`: bubble the T rotation `cur` (held by `pCurrent_r`,
currently at index `pivot`) leftwards to index `first`, rewriting it by
`acRR` whenever it anticommutes with the gate it crosses. -/
def bubbleT (acRR : Rotation → Rotation → Rotation) (g : Measure → Int)
    (first : Nat) : Nat → List Operation → Rotation → List Operation
  | 0, l, _ => l
  | pivot + 1, l, cur =>
    if first < pivot + 1 then
      let prev := l.getD pivot default
      let cur2 := if (Operation.rot cur).isCommute prev then cur
                  else acRR (rotView g prev) cur
      bubbleT acRR g first pivot ((l.set (pivot + 1) prev).set pivot (.rot cur2)) cur2
    else l

/-- The initial scan of `pushTForwardThread`: the first index in
`[i, i + rem)` holding a gate that is not a T rotation, or the list length
when every gate in the range is a T rotation. -/
def findFirstNonTGo (l : List Operation) : Nat → Nat → Nat
  | _, 0 => l.length
  | i, rem + 1 =>
    match l.getD i default with
    | .rot r => if r.isTgate then findFirstNonTGo l (i + 1) rem else i
    | .meas _ => i

/-- `findFirstNonTGo` over the range `[beginIndex, endIndex)`. -/
def findFirstNonT (l : List Operation) (beginIndex endIndex : Nat) : Nat :=
  findFirstNonTGo l beginIndex (endIndex - beginIndex)

/-- The main loop of `pushTForwardThread` over gate indices
`[i, i + rem)`: each T gate found is bubbled down to `first`, which then
advances by one. -/
def ptfGo (acRR : Rotation → Rotation → Rotation) (g : Measure → Int) :
    Nat → Nat → Nat → List Operation → List Operation × Nat
  | 0, _, first, l => (l, first)
  | rem + 1, i, first, l =>
    match l.getD i default with
    | .rot r =>
      if r.isTgate then
        ptfGo acRR g rem (i + 1) (first + 1) (bubbleT acRR g first i l r)
      else ptfGo acRR g rem (i + 1) first l
    | .meas _ => ptfGo acRR g rem (i + 1) first l

/-- `LysCompiler::pushTForwardThread` on the range `[beginIndex, endIndex)`:
returns the updated gate list and the split index written into
`threadSplitIndices` (the final `firstNontgateIndex`). -/
def pushTForwardThread (acRR : Rotation → Rotation → Rotation)
    (g : Measure → Int) (l : List Operation) (beginIndex endIndex : Nat) :
    List Operation × Nat :=
  if l.length = 0 then (l, 0)
  else
    let firstNontgateIndex := findFirstNonT l beginIndex endIndex
    if endIndex - 1 < firstNontgateIndex then (l, endIndex)
    else
      ptfGo acRR g (endIndex - (firstNontgateIndex + 1))
        (firstNontgateIndex + 1) firstNontgateIndex l

/-- The worker loop of `implementationPushTForward`: run `k` slices in
sequence (the parallel workers write to disjoint slices and are joined
before any read, so this is the observable behaviour).  The slice of each
worker but the last is `subVectorLength` long; the last runs to
`subsetEnd`.  Returns the updated list and the collected split indices. -/
def runThreads (acRR : Rotation → Rotation → Rotation) (g : Measure → Int)
    (subVectorLength subsetEnd : Nat) :
    Nat → Nat → List Operation → List Operation × List Nat
  | 0, _, l => (l, [])
  | k + 1, b, l =>
    let e := if k = 0 then subsetEnd else b + subVectorLength
    let res := pushTForwardThread acRR g l b e
    let rest := runThreads acRR g subVectorLength subsetEnd k e res.1
    (rest.1, res.2 :: rest.2)

/-- `LysCompiler::implementationPushTForward`: split `[b, subsetEnd)` into
`numThreads` slices, run them, and return the first and last split index. -/
def implementationPushTForward (acRR : Rotation → Rotation → Rotation)
    (g : Measure → Int) (l : List Operation) (numThreads b subsetEnd : Nat) :
    List Operation × Nat × Nat :=
  let subVectorLength := (subsetEnd - b) / numThreads
  let res := runThreads acRR g subVectorLength subsetEnd numThreads b l
  (res.1, res.2.headD 0, res.2.getLastD 0)

/-- The `while (numThreads > 1)` loop of `LysCompiler::pushTForward`. -/
def pushTForwardWhile (acRR : Rotation → Rotation → Rotation)
    (g : Measure → Int) :
    Nat → List Operation → Nat → Nat → List Operation × Nat × Nat
  | 0, l, b, e => (l, b, e)
  | numThreads + 1, l, b, e =>
    if 1 < numThreads + 1 then
      let res := implementationPushTForward acRR g l (numThreads + 1) b e
      pushTForwardWhile acRR g numThreads res.1 res.2.1 res.2.2
    else (l, b, e)

/-- `LysCompiler::pushTForward`: decreasing rounds of sliced runs followed by
a final single-threaded run; returns the updated list and the split index. -/
def pushTForward (acRR : Rotation → Rotation → Rotation) (g : Measure → Int)
    (l : List Operation) : List Operation × Nat :=
  let numThreads0 := l.length / 100
  let numThreads := if 50 < numThreads0 then 50 else numThreads0
  let w := pushTForwardWhile acRR g numThreads l 0 l.length
  let fin := implementationPushTForward acRR g w.1 1 w.2.1 w.2.2
  (fin.1, fin.2.1)

/-- The number of T rotations of a gate list. -/
def countT (l : List Operation) : Nat := l.countP (fun o => o.isTgate)

/-- `acRR` preserves T-ness of the right operand on anticommuting inputs
(both revisions' `applyCommutation` satisfy this). -/
def preservesT (acRR : Rotation → Rotation → Rotation) : Prop :=
  ∀ (p t : Rotation), isCommuteB t.xBasis t.zBasis p.xBasis p.zBasis = false →
    t.isTgate = true → (acRR p t).isTgate = true


/-- The transform claim C4 describes for the Rotation×Measure rewrite,
written from the claim's words: for a Clifford left operand the Pauli bases
are XORed and the phase is flipped once per each of the same four parity
conditions used by the Rotation×Rotation rewrite (aggregated here by
`Trillium.signFlag`), plus one extra flip exactly when the angle is `-2`;
a Pauli left operand (angle `0`) only flips the phase.  Classically
controlled rotations are rewritten elementwise as in spec 4.C. -/
def applyCommutationRM_claimed (R1 : Rotation) (M1 : Measure) :
    Except String Measure :=
  let mapRots : List Rotation → List Rotation := fun rs =>
    rs.map fun cRot =>
      if isCommuteB cRot.xBasis cRot.zBasis R1.xBasis R1.zBasis then cRot
      else Trillium.applyCommutationRR R1 cRot
  if R1.angle = 0 then
    .ok { M1 with phase := !M1.phase, rotations := mapRots M1.rotations }
  else if R1.angle.natAbs = 2 then
    .ok { phase := xor M1.phase
            (xor (Trillium.signFlag R1.xBasis R1.zBasis M1.xBasis M1.zBasis)
              (decide (R1.angle = -2))),
          xBasis := R1.xBasis ^^^ M1.xBasis, zBasis := R1.zBasis ^^^ M1.zBasis,
          rotations := mapRots M1.rotations,
          outputPosition := M1.outputPosition }
  else .error "Rotation must be Clifford or Pauli"


/-- The amended C4 transform: as `applyCommutationRM_claimed` but with the
fourth flip condition the Trillium source actually uses:
`cY(R) + cY(M) - cY(M')` positive and odd. -/
def applyCommutationRM_amendedSpec (R1 : Rotation) (M1 : Measure) :
    Except String Measure :=
  let mapRots : List Rotation → List Rotation := fun rs =>
    rs.map fun cRot =>
      if isCommuteB cRot.xBasis cRot.zBasis R1.xBasis R1.zBasis then cRot
      else Trillium.applyCommutationRR R1 cRot
  if R1.angle = 0 then
    .ok { M1 with phase := !M1.phase, rotations := mapRots M1.rotations }
  else if R1.angle.natAbs = 2 then
    let n : Int := (popCount (R1.xBasis &&& R1.zBasis) : Int) +
      popCount (M1.xBasis &&& M1.zBasis) -
      popCount ((R1.xBasis ^^^ M1.xBasis) &&& (R1.zBasis ^^^ M1.zBasis))
    .ok { phase := xor M1.phase
            (xor (decide (popCount (compl4 R1.xBasis &&& R1.zBasis &&&
                M1.xBasis &&& compl4 M1.zBasis) % 2 = 1))
            (xor (decide (popCount (R1.xBasis &&& R1.zBasis &&& M1.xBasis &&&
                compl4 M1.zBasis) % 2 = 1))
            (xor (decide (popCount (compl4 R1.xBasis &&& R1.zBasis &&&
                (M1.xBasis &&& M1.zBasis)) % 2 = 1))
            (xor (decide (n % 2 = 1 ∧ 0 < n))
              (decide (R1.angle = -2)))))),
          xBasis := R1.xBasis ^^^ M1.xBasis, zBasis := R1.zBasis ^^^ M1.zBasis,
          rotations := mapRots M1.rotations,
          outputPosition := M1.outputPosition }
  else .error "Rotation must be Clifford or Pauli"


/-- The inner `for` loop over `currentLayer` in `reduceLayerGreedyAlgoThread`:
the scanned gate commutes with every gate of the current layer.  (The source
keeps a stale flag when the current layer is empty; callers erase empty
layers before this check, so the layer is never empty here.) -/
def commAll {α : Type} (comm : α → α → Bool) (cur : List α) (g : α) : Bool :=
  cur.all (fun c => comm g c)

/-- The `for` loop over `nextLayer` of `reduceLayerGreedyAlgoThread`
(identical in both revisions): walk the next layer, collecting the gates
(with their indices) that commute with the whole current layer, and stop at
the first measurement (`beginOfMeasure`). -/
def scanNext {α : Type} (isRot : α → Bool) (comm : α → α → Bool)
    (cur : List α) : List α → Nat → List α × List Nat × Bool
  | [], _ => ([], [], false)
  | g :: rest, p =>
    if isRot g then
      let r := scanNext isRot comm cur rest (p + 1)
      if commAll comm cur g then (g :: r.1, p :: r.2.1, r.2.2) else r
    else ([], [], true)

/-- The erasure loop `for (gateIndex = size - 1; gateIndex >= 0; --gateIndex)`
of `reduceLayerGreedyAlgoThread`: remove the transferred gates from the next
layer, largest recorded index first. -/
def eraseIdxs {α : Type} (idxs : List Nat) (xs : List α) : List α :=
  idxs.foldr (fun i acc => acc.eraseIdx i) xs

/-- The inner `while (currentLayerIndex < size - 1)` loop of
`reduceLayerGreedyAlgoThread`, fuel-bounded: erase empty layers, move the
commuting gates of the next layer into the current layer, and stop the pass
early when a measurement is seen. -/
def greedyInner {α : Type} (isRot : α → Bool) (comm : α → α → Bool) :
    Nat → Nat → List (List α) → Bool → Bool → List (List α) × Bool × Bool
  | 0, _, ls, done, change => (ls, done, change)
  | fuel + 1, idx, ls, done, change =>
    if idx + 1 < ls.length then
      let cur := ls.getD idx []
      if cur.length = 0 then
        greedyInner isRot comm fuel idx (ls.eraseIdx idx) done change
      else
        let next := ls.getD (idx + 1) []
        let scan := scanNext isRot comm cur next 0
        let done2 := done && scan.1.isEmpty
        let change2 := change || !scan.1.isEmpty
        let ls2 := ls.set idx (cur ++ scan.1)
        if next.length ≠ scan.1.length then
          let ls3 := ls2.set (idx + 1) (eraseIdxs scan.2.1 next)
          if scan.2.2 then (ls3, done2, change2)
          else greedyInner isRot comm fuel (idx + 1) ls3 done2 change2
        else
          let ls3 := ls2.eraseIdx (idx + 1)
          if scan.2.2 then (ls3, done2, change2)
          else greedyInner isRot comm fuel idx ls3 done2 change2
    else (ls, done, change)

/-- The outer `while (!done)` loop of `reduceLayerGreedyAlgoThread`: each
pass reruns the inner loop from layer `0` with `done` reset to `true`. -/
def greedyThreadGo {α : Type} (isRot : α → Bool) (comm : α → α → Bool)
    (innerFuel : Nat) : Nat → List (List α) → Bool → List (List α) × Bool
  | 0, ls, change => (ls, change)
  | fuel + 1, ls, change =>
    let r := greedyInner isRot comm innerFuel 0 ls true change
    if r.2.1 then (r.1, r.2.2)
    else greedyThreadGo isRot comm innerFuel fuel r.1 r.2.2

/-- `LysCompiler::reduceLayerGreedyAlgoThread` (identical in both revisions),
fuel-bounded, generic in the element type so that the same code can run on
operations and on index-tagged operations: returns the updated layers and
the `change` flag. -/
def greedyThread {α : Type} (isRot : α → Bool) (comm : α → α → Bool)
    (fuel : Nat) (ls : List (List α)) (change : Bool) : List (List α) × Bool :=
  greedyThreadGo isRot comm (2 * ls.length + 2) fuel ls change

/-- The slice loop of `reduceLayerGreedyAlgo`: the layer list is cut into
blocks of `L` layers (the last block runs to the end of the list), each
block is handed to one thread worker, and the results are concatenated in
order (the workers operate on disjoint deep copies and are joined before
the results are read). -/
def greedySlicesGo {α : Type} (isRot : α → Bool) (comm : α → α → Bool)
    (fuel L : Nat) (ls : List (List α)) : Nat → Nat → List (List α) × Bool
  | 0, _ => ([], false)
  | k + 1, i =>
    let slice := if k = 0 then ls.drop (i * L) else (ls.drop (i * L)).take L
    let r := greedyThread isRot comm fuel slice false
    let rest := greedySlicesGo isRot comm fuel L ls k (i + 1)
    (r.1 ++ rest.1, r.2 || rest.2)

/-- One round of the 50-thread slicing loop of `reduceLayerGreedyAlgo`. -/
def greedyRound {α : Type} (isRot : α → Bool) (comm : α → α → Bool)
    (fuel : Nat) (ls : List (List α)) : List (List α) × Bool :=
  greedySlicesGo isRot comm fuel (ls.length / 50) ls 50 0

/-- The `while (numLayers > 100 && change)` loop of `reduceLayerGreedyAlgo`
(identical in both revisions). -/
def greedyWhile {α : Type} (isRot : α → Bool) (comm : α → α → Bool)
    (fuel : Nat) : Nat → List (List α) → Bool → List (List α)
  | 0, ls, _ => ls
  | f + 1, ls, change =>
    if decide (100 < ls.length) && change then
      let r := greedyRound isRot comm fuel ls
      greedyWhile isRot comm fuel f r.1 r.2
    else ls

/-- The final serial loop `while (change) { change = false; thread(...); }`
of `reduceLayerGreedyAlgo`, present only in the Trillium revision (the
`part_008` revision has it commented out). -/
def greedyFinal {α : Type} (isRot : α → Bool) (comm : α → α → Bool)
    (fuel : Nat) : Nat → List (List α) → List (List α)
  | 0, ls => ls
  | f + 1, ls =>
    let r := greedyThread isRot comm fuel ls false
    if r.2 then greedyFinal isRot comm fuel f r.1 else r.1

/-- `LysCompiler::reduceLayerGreedyAlgo` (Trillium), generic: singleton
initial layers, slicing rounds while more than 100 layers keep changing,
then the final serial pass to a fixed point. -/
def reduceLayerGreedyAlgoG {α : Type} (isRot : α → Bool) (comm : α → α → Bool)
    (fuel : Nat) (v : List α) : List (List α) :=
  greedyFinal isRot comm fuel fuel
    (greedyWhile isRot comm fuel fuel (v.map fun op => [op]) true)

/-- `LysCompiler::reduceLayerGreedyAlgo` (Trillium) on operations. -/
def reduceLayerGreedyAlgo (fuel : Nat) (v : List Operation) :
    List (List Operation) :=
  reduceLayerGreedyAlgoG Operation.isRotation Operation.isCommute fuel v

/-- `LysCompiler::reduceLayerGreedyAlgo` (`part_008`): identical but without
the final serial pass. -/
def reduceLayerGreedyAlgoP8 (fuel : Nat) (v : List Operation) :
    List (List Operation) :=
  greedyWhile Operation.isRotation Operation.isCommute fuel fuel
    (v.map fun op => [op]) true

/-- The `while (sizeCondition > index1)` loop of
`implementNoOrderingRotationCombination` (`part_008`), fuel-bounded: try to
combine the pair at `(index1, index2)`, erase or replace on success, advance
`index2` on failure, and advance `index1` when `index2` runs off the end. -/
def implNORCGo : Nat → List Operation → Nat → Nat → Bool →
    List Operation × Bool
  | 0, l, _, _, changed => (l, changed)
  | fuel + 1, l, i1, i2, changed =>
    if i1 + 1 < l.length then
      let res := combineGate (l.getD i1 default) (l.getD i2 default)
      let next :=
        if res.1 then
          if res.2.length = 0 then ((l.eraseIdx i2).eraseIdx i1, i2, true)
          else ((l.set i1 (res.2.getD 0 default)).eraseIdx i2, i2, true)
        else (l, i2 + 1, changed)
      if next.2.1 ≥ next.1.length then
        implNORCGo fuel next.1 (i1 + 1) (i1 + 2) next.2.2
      else implNORCGo fuel next.1 i1 next.2.1 next.2.2
    else (l, changed)

/-- `LysCompiler::implementNoOrderingRotationCombination` (`part_008`). -/
def implementNoOrderingRotationCombination (l : List Operation) :
    List Operation × Bool :=
  if l.length = 1 then
    if (l.getD 0 default).isIdentity then (l.eraseIdx 0, true) else (l, false)
  else implNORCGo ((l.length + 2) * (l.length + 2)) l 0 1 false

/-- `LysCompiler::noOrderingRotationCombination` (`part_008`): repeat the
single pass until no further change; the returned flag is that of the first
pass. -/
def noOrderingRotationCombination : Nat → List Operation →
    List Operation × Bool
  | 0, l => (l, false)
  | fuel + 1, l =>
    if l.length = 0 then (l, false)
    else
      let r := implementNoOrderingRotationCombination l
      if r.2 then ((noOrderingRotationCombination fuel r.1).1, true)
      else (r.1, false)

/-- The inner `for (j ...)` loop of
`implementNoOrderingRotationLayerCombination` (`part_008`).  (When the outer
index has run past a shrunken first layer the source reads out of bounds;
the default element stands in for that unspecified read.) -/
def implNORLCInner : Nat → List Operation → List Operation → Nat → Nat →
    Bool → List Operation × List Operation × Bool
  | 0, l1, l2, _, _, changed => (l1, l2, changed)
  | fuel + 1, l1, l2, i, j, changed =>
    if j < l2.length then
      let res := combineGate (l1.getD i default) (l2.getD j default)
      if res.1 then
        if res.2.length = 0 then
          implNORLCInner fuel (l1.eraseIdx i) (l2.eraseIdx j) i (j + 1) true
        else
          implNORLCInner fuel (l1.set i (res.2.getD 0 default))
            (l2.eraseIdx j) i (j + 1) true
      else implNORLCInner fuel l1 l2 i (j + 1) changed
    else (l1, l2, changed)

/-- The outer `for (i ...)` loop of
`implementNoOrderingRotationLayerCombination` (`part_008`). -/
def implNORLCOuter : Nat → List Operation → List Operation → Nat → Bool →
    List Operation × List Operation × Bool
  | 0, l1, l2, _, changed => (l1, l2, changed)
  | fuel + 1, l1, l2, i, changed =>
    if i < l1.length then
      let r := implNORLCInner (l2.length + 1) l1 l2 i 0 changed
      implNORLCOuter fuel r.1 r.2.1 (i + 1) r.2.2
    else (l1, l2, changed)

/-- `LysCompiler::implementNoOrderingRotationLayerCombination` (`part_008`). -/
def implementNoOrderingRotationLayerCombination (l1 l2 : List Operation) :
    List Operation × List Operation × Bool :=
  implNORLCOuter (l1.length + 1) l1 l2 0 false

/-- `LysCompiler::noOrderingRotationLayerCombination` (`part_008`): repeat
the pass until no further change; the returned flag is that of the first
pass. -/
def noOrderingRotationLayerCombination : Nat → List Operation →
    List Operation → List Operation × List Operation × Bool
  | 0, l1, l2 => (l1, l2, false)
  | fuel + 1, l1, l2 =>
    if l1.length = 0 || l2.length = 0 then (l1, l2, false)
    else
      let r := implementNoOrderingRotationLayerCombination l1 l2
      if r.2.2 then
        let r2 := noOrderingRotationLayerCombination fuel r.1 r.2.1
        (r2.1, r2.2.1, true)
      else r

namespace Part8

/-- Step 1 of `optimizeRotation` (`part_008`): the adjacent-combination
sweep over the circuit with singleton layers, building `updatedCircuit`. -/
def adjacentCombineGo : Nat → List Operation → List Operation → Nat → Nat →
    List Operation
  | 0, _, updated, _, _ => updated
  | fuel + 1, circuit, updated, i1, i2 =>
    if i2 < circuit.length then
      let layer1 := [circuit.getD i1 default]
      let layer2 := [circuit.getD i2 default]
      let r := noOrderingRotationLayerCombination 3 layer1 layer2
      let st :=
        if !r.2.2 then
          (circuit, updated ++ [r.1.getD 0 default], i2, i2 + 1)
        else
          if 0 < r.1.length then
            (circuit.set i1 (r.1.getD 0 default),
              if i2 = circuit.length - 1 then updated ++ [r.1.getD 0 default]
              else updated,
              i1, i2 + 1)
          else (circuit, updated, i2 + 1, i2 + 2)
      let updated2 :=
        if st.2.2.2 ≥ st.1.length && 0 < r.2.1.length then
          st.2.1 ++ [r.2.1.getD 0 default]
        else st.2.1
      adjacentCombineGo fuel st.1 updated2 st.2.2.1 st.2.2.2
    else updated

/-- Step 4 of the `optimizeRotation` loop (`part_008`): run the no-ordering
combination on each reduced layer, OR-ing the change flags. -/
def combineLayers : List (List Operation) → List (List Operation) × Bool
  | [] => ([], false)
  | L :: rest =>
    let r := noOrderingRotationCombination (L.length + 1) L
    let rs := combineLayers rest
    (r.1 :: rs.1, rs.2 || r.2)

/-- The `while (changedFlag)` loop of `optimizeRotation` (`part_008`),
fuel-bounded.  `g` supplies the angle of the unchecked rotation cast in
`pushTForwardThread`; `checks` supplies the successive `elapsed >= time_out`
test results in consultation order (three tests per iteration). -/
def optimizeRotationLoop (g : Measure → Int) (checks : Nat → Bool) :
    Nat → Nat → List Operation → List Operation →
    List Operation × List Operation
  | 0, _, c, pb => (c, pb)
  | fuel + 1, t, c, pb =>
    let r := pushTForward Part8.applyCommutationRR g c
    if checks t then (r.1, pb)
    else
      let tgates := r.1.take r.2
      let pb1 := r.1.drop r.2 ++ pb
      let layers := reduceLayerGreedyAlgoP8
        ((tgates.length + 2) * (tgates.length + 2)) tgates
      let step4 := if checks (t + 1) then (layers, false)
                   else combineLayers layers
      let c2 := step4.1.flatten
      let changedFlag := if checks (t + 2) then false else step4.2
      if changedFlag then optimizeRotationLoop g checks fuel (t + 3) c2 pb1
      else (c2, pb1)

/-- `LysCompiler::optimizeRotation` (`part_008`): adjacent combination, the
push/reduce/combine loop, then reattach the pushed-back non-T gates.
Returns the final circuit and `numOfTgates` (the circuit length before the
non-T gates are appended). -/
def optimizeRotation (g : Measure → Int) (checks : Nat → Bool) (fuel : Nat)
    (l : List Operation) : List Operation × Nat :=
  let c0 := adjacentCombineGo (l.length + 2) l [] 0 1
  let r := optimizeRotationLoop g checks fuel 0 c0 []
  (r.1 ++ r.2, r.1.length)

/-- `this->circuit[idx]` through a signed index (in-range in every reachable
state of the loops below). -/
def getI (l : List Operation) (i : Int) : Operation := l.getD i.toNat default

/-- The leading scan of `basis_permutation` (`part_008`): walk backwards over
the trailing measurements, accumulating `maskOverall` and setting
`maskAncilla` to the all-ones mask shifted right by `ancillaBegin`, and stop
at the last rotation. -/
def bpScan (ancillaBegin : Nat) (circuit : List Operation) (idxOfT : Int) :
    Nat → Int → Nat → Nat → Nat × Nat × Int
  | 0, idxGate, mo, ma => (mo, ma, idxGate)
  | fuel + 1, idxGate, mo, ma =>
    if idxOfT < idxGate then
      let op := getI circuit idxGate
      if !op.isRotation then
        bpScan ancillaBegin circuit idxOfT fuel (idxGate - 1)
          (mo ||| (op.xB ||| op.zB)) (fullMask >>> ancillaBegin)
      else (mo, ma, idxGate)
    else (mo, ma, idxGate)

/-- The absorption loop of `basis_permutation` (`part_008`) over the
measurement block `(idxGate, idxLastM]`: rewrite each gate that anticommutes
with `R` through `applyCommutation` (the Rotation-by-Measure overload may
throw).  For a commuting measurement the source rewrites the
classically-controlled rotations of a by-value copy and then stores the
original pointer back, so that branch has no effect. -/
def bpAbsorbGo (R : Rotation) : Nat → List Operation → Int →
    Except String (List Operation)
  | 0, c, _ => .ok c
  | rem + 1, c, idxM =>
    let pM := getI c idxM
    if isCommuteB R.xBasis R.zBasis pM.xB pM.zB then
      bpAbsorbGo R rem c (idxM + 1)
    else
      match pM with
      | .meas m =>
        match Part8.applyCommutationRM R m with
        | .error e => .error e
        | .ok m2 => bpAbsorbGo R rem (c.set idxM.toNat (.meas m2)) (idxM + 1)
      | .rot r =>
        bpAbsorbGo R rem
          (c.set idxM.toNat (.rot (Part8.applyCommutationRR R r))) (idxM + 1)

/-- The `Rotation R` local of the marking loop: the gate at `idxR`, or the
default-constructed fallback when it is unexpectedly a measurement. -/
def bpRotOf (rUB : Rotation) : Operation → Rotation
  | .rot r => r
  | .meas _ => rUB

/-- The `doSomething` test of the marking loop. -/
def bpDoSomething (ma mo sup : Nat) (ba : Char) : Bool :=
  if ba = 'a' then decide (ma &&& sup &&& mo = ma &&& sup)
  else if ba = 'b' then decide (ma &&& sup &&& mo = 0)
  else true

/-- The marking loop of `basis_permutation` (`part_008`): walk the rotations
backwards from `idxGate`; when the mask test passes, absorb the rotation
into the measurement block and record its index in the delete set (an
ancilla-only rotation whose support is fully deallocated) or the move set;
stop at the first rotation that fails the test.  `rUB` stands for the
default-constructed `Rotation` the source falls back to when the gate is
unexpectedly a measurement. -/
def bpMark (ancillaBegin : Nat) (rUB : Rotation) (mo ma : Nat)
    (idxGate idxLastM idxOfT : Int) :
    Nat → List Operation → Int → List Nat → List Nat → Nat →
    Except String (List Operation × List Nat × List Nat × Nat)
  | 0, c, _, mv, dl, cnt => .ok (c, mv, dl, cnt)
  | fuel + 1, c, idxR, mv, dl, cnt =>
    if idxOfT < idxR then
      let R := bpRotOf rUB (getI c idxR)
      let sup := R.xBasis ||| R.zBasis
      let ba := R.blockAction ancillaBegin
      if bpDoSomething ma mo sup ba then
        match bpAbsorbGo R ((idxLastM - idxGate).toNat) c (idxGate + 1) with
        | .error e => .error e
        | .ok c1 =>
          if ba = 'a' && decide (ma &&& sup &&& mo = ma &&& sup) then
            bpMark ancillaBegin rUB mo ma idxGate idxLastM idxOfT fuel
              c1 (idxR - 1) mv (idxR.toNat :: dl) cnt
          else
            bpMark ancillaBegin rUB mo ma idxGate idxLastM idxOfT fuel
              c1 (idxR - 1) (idxR.toNat :: mv) dl (cnt + 1)
      else .ok (c, mv, dl, cnt)
    else .ok (c, mv, dl, cnt)

/-- The two-pointer compaction loop of `basis_permutation` (`part_008`):
walk `ptr2` over `[numOfTGates, size)`, pushing moved rotations onto
`permuteList`, skipping deleted ones, and writing the survivors at `ptr1`. -/
def bpCompactGo (mv dl : List Nat) : Nat → List Operation → Nat → Nat →
    List Operation → List Operation × Nat × List Operation
  | 0, c, p1, _, perm => (c, p1, perm)
  | fuel + 1, c, p1, p2, perm =>
    if p2 < c.length then
      if mv.contains p2 then
        bpCompactGo mv dl fuel c p1 (p2 + 1) (perm ++ [c.getD p2 default])
      else if dl.contains p2 then bpCompactGo mv dl fuel c p1 (p2 + 1) perm
      else bpCompactGo mv dl fuel (c.set p1 (c.getD p2 default)) (p1 + 1)
        (p2 + 1) perm
    else (c, p1, perm)

/-- `LysCompiler::basis_permutation` (`part_008`): scan the measurement
block, absorb the absorbable rotations into it while marking them moved or
deleted, compact the circuit (dropping the tail) and append the moved
rotations; returns the circuit and `numberOfCummutedGate`. -/
def basis_permutation (ancillaBegin : Nat) (rUB : Rotation)
    (circuit : List Operation) (numOfTGates : Nat) :
    Except String (List Operation × Nat) :=
  let idxOfT : Int := (numOfTGates : Int) - 1
  let s := bpScan ancillaBegin circuit idxOfT (circuit.length + 1)
    ((circuit.length : Int) - 1) 0 0
  let idxLastM : Int := (circuit.length : Int) - 1
  match bpMark ancillaBegin rUB s.1 s.2.1 s.2.2 idxLastM idxOfT
      (circuit.length + 1) circuit s.2.2 [] [] 0 with
  | .error e => .error e
  | .ok (c1, mv, dl, cnt) =>
    let comp := bpCompactGo mv dl (c1.length + 1) c1 numOfTGates numOfTGates []
    .ok (comp.1.take comp.2.1 ++ comp.2.2, cnt)

/-- `LysCompiler::runLysCompiler` (`part_008`): optimize, then — when
`removeNonT` — absorb rotations into the measurement block, subtracting the
moved-rotation count from the circuit length taken before the absorption.
The unused `layer` parameter is dropped (its block is commented out in the
source); the result pairs the final circuit with
`startingIdxToRemoveAfterMeasure`. -/
def runLysCompiler (g : Measure → Int) (checks : Nat → Bool)
    (ancillaBegin : Nat) (rUB : Rotation) (fuel : Nat) (removeNonT : Bool)
    (l : List Operation) : Except String (List Operation × Int) :=
  let r := optimizeRotation g checks fuel l
  let split0 : Int := r.1.length
  if removeNonT then
    match basis_permutation ancillaBegin rUB r.1 r.2 with
    | .error e => .error e
    | .ok (c2, moved) => .ok (c2, split0 - moved)
  else .ok (r.1, split0)

end Part8

/-- Number of indices in `[start, start + k)` satisfying `p` (used to state
how many marked gates the compaction loop drops or moves). -/
def countFrom (p : Nat → Bool) : Nat → Nat → Nat
  | _, 0 => 0
  | start, k + 1 => (if p start then 1 else 0) + countFrom p (start + 1) k

/-- All pairs of gates in one layer commute (the claim-(i) layer property;
symmetric membership form). -/
def PW {α : Type} (comm : α → α → Bool) (L : List α) : Prop :=
  ∀ x ∈ L, ∀ y ∈ L, comm x y = true

/-- Between an earlier and a later layer, every anticommuting pair respects
the order `ord` (for index-tagged gates, `ord` is tag order: the claim-(ii)
dependency property). -/
def LRel {α : Type} (comm : α → α → Bool) (ord : α → α → Prop)
    (L1 L2 : List α) : Prop :=
  ∀ x ∈ L1, ∀ y ∈ L2, comm x y = false → ord x y

/-- The greedy-layering invariant: every layer is mutually commuting, and
anticommuting pairs across layers respect `ord` in layer order. -/
def GreedyInv {α : Type} (comm : α → α → Bool) (ord : α → α → Prop)
    (ls : List (List α)) : Prop :=
  (∀ L ∈ ls, PW comm L) ∧ ls.Pairwise (LRel comm ord)

theorem testBit_of_lt16 {n : Nat} (h : n < 16) {i : Nat} (hi : 4 ≤ i) :
    n.testBit i = false := by
  apply Nat.testBit_lt_two_pow
  calc n < 16 := h
    _ = 2 ^ 4 := by norm_num
    _ ≤ 2 ^ i := Nat.pow_le_pow_right (by norm_num) hi

theorem testBit_compl4 (a i : Nat) :
    (compl4 a).testBit i = xor (a.testBit i) (decide (i < 4)) := by
  rw [compl4, fullMask, numQubits, Nat.testBit_xor, Nat.testBit_two_pow_sub_one]

theorem land_lt16 {a : Nat} (b : Nat) (ha : a < 16) : a &&& b < 16 :=
  lt_of_le_of_lt Nat.and_le_left ha

theorem land_lt16r (a : Nat) {b : Nat} (hb : b < 16) : a &&& b < 16 :=
  lt_of_le_of_lt Nat.and_le_right hb

theorem xor_lt16 {a b : Nat} (ha : a < 16) (hb : b < 16) : a ^^^ b < 16 :=
  Nat.xor_lt_two_pow (n := 4) ha hb

/-- Parity of `popCount` is additive over XOR on 4-bit values. -/
theorem popCount_xor_parity : ∀ a < 16, ∀ b < 16,
    popCount (a ^^^ b) % 2 = (popCount a + popCount b) % 2 := by decide

theorem compl4_lt16 {a : Nat} (ha : a < 16) : compl4 a < 16 :=
  xor_lt16 ha (by norm_num [fullMask, numQubits])

theorem xor_cancel_left16 (a b : Nat) : a ^^^ (a ^^^ b) = b := by
  rw [← Nat.xor_assoc, Nat.xor_self, Nat.zero_xor]

/-- Under the `¬X ∧ Z` restriction of the left operand, the XORed right
operand contributes its `Y` positions: the `ZX` mask of the second
application is the `ZY` mask of the first. -/
theorem maskB2 (nx nz tx tz : Nat) (h2 : nz < 16) :
    compl4 nx &&& nz &&& (nx ^^^ tx) &&& compl4 (nz ^^^ tz) =
      compl4 nx &&& nz &&& (tx &&& tz) := by
  apply Nat.eq_of_testBit_eq
  intro i
  by_cases hi : 4 ≤ i
  · simp [Nat.testBit_land, testBit_of_lt16 h2 hi]
  · push_neg at hi
    simp only [Nat.testBit_land, Nat.testBit_xor, testBit_compl4,
      decide_eq_true hi]
    cases nx.testBit i <;> cases nz.testBit i <;>
      cases tx.testBit i <;> cases tz.testBit i <;> rfl

/-- The `YX` mask of the second application is the `YZ` mask of the first. -/
theorem maskB3 (nx nz tx tz : Nat) (h2 : nz < 16) :
    nx &&& nz &&& (nx ^^^ tx) &&& compl4 (nz ^^^ tz) =
      nx &&& nz &&& (compl4 tx &&& tz) := by
  apply Nat.eq_of_testBit_eq
  intro i
  by_cases hi : 4 ≤ i
  · simp [Nat.testBit_land, testBit_of_lt16 h2 hi]
  · push_neg at hi
    simp only [Nat.testBit_land, Nat.testBit_xor, testBit_compl4,
      decide_eq_true hi]
    cases nx.testBit i <;> cases nz.testBit i <;>
      cases tx.testBit i <;> cases tz.testBit i <;> rfl

/-- The `ZY` mask of the second application is the `ZX` mask of the first. -/
theorem maskB4 (nx nz tx tz : Nat) (h2 : nz < 16) :
    compl4 nx &&& nz &&& ((nx ^^^ tx) &&& (nz ^^^ tz)) =
      compl4 nx &&& nz &&& tx &&& compl4 tz := by
  apply Nat.eq_of_testBit_eq
  intro i
  by_cases hi : 4 ≤ i
  · simp [Nat.testBit_land, testBit_of_lt16 h2 hi]
  · push_neg at hi
    simp only [Nat.testBit_land, Nat.testBit_xor, testBit_compl4,
      decide_eq_true hi]
    cases nx.testBit i <;> cases nz.testBit i <;>
      cases tx.testBit i <;> cases tz.testBit i <;> rfl

/-- The `YY` mask of the second application is the `YI` mask of the first. -/
theorem maskB5 (nx nz tx tz : Nat) (h2 : nz < 16) :
    nx &&& nz &&& ((nx ^^^ tx) &&& (nz ^^^ tz)) =
      nx &&& nz &&& (compl4 tx &&& compl4 tz) := by
  apply Nat.eq_of_testBit_eq
  intro i
  by_cases hi : 4 ≤ i
  · simp [Nat.testBit_land, testBit_of_lt16 h2 hi]
  · push_neg at hi
    simp only [Nat.testBit_land, Nat.testBit_xor, testBit_compl4,
      decide_eq_true hi]
    cases nx.testBit i <;> cases nz.testBit i <;>
      cases tx.testBit i <;> cases tz.testBit i <;> rfl

/-- The `YX`, `YY`, `YZ` and `YI` masks partition the left operand's `Y`
mask (stated as an XOR of the four disjoint masks). -/
theorem maskPartition (nx nz tx tz : Nat) (h2 : nz < 16) :
    nx &&& nz &&& tx &&& compl4 tz ^^^ nx &&& nz &&& (tx &&& tz) ^^^
      nx &&& nz &&& (compl4 tx &&& tz) ^^^
      nx &&& nz &&& (compl4 tx &&& compl4 tz) = nx &&& nz := by
  apply Nat.eq_of_testBit_eq
  intro i
  by_cases hi : 4 ≤ i
  · simp [Nat.testBit_land, Nat.testBit_xor, testBit_compl4,
      testBit_of_lt16 h2 hi]
  · push_neg at hi
    simp only [Nat.testBit_land, Nat.testBit_xor, testBit_compl4,
      decide_eq_true hi]
    cases nx.testBit i <;> cases nz.testBit i <;>
      cases tx.testBit i <;> cases tz.testBit i <;> rfl

/-- AND distributes over XOR: the `Y` mask of the combined Pauli string
expands into the four pairwise AND masks. -/
theorem maskDistrib (nx nz tx tz : Nat) :
    (nx ^^^ tx) &&& (nz ^^^ tz) =
      nx &&& nz ^^^ nx &&& tz ^^^ tx &&& nz ^^^ tx &&& tz := by
  apply Nat.eq_of_testBit_eq
  intro i
  simp only [Nat.testBit_land, Nat.testBit_xor]
  cases nx.testBit i <;> cases nz.testBit i <;>
    cases tx.testBit i <;> cases tz.testBit i <;> rfl

theorem xor_decide_parity (m n : Nat) :
    xor (decide (m % 2 = 1)) (decide (n % 2 = 1)) = decide ((m + n) % 2 = 1) := by
  rcases Nat.mod_two_eq_zero_or_one m with hm | hm <;>
    rcases Nat.mod_two_eq_zero_or_one n with hn | hn <;>
      simp [hm, hn, Nat.add_mod]

theorem xor_float3 (a b c v : Bool) :
    xor a (xor b (xor c v)) = xor (xor a (xor b c)) v := by
  cases a <;> cases b <;> cases c <;> cases v <;> rfl

/-- Regroup the two five-term flip chains: parity flags to the left, the two
`mod 4` flags to the right. -/
theorem xor_regroup (d2 d3 d4 d5 e2 e3 e4 e5 v1 v2 : Bool) :
    xor (xor d2 (xor d3 (xor d4 (xor d5 v1))))
        (xor e2 (xor e3 (xor e4 (xor e5 v2)))) =
      xor (xor (xor d2 (xor d3 (xor d4 d5))) (xor e2 (xor e3 (xor e4 e5))))
        (xor v1 v2) := by
  cases d2 <;> cases d3 <;> cases d4 <;> cases d5 <;> cases e2 <;> cases e3 <;>
    cases e4 <;> cases e5 <;> cases v1 <;> cases v2 <;> rfl

/-- Aggregating eight parity flags into the parity of the total count. -/
theorem parity8 (p2 p3 p4 p5 q2 q3 q4 q5 r : Nat)
    (hsum : (p2 + p3 + p4 + p5 + q2 + q3 + q4 + q5) % 2 = r % 2) :
    xor (xor (decide (p2 % 2 = 1)) (xor (decide (p3 % 2 = 1))
          (xor (decide (p4 % 2 = 1)) (decide (p5 % 2 = 1)))))
        (xor (decide (q2 % 2 = 1)) (xor (decide (q3 % 2 = 1))
          (xor (decide (q4 % 2 = 1)) (decide (q5 % 2 = 1))))) =
      decide (r % 2 = 1) := by
  simp only [xor_decide_parity]
  rw [decide_eq_decide]
  omega

/-- The arithmetic heart of the double-application sign computation: when
`a + b + c` is odd, the parity flip on `a` and the two `mod 4` flips (one per
application, with `b` and `c` swapped) multiply to an overall `-1`. -/
theorem flips_arith (a b c : Nat) (h : (a + b + c) % 2 = 1) :
    xor (decide (a % 2 = 1))
      (xor (decide (((a : Int) + b - c + 1) % 4 ≠ 0))
           (decide (((a : Int) + c - b + 1) % 4 ≠ 0))) = true := by
  cases hd1 : decide (a % 2 = 1) <;>
    cases hd2 : decide (((a : Int) + b - c + 1) % 4 ≠ 0) <;>
      cases hd3 : decide (((a : Int) + c - b + 1) % 4 ≠ 0) <;>
        simp only [decide_eq_false_iff_not, decide_eq_true_eq, not_not]
          at hd1 hd2 hd3 <;>
        first
          | rfl
          | (exfalso; omega)

/-- Double application of the `Part8` sign flags (the second application on
the XORed Pauli string) always flips the overall sign on anticommuting
operands. -/
theorem signFlag_double (nx nz tx tz : Nat) (h1 : nx < 16) (h2 : nz < 16)
    (h3 : tx < 16) (h4 : tz < 16) (hanti : isCommuteB nx nz tx tz = false) :
    xor (Part8.signFlag nx nz tx tz)
        (Part8.signFlag nx nz (nx ^^^ tx) (nz ^^^ tz)) = true := by
  have hcompl4tz : compl4 tz < 16 := compl4_lt16 h4
  have hcompl4tx : compl4 tx < 16 := compl4_lt16 h3
  have hA3 : nx &&& nz &&& tx &&& compl4 tz < 16 := land_lt16r _ hcompl4tz
  have hA5 : nx &&& nz &&& (tx &&& tz) < 16 := land_lt16r _ (land_lt16 _ h3)
  have hE1 : nx &&& nz &&& (compl4 tx &&& tz) < 16 := land_lt16r _ (land_lt16r _ h4)
  have hE2 : nx &&& nz &&& (compl4 tx &&& compl4 tz) < 16 :=
    land_lt16r _ (land_lt16 _ hcompl4tx)
  -- parity of the sum of the four Y-partition masks is the parity of nY
  have hpart : (popCount (nx &&& nz &&& tx &&& compl4 tz) +
      popCount (nx &&& nz &&& (tx &&& tz)) +
      popCount (nx &&& nz &&& (compl4 tx &&& tz)) +
      popCount (nx &&& nz &&& (compl4 tx &&& compl4 tz))) % 2 =
      popCount (nx &&& nz) % 2 := by
    have e1 := popCount_xor_parity _ hA3 _ hA5
    have e2 := popCount_xor_parity _ (xor_lt16 hA3 hA5) _ hE1
    have e3 := popCount_xor_parity _ (xor_lt16 (xor_lt16 hA3 hA5) hE1) _ hE2
    rw [maskPartition nx nz tx tz h2] at e3
    omega
  -- parity of the Y count of the XY-combined string
  have hdist : popCount ((nx ^^^ tx) &&& (nz ^^^ tz)) % 2 =
      (popCount (nx &&& nz) + popCount (nx &&& tz) + popCount (tx &&& nz) +
        popCount (tx &&& tz)) % 2 := by
    have b1 : nx &&& nz < 16 := land_lt16 _ h1
    have b2 : nx &&& tz < 16 := land_lt16 _ h1
    have b3 : tx &&& nz < 16 := land_lt16 _ h3
    have b4 : tx &&& tz < 16 := land_lt16 _ h3
    have e1 := popCount_xor_parity _ b1 _ b2
    have e2 := popCount_xor_parity _ (xor_lt16 b1 b2) _ b3
    have e3 := popCount_xor_parity _ (xor_lt16 (xor_lt16 b1 b2) b3) _ b4
    rw [← maskDistrib nx nz tx tz] at e3
    omega
  have hanti' : (popCount (nx &&& tz) + popCount (nz &&& tx)) % 2 = 1 := by
    simp only [isCommuteB, decide_eq_false_iff_not] at hanti
    omega
  have hsum3 : (popCount (nx &&& nz) + popCount (tx &&& tz) +
      popCount ((nx ^^^ tx) &&& (nz ^^^ tz))) % 2 = 1 := by
    rw [Nat.land_comm nz tx] at hanti'
    omega
  simp only [Part8.signFlag]
  rw [maskB2 nx nz tx tz h2, maskB3 nx nz tx tz h2, maskB4 nx nz tx tz h2,
    maskB5 nx nz tx tz h2, xor_cancel_left16 nx tx, xor_cancel_left16 nz tz]
  rw [xor_regroup]
  rw [parity8 _ _ _ _ _ _ _ _ (popCount (nx &&& nz)) (by omega)]
  exact flips_arith (popCount (nx &&& nz)) (popCount (tx &&& tz))
    (popCount ((nx ^^^ tx) &&& (nz ^^^ tz))) hsum3

/-- The Clifford branch of `Part8.applyCommutationRR`, factored: the bases are
XORed and the angle is the right operand's angle times a sign given by the
`angle < 0` flip and the `signFlag` parity. -/
theorem part8RR_factored (n t : Rotation) (h : n.angle ≠ 0) :
    Part8.applyCommutationRR n t =
      ⟨(if xor (decide (n.angle < 0))
            (Part8.signFlag n.xBasis n.zBasis t.xBasis t.zBasis) = true
         then (-1 : Int) else 1) * t.angle,
       n.xBasis ^^^ t.xBasis, n.zBasis ^^^ t.zBasis⟩ := by
  simp only [Part8.applyCommutationRR, if_neg h, Part8.signFlag, condFlip]
  by_cases c2 : popCount (compl4 n.xBasis &&& n.zBasis &&& t.xBasis &&&
      compl4 t.zBasis) % 2 = 1 <;>
  by_cases c3 : popCount (n.xBasis &&& n.zBasis &&& t.xBasis &&&
      compl4 t.zBasis) % 2 = 1 <;>
  by_cases c4 : popCount (compl4 n.xBasis &&& n.zBasis &&&
      (t.xBasis &&& t.zBasis)) % 2 = 1 <;>
  by_cases c5 : popCount (n.xBasis &&& n.zBasis &&&
      (t.xBasis &&& t.zBasis)) % 2 = 1 <;>
  by_cases c6 : ((popCount (n.xBasis &&& n.zBasis) : Int) +
      popCount (t.xBasis &&& t.zBasis) -
      popCount ((n.xBasis ^^^ t.xBasis) &&& (n.zBasis ^^^ t.zBasis)) + 1) % 4 ≠ 0 <;>
  by_cases cneg : n.angle < 0 <;>
    simp [c2, c3, c4, c5, c6, cneg]

/-- C5 (counterexample): take `A = R(+2, Z)` and `B = R(-2, X)` on qubit 3;
they anticommute and `A` is Clifford, yet in both source revisions applying
the commutation rewrite twice with left operand `A` yields `R(+2, X)`, which
is not equal (by `Rotation::operator==`) to `B` — the angle has flipped
instead of being restored. -/
theorem applyCommutation_twice_counterexample :
    isCommuteB 0 1 1 0 = false ∧
    rotationEq (Trillium.applyCommutationRR ⟨2, 0, 1⟩
        (Trillium.applyCommutationRR ⟨2, 0, 1⟩ ⟨-2, 1, 0⟩)) ⟨-2, 1, 0⟩ = false ∧
    rotationEq (Part8.applyCommutationRR ⟨2, 0, 1⟩
        (Part8.applyCommutationRR ⟨2, 0, 1⟩ ⟨-2, 1, 0⟩)) ⟨-2, 1, 0⟩ = false := by
  decide

/-- C5 (amended): for anticommuting rotations with a non-T left operand, in
the `part_008` revision the double application of the commutation rewrite
returns `B` with a *flipped* angle when `A` is Clifford (`|angle| = 2`), and
returns `B` unchanged when `A` is Pauli (`angle = 0`) — the opposite of the
claimed assignment. -/
theorem applyCommutationRR_twice (A B : Rotation)
    (hax : A.xBasis < 16) (haz : A.zBasis < 16)
    (hbx : B.xBasis < 16) (hbz : B.zBasis < 16)
    (hanti : isCommuteB A.xBasis A.zBasis B.xBasis B.zBasis = false) :
    (A.angle.natAbs = 2 →
      Part8.applyCommutationRR A (Part8.applyCommutationRR A B) =
        ⟨-B.angle, B.xBasis, B.zBasis⟩) ∧
    (A.angle = 0 →
      Part8.applyCommutationRR A (Part8.applyCommutationRR A B) = B) := by
  obtain ⟨aa, ax, az⟩ := A
  obtain ⟨ba, bx, bz⟩ := B
  simp only at hax haz hbx hbz hanti
  constructor
  · intro hcl
    simp only at hcl
    have h0 : aa ≠ 0 := by omega
    rw [part8RR_factored ⟨aa, ax, az⟩ ⟨ba, bx, bz⟩ h0]
    rw [part8RR_factored ⟨aa, ax, az⟩ _ h0]
    simp only
    rw [xor_cancel_left16, xor_cancel_left16]
    have hd := signFlag_double ax az bx bz hax haz hbx hbz hanti
    cases hf1 : Part8.signFlag ax az bx bz <;>
      rw [hf1] at hd <;>
      cases hf2 : Part8.signFlag ax az (ax ^^^ bx) (az ^^^ bz) <;>
        rw [hf2] at hd <;>
        simp at hd <;>
        cases hneg : decide (aa < 0) <;>
          simp [hf1, hf2, hneg, Rotation.mk.injEq]
  · intro h0
    simp only at h0
    simp [Part8.applyCommutationRR, h0, Rotation.mk.injEq]

/-- Witness for `applyCommutationRR_twice` at the concrete anticommuting
pair `A = R(+2, Z)`, `B = R(+1, X)` (a T rotation). -/
theorem applyCommutationRR_twice_witness :
    (isCommuteB 0 1 1 0 = false ∧ ((⟨2, 0, 1⟩ : Rotation).angle.natAbs = 2)) ∧
      Part8.applyCommutationRR ⟨2, 0, 1⟩
        (Part8.applyCommutationRR ⟨2, 0, 1⟩ ⟨1, 1, 0⟩) = ⟨-1, 1, 0⟩ :=
  ⟨⟨by decide, by decide⟩,
    (applyCommutationRR_twice ⟨2, 0, 1⟩ ⟨1, 1, 0⟩ (by decide) (by decide)
      (by decide) (by decide) (by decide)).1 (by decide)⟩

/-- The Clifford branch of `Trillium.applyCommutationRR`, factored as for
`part8RR_factored`. -/
theorem trilliumRR_factored (n t : Rotation) (h : n.angle ≠ 0) :
    Trillium.applyCommutationRR n t =
      ⟨(if xor (decide (n.angle < 0))
            (Trillium.signFlag n.xBasis n.zBasis t.xBasis t.zBasis) = true
         then (-1 : Int) else 1) * t.angle,
       n.xBasis ^^^ t.xBasis, n.zBasis ^^^ t.zBasis⟩ := by
  simp only [Trillium.applyCommutationRR, if_neg h, Trillium.signFlag, condFlip]
  by_cases c2 : popCount (compl4 n.xBasis &&& n.zBasis &&& t.xBasis &&&
      compl4 t.zBasis) % 2 = 1 <;>
  by_cases c3 : popCount (n.xBasis &&& n.zBasis &&& t.xBasis &&&
      compl4 t.zBasis) % 2 = 1 <;>
  by_cases c4 : popCount (compl4 n.xBasis &&& n.zBasis &&&
      (t.xBasis &&& t.zBasis)) % 2 = 1 <;>
  by_cases c6 : ((popCount (n.xBasis &&& n.zBasis) : Int) +
      popCount (t.xBasis &&& t.zBasis) -
      popCount ((n.xBasis ^^^ t.xBasis) &&& (n.zBasis ^^^ t.zBasis)) + 1) % 4 ≠ 0 <;>
  by_cases cneg : n.angle < 0 <;>
    simp [c2, c3, c4, c6, cneg]

/-- C8 (counterexample): the Rotation×Rotation overload does not validate the
left operand's angle: rewriting across the T rotation `R(+1, X)` (angle `+1`,
outside `{0, +2, -2}`) succeeds and applies the Clifford branch, returning
`R(+1, Y)` instead of failing with an invalid-argument error. -/
theorem applyCommutationRR_no_validation :
    Trillium.applyCommutationRR ⟨1, 1, 0⟩ ⟨1, 0, 1⟩ = ⟨1, 1, 1⟩ := by decide

/-- C8 (amended): with a left operand angle outside `{0, +2, -2}` the
Rotation×Measure overload throws the invalid-argument error, but the
Rotation×Rotation overload never fails: any nonzero left angle takes the
Clifford branch, XORing the bases and preserving the magnitude of the right
operand's angle. -/
theorem applyCommutation_angle_validation (R : Rotation) (M : Measure)
    (B : Rotation) (h0 : R.angle ≠ 0) (h2 : R.angle.natAbs ≠ 2) :
    Trillium.applyCommutationRM R M =
        .error "Rotation must be Clifford or Pauli" ∧
      (Trillium.applyCommutationRR R B).xBasis = R.xBasis ^^^ B.xBasis ∧
      (Trillium.applyCommutationRR R B).zBasis = R.zBasis ^^^ B.zBasis ∧
      (Trillium.applyCommutationRR R B).angle.natAbs = B.angle.natAbs := by
  refine ⟨?_, ?_⟩
  · simp [Trillium.applyCommutationRM, h0, h2]
  · rw [trilliumRR_factored R B h0]
    refine ⟨rfl, rfl, ?_⟩
    split <;> simp [Int.natAbs_mul]

/-- Witness for `applyCommutation_angle_validation` with a left operand of
angle `3`. -/
theorem applyCommutation_angle_validation_witness :
    ((⟨3, 1, 0⟩ : Rotation).angle ≠ 0 ∧
        (⟨3, 1, 0⟩ : Rotation).angle.natAbs ≠ 2) ∧
      (Trillium.applyCommutationRM ⟨3, 1, 0⟩ ⟨true, 0, 1, [], -1⟩ =
          .error "Rotation must be Clifford or Pauli" ∧
        (Trillium.applyCommutationRR ⟨3, 1, 0⟩ ⟨1, 0, 1⟩).xBasis = 1 ^^^ 0 ∧
        (Trillium.applyCommutationRR ⟨3, 1, 0⟩ ⟨1, 0, 1⟩).zBasis = 0 ^^^ 1 ∧
        (Trillium.applyCommutationRR ⟨3, 1, 0⟩ ⟨1, 0, 1⟩).angle.natAbs =
          (1 : Int).natAbs) :=
  ⟨⟨by decide, by decide⟩,
    applyCommutation_angle_validation ⟨3, 1, 0⟩ ⟨true, 0, 1, [], -1⟩ ⟨1, 0, 1⟩
      (by decide) (by decide)⟩

/-- C4 (counterexample): take the Clifford rotation `R(+2, ZZZ)` and the
measurement `M(+, XXX)` (on three of the four qubits).  They anticommute; the
source (Trillium revision) returns phase `-` while the transform described by
the claim returns phase `+`: the fourth (i-count) flip condition of the
Rotation×Measure code differs from the Rotation×Rotation one. -/
theorem applyCommutationRM_fourth_condition :
    isCommuteB 0 7 7 0 = false ∧
      Trillium.applyCommutationRM ⟨2, 0, 7⟩ ⟨true, 7, 0, [], -1⟩ =
        .ok ⟨false, 7, 7, [], -1⟩ ∧
      applyCommutationRM_claimed ⟨2, 0, 7⟩ ⟨true, 7, 0, [], -1⟩ =
        .ok ⟨true, 7, 7, [], -1⟩ :=
  ⟨by decide, rfl, rfl⟩

/-- `condFlipB` is XOR with the condition's truth value. -/
theorem condFlipB_xor (c : Prop) [Decidable c] (p : Bool) :
    condFlipB c p = xor p (decide c) := by
  by_cases h : c <;> simp [condFlipB, h]

/-- C4 (amended): the Rotation×Measure rewrite of the Trillium revision
equals the amended transform: XORed bases, the three `ZX`/`XZX`/`ZXZ` parity
flips of the Rotation×Rotation rewrite, a fourth flip when
`cY(R) + cY(M) - cY(M')` is positive and odd (not the Rotation×Rotation
i-count condition), one extra flip exactly when the angle is `-2`, and a
phase-only flip for a Pauli left operand; classically-controlled rotations
are rewritten elementwise in both branches. -/
theorem applyCommutationRM_eq_amendedSpec (R1 : Rotation) (M1 : Measure) :
    Trillium.applyCommutationRM R1 M1 = applyCommutationRM_amendedSpec R1 M1 := by
  by_cases h0 : R1.angle = 0
  · simp [Trillium.applyCommutationRM, applyCommutationRM_amendedSpec, h0]
  · by_cases h2 : R1.angle.natAbs = 2
    · simp only [Trillium.applyCommutationRM, applyCommutationRM_amendedSpec,
        if_neg h0, if_pos h2, condFlipB_xor, Except.ok.injEq, Measure.mk.injEq,
        and_true, true_and]
      cases M1.phase <;>
        cases hc1 : decide (popCount (compl4 R1.xBasis &&& R1.zBasis &&&
          M1.xBasis &&& compl4 M1.zBasis) % 2 = 1) <;>
        cases hc2 : decide (popCount (R1.xBasis &&& R1.zBasis &&& M1.xBasis &&&
          compl4 M1.zBasis) % 2 = 1) <;>
        cases hc3 : decide (popCount (compl4 R1.xBasis &&& R1.zBasis &&&
          (M1.xBasis &&& M1.zBasis)) % 2 = 1) <;>
        cases hc4 : decide ((((popCount (R1.xBasis &&& R1.zBasis) : Int) +
          popCount (M1.xBasis &&& M1.zBasis) -
          popCount ((R1.xBasis ^^^ M1.xBasis) &&&
            (R1.zBasis ^^^ M1.zBasis))) % 2 = 1 ∧
          0 < ((popCount (R1.xBasis &&& R1.zBasis) : Int) +
          popCount (M1.xBasis &&& M1.zBasis) -
          popCount ((R1.xBasis ^^^ M1.xBasis) &&&
            (R1.zBasis ^^^ M1.zBasis))))) <;>
        cases hc5 : decide (R1.angle = -2) <;>
          simp [hc1, hc2, hc3, hc4, hc5]
    · simp [Trillium.applyCommutationRM, applyCommutationRM_amendedSpec,
        h0, h2]

/-! ### The T-forwarding pass (`pushTForwardThread` / `pushTForward`,
identical in both revisions up to the `applyCommutation` they call, which is
passed here as the parameter `acRR`).

`pushTForwardThread` casts `flattenGates[pivot-1]` with
`static_pointer_cast<Rotation>` before knowing whether it is a `Rotation`;
when the gate is in fact a `Measure`, the bit vectors are read correctly
from the shared base-object layout but the `angle` field overlaps unrelated
members, so the value read is unspecified.  The oracle `g : Measure → Int`
supplies that unspecified value; every theorem below holds for all `g`.

The thread-sliced execution is modelled by running the slices sequentially:
each worker only reads and writes indices of its own slice `[begin, end)`,
and the coordinator joins all workers before reading, so the parallel
execution is equivalent to the sequential composition of the slices. -/

theorem getD_set_ne (l : List Operation) {i j : Nat} (a : Operation)
    (h : i ≠ j) : (l.set i a).getD j default = l.getD j default := by
  simp [List.getD, List.getElem?_set_ne h]

theorem getD_set_self (l : List Operation) {i : Nat} (a : Operation)
    (h : i < l.length) : (l.set i a).getD i default = a := by
  simp [List.getD, List.getElem?_set_self, h]

theorem countP_set (p : Operation → Bool) :
    ∀ (l : List Operation) (i : Nat) (a : Operation), i < l.length →
      (l.set i a).countP p + (if p (l.getD i default) then 1 else 0) =
        l.countP p + (if p a then 1 else 0)
  | [], i, _, h => by simp at h
  | x :: xs, 0, a, _ => by
    simp only [List.set, List.countP_cons, List.getD_cons_zero]
    omega
  | x :: xs, i + 1, a, h => by
    have ih := countP_set p xs i a (by simpa using h)
    simp only [List.set, List.countP_cons, List.getD_cons_succ]
    omega

theorem isCommuteB_self (x z : Nat) : isCommuteB x z x z = true := by
  rw [isCommuteB, Nat.land_comm z x]
  simp only [decide_eq_true_eq]
  omega

theorem isTgate_true_iff (r : Rotation) :
    r.isTgate = true ↔ (r.isIdentity = false ∧ r.angle.natAbs = 1) := by
  rw [Rotation.isTgate]
  cases h : r.isIdentity <;> simp [h]

theorem rotView_xBasis (g : Measure → Int) (o : Operation) :
    (rotView g o).xBasis = o.xB := by cases o <;> rfl

theorem rotView_zBasis (g : Measure → Int) (o : Operation) :
    (rotView g o).zBasis = o.zB := by cases o <;> rfl

/-- Both revisions' Rotation×Rotation rewrite preserve the T-ness of the
right operand when the operands anticommute. -/
theorem preservesT_of_parts (acRR : Rotation → Rotation → Rotation)
    (hpauli : ∀ n t, n.angle = 0 → acRR n t = ⟨-1 * t.angle, t.xBasis, t.zBasis⟩)
    (hfac : ∀ n t, n.angle ≠ 0 → ∃ s : Int, (s = 1 ∨ s = -1) ∧
      acRR n t = ⟨s * t.angle, n.xBasis ^^^ t.xBasis, n.zBasis ^^^ t.zBasis⟩) :
    preservesT acRR := by
  intro p t hanti hT
  rw [isTgate_true_iff] at hT ⊢
  obtain ⟨hni, hone⟩ := hT
  by_cases h0 : p.angle = 0
  · rw [hpauli p t h0]
    refine ⟨hni, ?_⟩
    simpa using hone
  · obtain ⟨s, hs, heq⟩ := hfac p t h0
    rw [heq]
    constructor
    · simp only [Rotation.isIdentity, Bool.and_eq_false_iff, decide_eq_false_iff_not]
      by_contra hcon
      push_neg at hcon
      have hx : p.xBasis = t.xBasis := Nat.xor_eq_zero.mp hcon.1
      have hz : p.zBasis = t.zBasis := Nat.xor_eq_zero.mp hcon.2
      rw [hx, hz, isCommuteB_self] at hanti
      simp at hanti
    · rcases hs with h | h <;> simp [h, Int.natAbs_mul, hone]

theorem preservesT_trillium : preservesT Trillium.applyCommutationRR := by
  apply preservesT_of_parts
  · intro n t h0
    simp [Trillium.applyCommutationRR, h0]
  · intro n t h0
    refine ⟨_, ?_, trilliumRR_factored n t h0⟩
    split <;> simp

theorem preservesT_part8 : preservesT Part8.applyCommutationRR := by
  apply preservesT_of_parts
  · intro n t h0
    simp [Part8.applyCommutationRR, h0]
  · intro n t h0
    refine ⟨_, ?_, part8RR_factored n t h0⟩
    split <;> simp

/-- Full characterisation of one bubble pass: the T rotation ends at `first`
(possibly rewritten but still a T), the crossed gates shift one slot right,
everything else is untouched, and the T count is preserved. -/
theorem bubbleT_spec (acRR : Rotation → Rotation → Rotation)
    (hpres : preservesT acRR) (g : Measure → Int) (first : Nat) :
    ∀ (pivot : Nat) (l : List Operation) (cur : Rotation),
      first ≤ pivot → pivot < l.length → cur.isTgate = true →
      l.getD pivot default = .rot cur →
      (∀ j, first ≤ j → j < pivot → (l.getD j default).isTgate = false) →
      ∃ cur2 : Rotation,
        (bubbleT acRR g first pivot l cur).length = l.length ∧
        cur2.isTgate = true ∧
        (bubbleT acRR g first pivot l cur).getD first default = .rot cur2 ∧
        (∀ j, first < j → j ≤ pivot →
          (bubbleT acRR g first pivot l cur).getD j default =
            l.getD (j - 1) default) ∧
        (∀ j, j < first ∨ pivot < j →
          (bubbleT acRR g first pivot l cur).getD j default =
            l.getD j default) ∧
        countT (bubbleT acRR g first pivot l cur) = countT l := by
  intro pivot
  induction pivot with
  | zero =>
    intro l cur h1 h2 h3 h4 _
    have hf0 : first = 0 := Nat.le_zero.mp h1
    subst hf0
    exact ⟨cur, rfl, h3, h4, fun j hj1 hj2 => absurd hj2 (by omega),
      fun j _ => rfl, rfl⟩
  | succ n ih =>
    intro l cur h1 h2 h3 h4 h5
    rw [bubbleT]
    by_cases hfp : first < n + 1
    · rw [if_pos hfp]
      set prev := l.getD n default with hprev
      set cur2 := if (Operation.rot cur).isCommute prev then cur
                  else acRR (rotView g prev) cur with hcur2
      set l2 := (l.set (n + 1) prev).set n (.rot cur2) with hl2
      have hnlen : n < l.length := by omega
      have hlen2 : l2.length = l.length := by simp [hl2]
      have hTcur2 : cur2.isTgate = true := by
        rw [hcur2]
        split
        · exact h3
        · rename_i hcomm
          have hfalse : (Operation.rot cur).isCommute prev = false := by
            cases hc : (Operation.rot cur).isCommute prev
            · rfl
            · exact absurd hc hcomm
          apply hpres
          · rw [rotView_xBasis, rotView_zBasis]
            simpa [Operation.isCommute, Operation.xB, Operation.zB] using hfalse
          · exact h3
      have hl2n : l2.getD n default = .rot cur2 := by
        rw [hl2]
        exact getD_set_self _ _ (by simpa using hnlen)
      have hl2n1 : l2.getD (n + 1) default = prev := by
        rw [hl2, @getD_set_ne (l.set (n + 1) prev) n (n + 1) (Operation.rot cur2) (by omega)]
        exact getD_set_self _ _ (by simpa using h2)
      have hl2out : ∀ j, j ≠ n → j ≠ n + 1 →
          l2.getD j default = l.getD j default := by
        intro j hj1 hj2
        rw [hl2, @getD_set_ne (l.set (n + 1) prev) n j (Operation.rot cur2)
          (fun h => hj1 h.symm)]
        exact @getD_set_ne l (n + 1) j prev (fun h => hj2 h.symm)
      have hcl2 : countT l2 = countT l := by
        have hstep1 := countP_set (fun o => o.isTgate) l (n + 1) prev h2
        have hstep2 := countP_set (fun o => o.isTgate) (l.set (n + 1) prev) n
          (.rot cur2) (by simpa using hnlen)
        rw [@getD_set_ne l (n + 1) n prev (by omega)] at hstep2
        rw [h4] at hstep1
        have hc1 : (fun (o : Operation) => o.isTgate) (Operation.rot cur) = true := h3
        have hc2 : (fun (o : Operation) => o.isTgate) (Operation.rot cur2) = true := hTcur2
        rw [hc1] at hstep1
        rw [hc2] at hstep2
        rw [hl2, countT, countT]
        cases hp : (fun (o : Operation) => o.isTgate) prev <;>
          rw [hp] at hstep1 hstep2 <;> simp at hstep1 hstep2 <;> omega
      have ihres := ih l2 cur2 (by omega) (by omega) hTcur2 hl2n
        (by
          intro j hj1 hj2
          rw [hl2out j (by omega) (by omega)]
          exact h5 j hj1 (by omega))
      obtain ⟨cur3, P1, P2, P3, P4, P5, P6⟩ := ihres
      refine ⟨cur3, ?_, P2, P3, ?_, ?_, ?_⟩
      · rw [P1, hlen2]
      · intro j hj1 hj2
        by_cases hj : j ≤ n
        · rw [P4 j hj1 hj]
          exact hl2out (j - 1) (by omega) (by omega)
        · have hje : j = n + 1 := by omega
          subst hje
          rw [P5 (n + 1) (Or.inr (by omega)), hl2n1]
          exact hprev
      · intro j hj
        rcases hj with hj | hj
        · rw [P5 j (Or.inl hj)]
          exact hl2out j (by omega) (by omega)
        · rw [P5 j (Or.inr (by omega))]
          exact hl2out j (by omega) (by omega)
      · rw [P6, hcl2]
    · rw [if_neg hfp]
      have hfe : first = n + 1 := by omega
      refine ⟨cur, rfl, h3, ?_, ?_, ?_, rfl⟩
      · rw [hfe]
        exact h4
      · intro j hj1 hj2
        omega
      · intro j _
        rfl

theorem operationFromBasisGo_error_iff (cs : List Char) :
    ∀ (qs : List Int) (x z : Nat), cs.length = qs.length →
      ((∃ e, operationFromBasisGo cs qs x z = .error e) ↔
        ∃ c ∈ cs, c ≠ 'x' ∧ c ≠ 'z' ∧ c ≠ 'y') := by
  induction cs with
  | nil => intro qs x z h; simp [operationFromBasisGo]
  | cons c cs ih =>
    intro qs x z h
    cases qs with
    | nil => simp at h
    | cons q qs =>
      simp only [List.length_cons, Nat.add_right_cancel_iff] at h
      by_cases hx : c = 'x'
      · simpa [operationFromBasisGo, hx] using ih qs (x + basisAddend q) z h
      · by_cases hz : c = 'z'
        · simpa [operationFromBasisGo, hx, hz] using ih qs x (z + basisAddend q) h
        · by_cases hy : c = 'y'
          · simpa [operationFromBasisGo, hx, hz, hy] using
              ih qs (x + basisAddend q) (z + basisAddend q) h
          · simp only [operationFromBasisGo, if_neg hx, if_neg hz, if_neg hy]
            constructor
            · intro _; exact ⟨c, by simp, hx, hz, hy⟩
            · intro _; exact ⟨"Unknown basis", rfl⟩

/-- C9 (counterexample): the constructor silently accepts a duplicated qubit
index (the two `2^3` contributions carry into bit 4 and are truncated away,
yielding the identity string) and an out-of-range qubit index (which
contributes no bit at all); neither input raises the invalid-argument error
the claim requires. -/
theorem operationFromBasis_silent_accept :
    operationFromBasis ['x', 'x'] [0, 0] = .ok (0, 0) ∧
      operationFromBasis ['x'] [4] = .ok (0, 0) := by
  constructor <;> rfl

/-- C9 (amended): the constructor raises the invalid-argument error exactly
when the two vectors have different sizes or some basis character is outside
`{x, y, z}`; out-of-range and duplicated qubit indices are accepted silently.
(The `-27 ≤ q` bound keeps the modelled `(int)pow(2, numQubits-1-q)` inside
the range where the C++ cast is defined.) -/
theorem operationFromBasis_error_iff (basis : List Char) (qubits : List Int)
    (hq : ∀ q ∈ qubits, -27 ≤ q) :
    (∃ e, operationFromBasis basis qubits = .error e) ↔
      (basis.length ≠ qubits.length ∨ ∃ c ∈ basis, c ≠ 'x' ∧ c ≠ 'z' ∧ c ≠ 'y') := by
  by_cases hlen : basis.length = qubits.length
  · simpa [operationFromBasis, hlen] using
      operationFromBasisGo_error_iff basis qubits 0 0 hlen
  · simp [operationFromBasis, hlen]

/-- Witness for `operationFromBasis_error_iff` at a concrete ill-formed
input. -/
theorem operationFromBasis_error_iff_witness :
    (∀ q ∈ [(0 : Int)], -27 ≤ q) ∧
      ((∃ e, operationFromBasis ['w'] [0] = .error e) ↔
        ((['w'] : List Char).length ≠ ([0] : List Int).length ∨
          ∃ c ∈ ['w'], c ≠ 'x' ∧ c ≠ 'z' ∧ c ≠ 'y')) :=
  ⟨by decide, operationFromBasis_error_iff ['w'] [0] (by decide)⟩

/-- C10: the equality operators short-circuit on identity Pauli strings: two
measurements whose bit vectors are all-zero compare equal whatever their
phases and controlled-rotation lists are, and two all-zero rotations compare
equal whatever their angles are. -/
theorem identity_equality_ignores_fields (m1 m2 : Measure) (r1 r2 : Rotation)
    (hm1x : m1.xBasis = 0) (hm1z : m1.zBasis = 0)
    (hm2x : m2.xBasis = 0) (hm2z : m2.zBasis = 0)
    (hr1x : r1.xBasis = 0) (hr1z : r1.zBasis = 0)
    (hr2x : r2.xBasis = 0) (hr2z : r2.zBasis = 0) :
    measureEq m1 m2 = true ∧ rotationEq r1 r2 = true := by
  constructor
  · simp [measureEq, Measure.isIdentity, hm1x, hm1z, hm2x, hm2z]
  · simp [rotationEq, Rotation.isIdentity, hr1x, hr1z, hr2x, hr2z]

/-- Witness for `identity_equality_ignores_fields`: the phases, the
controlled-rotation lists and the angles all differ, yet both comparisons
return `true`. -/
theorem identity_equality_ignores_fields_witness :
    measureEq ⟨true, 0, 0, [], -1⟩ ⟨false, 0, 0, [⟨1, 1, 0⟩], 3⟩ = true ∧
      rotationEq ⟨1, 0, 0⟩ ⟨-2, 0, 0⟩ = true :=
  identity_equality_ignores_fields _ _ _ _ rfl rfl rfl rfl rfl rfl rfl rfl

/-- C3: the case analysis of `combineRotation` on two rotations with equal,
non-identity Pauli strings, in the order the rules are applied: sum zero
fuses to nothing; a zero-angle operand combines only with a `-2` partner and
the result carries angle `+2`; sum of magnitude `3` refuses; sum of magnitude
`4` collapses to angle `0`; otherwise the summed angle survives on the shared
Pauli string. -/
theorem combineRotation_rules (R1 R2 : Rotation)
    (hx : R1.xBasis = R2.xBasis) (hz : R1.zBasis = R2.zBasis)
    (hni : R1.isIdentity = false) :
    (R1.angle + R2.angle = 0 → combineRotation R1 R2 = (true, [])) ∧
    (R1.angle + R2.angle ≠ 0 → (R1.angle = 0 ∨ R2.angle = 0) →
      (((R1.angle = -2 ∧ R2.angle = 0) ∨ (R1.angle = 0 ∧ R2.angle = -2)) →
        combineRotation R1 R2 = (true, [⟨2, R1.xBasis, R1.zBasis⟩])) ∧
      (¬((R1.angle = -2 ∧ R2.angle = 0) ∨ (R1.angle = 0 ∧ R2.angle = -2)) →
        combineRotation R1 R2 = (false, [R1, R2]))) ∧
    (R1.angle ≠ 0 → R2.angle ≠ 0 → (R1.angle + R2.angle).natAbs = 3 →
      combineRotation R1 R2 = (false, [R1, R2])) ∧
    (R1.angle ≠ 0 → R2.angle ≠ 0 → (R1.angle + R2.angle).natAbs = 4 →
      combineRotation R1 R2 = (true, [⟨0, R1.xBasis, R1.zBasis⟩])) ∧
    (R1.angle ≠ 0 → R2.angle ≠ 0 → R1.angle + R2.angle ≠ 0 →
      (R1.angle + R2.angle).natAbs ≠ 3 → (R1.angle + R2.angle).natAbs ≠ 4 →
      combineRotation R1 R2 = (true, [⟨R1.angle + R2.angle, R1.xBasis, R1.zBasis⟩])) := by
  have hni2 : R2.isIdentity = false := by
    rw [Rotation.isIdentity] at hni ⊢
    rw [← hx, ← hz]
    exact hni
  refine ⟨?_, ?_, ?_, ?_, ?_⟩
  · intro hsum
    simp [combineRotation, hni, hni2, hx, hz, hsum]
  · intro hsum hzero
    constructor
    · rintro (⟨h1, h2⟩ | ⟨h1, h2⟩)
      · simp [combineRotation, hni, hni2, hx, hz, h1, h2]
      · simp [combineRotation, hni, hni2, hx, hz, h1, h2]
    · intro hnot
      rcases hzero with h0 | h0
      · have hne : R2.angle ≠ -2 := fun hh => hnot (Or.inr ⟨h0, hh⟩)
        have hne0 : R2.angle ≠ 0 := by omega
        simp [combineRotation, hni, hni2, hx, hz, h0, hsum, hne, hne0]
      · have hne : R1.angle ≠ -2 := fun hh => hnot (Or.inl ⟨hh, h0⟩)
        have hne0 : R1.angle ≠ 0 := by omega
        simp [combineRotation, hni, hni2, hx, hz, h0, hsum, hne, hne0]
  · intro h1 h2 h3
    have hsum : R1.angle + R2.angle ≠ 0 := by omega
    simp [combineRotation, hni, hni2, hx, hz, h1, h2, hsum, h3]
  · intro h1 h2 h4
    have hsum : R1.angle + R2.angle ≠ 0 := by omega
    have h3 : (R1.angle + R2.angle).natAbs ≠ 3 := by omega
    simp [combineRotation, hni, hni2, hx, hz, h1, h2, hsum, h3, h4]
  · intro h1 h2 hsum h3 h4
    simp [combineRotation, hni, hni2, hx, hz, h1, h2, hsum, h3, h4]

/-- Witness for `combineRotation_rules` at two concrete `X`-rotations. -/
theorem combineRotation_rules_witness :
    ((⟨1, 8, 0⟩ : Rotation).xBasis = (⟨1, 8, 0⟩ : Rotation).xBasis ∧
        (⟨1, 8, 0⟩ : Rotation).isIdentity = false) ∧
      combineRotation ⟨1, 8, 0⟩ ⟨1, 8, 0⟩ = (true, [⟨2, 8, 0⟩]) :=
  ⟨⟨rfl, rfl⟩, by
    have h := (combineRotation_rules ⟨1, 8, 0⟩ ⟨1, 8, 0⟩ rfl rfl rfl).2.2.2.2
    simpa using h (by decide) (by decide) (by decide) (by decide) (by decide)⟩

/-- `findFirstNonTGo` either scans off the end (every gate in the range is a
T rotation, result `l.length`) or stops at the first non-T gate. -/
theorem findFirstNonTGo_spec (l : List Operation) :
    ∀ (rem i : Nat), i + rem ≤ l.length →
      (findFirstNonTGo l i rem = l.length ∧
        ∀ j, i ≤ j → j < i + rem → (l.getD j default).isTgate = true) ∨
      (i ≤ findFirstNonTGo l i rem ∧ findFirstNonTGo l i rem < i + rem ∧
        (∀ j, i ≤ j → j < findFirstNonTGo l i rem →
          (l.getD j default).isTgate = true) ∧
        (l.getD (findFirstNonTGo l i rem) default).isTgate = false) := by
  intro rem
  induction rem with
  | zero =>
    intro i _
    exact Or.inl ⟨rfl, fun j hj1 hj2 => absurd hj2 (by omega)⟩
  | succ n ih =>
    intro i h
    cases hi : l.getD i default with
    | meas m =>
      have heq : findFirstNonTGo l i (n + 1) = i := by
        simp only [findFirstNonTGo]
        rw [hi]
      rw [heq]
      refine Or.inr ⟨le_refl i, by omega,
        fun j hj1 hj2 => absurd hj2 (by omega), ?_⟩
      rw [hi]
      rfl
    | rot r =>
      by_cases ht : r.isTgate = true
      · have heq : findFirstNonTGo l i (n + 1) = findFirstNonTGo l (i + 1) n := by
          simp only [findFirstNonTGo]
          rw [hi]
          exact if_pos ht
        rw [heq]
        rcases ih (i + 1) (by omega) with ⟨he, hall⟩ | ⟨h1, h2, h3, h4⟩
        · refine Or.inl ⟨he, fun j hj1 hj2 => ?_⟩
          by_cases hji : j = i
          · subst hji
            rw [hi]
            exact ht
          · exact hall j (by omega) (by omega)
        · refine Or.inr ⟨by omega, by omega, fun j hj1 hj2 => ?_, h4⟩
          by_cases hji : j = i
          · subst hji
            rw [hi]
            exact ht
          · exact h3 j (by omega) hj2
      · have heq : findFirstNonTGo l i (n + 1) = i := by
          simp only [findFirstNonTGo]
          rw [hi]
          exact if_neg ht
        rw [heq]
        refine Or.inr ⟨le_refl i, by omega,
          fun j hj1 hj2 => absurd hj2 (by omega), ?_⟩
        rw [hi]
        simpa [Operation.isTgate] using ht

/-- Invariant of the main loop of `pushTForwardThread`: scanning `[i, i+rem)`
with the T gates so far packed into `[?, first)` and `[first, i)` free of T
gates, the loop returns a split `k` with `[first, k)` all T, `[k, i+rem)` free
of T, everything outside `[first, i+rem)` untouched, and the T count kept. -/
theorem ptfGo_spec (acRR : Rotation → Rotation → Rotation)
    (hpres : preservesT acRR) (g : Measure → Int) :
    ∀ (rem i first : Nat) (l : List Operation),
      first ≤ i → i + rem ≤ l.length →
      (∀ j, first ≤ j → j < i → (l.getD j default).isTgate = false) →
      (ptfGo acRR g rem i first l).1.length = l.length ∧
      first ≤ (ptfGo acRR g rem i first l).2 ∧
      (ptfGo acRR g rem i first l).2 ≤ i + rem ∧
      (∀ j, first ≤ j → j < (ptfGo acRR g rem i first l).2 →
        ((ptfGo acRR g rem i first l).1.getD j default).isTgate = true) ∧
      (∀ j, (ptfGo acRR g rem i first l).2 ≤ j → j < i + rem →
        ((ptfGo acRR g rem i first l).1.getD j default).isTgate = false) ∧
      (∀ j, j < first ∨ i + rem ≤ j →
        (ptfGo acRR g rem i first l).1.getD j default = l.getD j default) ∧
      countT (ptfGo acRR g rem i first l).1 = countT l := by
  intro rem
  induction rem with
  | zero =>
    intro i first l h1 h2 h3
    have heq : ptfGo acRR g 0 i first l = (l, first) := rfl
    rw [heq]
    exact ⟨rfl, le_refl first, by omega,
      fun j hj1 hj2 => absurd hj2 (by omega),
      fun j hj1 hj2 => h3 j (by omega) (by omega),
      fun j _ => rfl, rfl⟩
  | succ n ih =>
    intro i first l h1 h2 h3
    cases hi : l.getD i default with
    | meas m =>
      have heq : ptfGo acRR g (n + 1) i first l = ptfGo acRR g n (i + 1) first l := by
        simp only [ptfGo]
        rw [hi]
      have h3n : ∀ j, first ≤ j → j < i + 1 → (l.getD j default).isTgate = false := by
        intro j hj1 hj2
        by_cases hji : j = i
        · subst hji
          rw [hi]
          rfl
        · exact h3 j hj1 (by omega)
      obtain ⟨P1, P2, P3, P4, P5, P6, P7⟩ := ih (i + 1) first l (by omega) (by omega) h3n
      rw [heq]
      exact ⟨P1, P2, by omega, P4, fun j hj1 hj2 => P5 j hj1 (by omega),
        fun j hj => P6 j (by rcases hj with hj | hj; exact Or.inl hj; exact Or.inr (by omega)),
        P7⟩
    | rot r =>
      by_cases ht : r.isTgate = true
      · have heq : ptfGo acRR g (n + 1) i first l =
            ptfGo acRR g n (i + 1) (first + 1) (bubbleT acRR g first i l r) := by
          simp only [ptfGo]
          rw [hi]
          exact if_pos ht
        obtain ⟨cur2, B1, B2, B3, B4, B5, B6⟩ :=
          bubbleT_spec acRR hpres g first i l r h1 (by omega) ht hi h3
        have h3n : ∀ j, first + 1 ≤ j → j < i + 1 →
            ((bubbleT acRR g first i l r).getD j default).isTgate = false := by
          intro j hj1 hj2
          rw [B4 j (by omega) (by omega)]
          exact h3 (j - 1) (by omega) (by omega)
        obtain ⟨P1, P2, P3, P4, P5, P6, P7⟩ :=
          ih (i + 1) (first + 1) (bubbleT acRR g first i l r)
            (by omega) (by omega) h3n
        rw [heq]
        refine ⟨by rw [P1, B1], by omega, by omega, ?_, ?_, ?_, by rw [P7, B6]⟩
        · intro j hj1 hj2
          by_cases hjf : j = first
          · subst hjf
            rw [P6 j (Or.inl (by omega)), B3]
            exact B2
          · exact P4 j (by omega) hj2
        · intro j hj1 hj2
          exact P5 j hj1 (by omega)
        · intro j hj
          have hout : (ptfGo acRR g n (i + 1) (first + 1)
              (bubbleT acRR g first i l r)).1.getD j default =
              (bubbleT acRR g first i l r).getD j default := by
            rcases hj with hj | hj
            · exact P6 j (Or.inl (by omega))
            · exact P6 j (Or.inr (by omega))
          rw [hout]
          rcases hj with hj | hj
          · exact B5 j (Or.inl hj)
          · exact B5 j (Or.inr (by omega))
      · have heq : ptfGo acRR g (n + 1) i first l = ptfGo acRR g n (i + 1) first l := by
          simp only [ptfGo]
          rw [hi]
          exact if_neg ht
        have h3n : ∀ j, first ≤ j → j < i + 1 → (l.getD j default).isTgate = false := by
          intro j hj1 hj2
          by_cases hji : j = i
          · subst hji
            rw [hi]
            simpa [Operation.isTgate] using ht
          · exact h3 j hj1 (by omega)
        obtain ⟨P1, P2, P3, P4, P5, P6, P7⟩ := ih (i + 1) first l (by omega) (by omega) h3n
        rw [heq]
        exact ⟨P1, P2, by omega, P4, fun j hj1 hj2 => P5 j hj1 (by omega),
          fun j hj => P6 j (by rcases hj with hj | hj; exact Or.inl hj; exact Or.inr (by omega)),
          P7⟩

/-- `pushTForwardThread` on `[b, e)` returns a split `k` with `[b, k)` all T
rotations, `[k, e)` free of T rotations, the rest of the list untouched, the
length unchanged and the T count kept. -/
theorem pushTForwardThread_spec (acRR : Rotation → Rotation → Rotation)
    (hpres : preservesT acRR) (g : Measure → Int) (l : List Operation)
    (b e : Nat) (hbe : b ≤ e) (hel : e ≤ l.length) :
    (pushTForwardThread acRR g l b e).1.length = l.length ∧
    b ≤ (pushTForwardThread acRR g l b e).2 ∧
    (pushTForwardThread acRR g l b e).2 ≤ e ∧
    (∀ j, b ≤ j → j < (pushTForwardThread acRR g l b e).2 →
      ((pushTForwardThread acRR g l b e).1.getD j default).isTgate = true) ∧
    (∀ j, (pushTForwardThread acRR g l b e).2 ≤ j → j < e →
      ((pushTForwardThread acRR g l b e).1.getD j default).isTgate = false) ∧
    (∀ j, j < b ∨ e ≤ j →
      (pushTForwardThread acRR g l b e).1.getD j default = l.getD j default) ∧
    countT (pushTForwardThread acRR g l b e).1 = countT l := by
  by_cases hl0 : l.length = 0
  · have heq : pushTForwardThread acRR g l b e = (l, 0) := by
      rw [pushTForwardThread, if_pos hl0]
    rw [heq]
    exact ⟨rfl, by omega, by omega,
      fun j hj1 hj2 => absurd hj2 (by omega),
      fun j hj1 hj2 => absurd hj2 (by omega),
      fun j _ => rfl, rfl⟩
  · have hff := findFirstNonTGo_spec l (e - b) b (by omega)
    by_cases hf : e - 1 < findFirstNonT l b e
    · have heq : pushTForwardThread acRR g l b e = (l, e) := by
        simp only [pushTForwardThread]
        rw [if_neg hl0, if_pos hf]
      rw [heq]
      rcases hff with ⟨_, hall⟩ | ⟨h1, h2, _, _⟩
      · exact ⟨rfl, hbe, le_refl e,
          fun j hj1 hj2 => hall j hj1 (by omega),
          fun j hj1 hj2 => absurd hj2 (by omega),
          fun j _ => rfl, rfl⟩
      · exfalso
        rw [findFirstNonT] at hf
        omega
    · have heq : pushTForwardThread acRR g l b e =
          ptfGo acRR g (e - (findFirstNonT l b e + 1))
            (findFirstNonT l b e + 1) (findFirstNonT l b e) l := by
        simp only [pushTForwardThread]
        rw [if_neg hl0, if_neg hf]
      rcases hff with ⟨he, _⟩ | ⟨h1, h2, h3, h4⟩
      · exfalso
        rw [findFirstNonT] at hf
        omega
      · rw [findFirstNonT] at hf
        set f := findFirstNonTGo l b (e - b) with hfdef
        have hfe : f < e := by omega
        have h3n : ∀ j, f ≤ j → j < f + 1 → (l.getD j default).isTgate = false := by
          intro j hj1 hj2
          have hje : j = f := by omega
          subst hje
          exact h4
        obtain ⟨P1, P2, P3, P4, P5, P6, P7⟩ :=
          ptfGo_spec acRR hpres g (e - (f + 1)) (f + 1) f l (by omega) (by omega) h3n
        have hfnt : findFirstNonT l b e = f := rfl
        rw [heq, hfnt]
        refine ⟨P1, by omega, by omega, ?_, ?_, ?_, P7⟩
        · intro j hj1 hj2
          by_cases hjf : j < f
          · rw [P6 j (Or.inl hjf)]
            exact h3 j hj1 hjf
          · exact P4 j (by omega) hj2
        · intro j hj1 hj2
          exact P5 j hj1 (by omega)
        · intro j hj
          rcases hj with hj | hj
          · exact P6 j (Or.inl (by omega))
          · exact P6 j (Or.inr (by omega))

theorem getLastD_ne_nil {xs : List Nat} (h : xs ≠ []) (x y : Nat) :
    xs.getLastD x = xs.getLastD y := by
  cases xs with
  | nil => exact absurd rfl h
  | cons a t => rfl

/-- Sequentialised worker loop: running `k + 1` slices starting at `b`
(each of length `L` but the last, which runs to `subsetEnd`) leaves
`[b, head)` all T, `[last, subsetEnd)` free of T, the outside untouched, the
splits weakly increasing from `b` to at most `subsetEnd`, and the T count
kept. -/
theorem runThreads_spec (acRR : Rotation → Rotation → Rotation)
    (hpres : preservesT acRR) (g : Measure → Int) (L subsetEnd : Nat) :
    ∀ (k b : Nat) (l : List Operation),
      b + k * L ≤ subsetEnd → subsetEnd ≤ l.length →
      (runThreads acRR g L subsetEnd (k + 1) b l).1.length = l.length ∧
      (runThreads acRR g L subsetEnd (k + 1) b l).2 ≠ [] ∧
      b ≤ (runThreads acRR g L subsetEnd (k + 1) b l).2.headD 0 ∧
      (runThreads acRR g L subsetEnd (k + 1) b l).2.headD 0 ≤
        (runThreads acRR g L subsetEnd (k + 1) b l).2.getLastD 0 ∧
      (runThreads acRR g L subsetEnd (k + 1) b l).2.getLastD 0 ≤ subsetEnd ∧
      (∀ j, b ≤ j → j < (runThreads acRR g L subsetEnd (k + 1) b l).2.headD 0 →
        ((runThreads acRR g L subsetEnd (k + 1) b l).1.getD j default).isTgate = true) ∧
      (∀ j, (runThreads acRR g L subsetEnd (k + 1) b l).2.getLastD 0 ≤ j →
        j < subsetEnd →
        ((runThreads acRR g L subsetEnd (k + 1) b l).1.getD j default).isTgate = false) ∧
      (∀ j, j < b ∨ subsetEnd ≤ j →
        (runThreads acRR g L subsetEnd (k + 1) b l).1.getD j default =
          l.getD j default) ∧
      countT (runThreads acRR g L subsetEnd (k + 1) b l).1 = countT l := by
  intro k
  induction k with
  | zero =>
    intro b l hbs hsl
    have hbs' : b ≤ subsetEnd := by omega
    obtain ⟨T1, T2, T3, T4, T5, T6, T7⟩ :=
      pushTForwardThread_spec acRR hpres g l b subsetEnd hbs' hsl
    have heq : runThreads acRR g L subsetEnd 1 b l =
        ((pushTForwardThread acRR g l b subsetEnd).1,
          [(pushTForwardThread acRR g l b subsetEnd).2]) := rfl
    rw [heq]
    exact ⟨T1, by simp, T2, le_refl _, T3, T4, T5, T6, T7⟩
  | succ k ih =>
    intro b l hbs hsl
    have hbL : b + L ≤ subsetEnd := by
      have : 1 * L ≤ (k + 1) * L := Nat.mul_le_mul_right L (by omega)
      omega
    obtain ⟨T1, T2, T3, T4, T5, T6, T7⟩ :=
      pushTForwardThread_spec acRR hpres g l b (b + L) (by omega)
        (by omega)
    obtain ⟨P1, P2, P3, P4, P5, P6, P7, P8, P9⟩ :=
      ih (b + L) (pushTForwardThread acRR g l b (b + L)).1
        (by
          have h1 : (b + L) + k * L = b + (k + 1) * L := by ring
          omega)
        (by omega)
    have heq : runThreads acRR g L subsetEnd (k + 1 + 1) b l =
        ((runThreads acRR g L subsetEnd (k + 1) (b + L)
            (pushTForwardThread acRR g l b (b + L)).1).1,
          (pushTForwardThread acRR g l b (b + L)).2 ::
            (runThreads acRR g L subsetEnd (k + 1) (b + L)
              (pushTForwardThread acRR g l b (b + L)).1).2) := rfl
    rw [heq]
    have hlast : ((pushTForwardThread acRR g l b (b + L)).2 ::
        (runThreads acRR g L subsetEnd (k + 1) (b + L)
          (pushTForwardThread acRR g l b (b + L)).1).2).getLastD 0 =
        (runThreads acRR g L subsetEnd (k + 1) (b + L)
          (pushTForwardThread acRR g l b (b + L)).1).2.getLastD 0 := by
      rw [List.getLastD_cons]
      exact getLastD_ne_nil P2 _ _
    have hhead : ((pushTForwardThread acRR g l b (b + L)).2 ::
        (runThreads acRR g L subsetEnd (k + 1) (b + L)
          (pushTForwardThread acRR g l b (b + L)).1).2).headD 0 =
        (pushTForwardThread acRR g l b (b + L)).2 := rfl
    rw [hlast, hhead]
    refine ⟨by rw [P1, T1], by simp, T2, by omega, P5, ?_, P7, ?_, by rw [P9, T7]⟩
    · intro j hj1 hj2
      rw [P8 j (Or.inl (by omega))]
      exact T4 j hj1 hj2
    · intro j hj
      have hout : (runThreads acRR g L subsetEnd (k + 1) (b + L)
          (pushTForwardThread acRR g l b (b + L)).1).1.getD j default =
          (pushTForwardThread acRR g l b (b + L)).1.getD j default := by
        rcases hj with hj | hj
        · exact P8 j (Or.inl (by omega))
        · exact P8 j (Or.inr hj)
      rw [hout]
      rcases hj with hj | hj
      · exact T6 j (Or.inl hj)
      · exact T6 j (Or.inr (by omega))

/-- `implementationPushTForward` with `n + 1` workers on `[b, subsetEnd)`:
the returned pair `(head, last)` brackets the still-unsorted middle, with
`[b, head)` all T and `[last, subsetEnd)` free of T. -/
theorem implementationPushTForward_spec (acRR : Rotation → Rotation → Rotation)
    (hpres : preservesT acRR) (g : Measure → Int) (l : List Operation)
    (n b subsetEnd : Nat) (hbe : b ≤ subsetEnd) (hel : subsetEnd ≤ l.length) :
    (implementationPushTForward acRR g l (n + 1) b subsetEnd).1.length = l.length ∧
    b ≤ (implementationPushTForward acRR g l (n + 1) b subsetEnd).2.1 ∧
    (implementationPushTForward acRR g l (n + 1) b subsetEnd).2.1 ≤
      (implementationPushTForward acRR g l (n + 1) b subsetEnd).2.2 ∧
    (implementationPushTForward acRR g l (n + 1) b subsetEnd).2.2 ≤ subsetEnd ∧
    (∀ j, b ≤ j → j < (implementationPushTForward acRR g l (n + 1) b subsetEnd).2.1 →
      ((implementationPushTForward acRR g l (n + 1) b subsetEnd).1.getD j
        default).isTgate = true) ∧
    (∀ j, (implementationPushTForward acRR g l (n + 1) b subsetEnd).2.2 ≤ j →
      j < subsetEnd →
      ((implementationPushTForward acRR g l (n + 1) b subsetEnd).1.getD j
        default).isTgate = false) ∧
    (∀ j, j < b ∨ subsetEnd ≤ j →
      (implementationPushTForward acRR g l (n + 1) b subsetEnd).1.getD j default =
        l.getD j default) ∧
    countT (implementationPushTForward acRR g l (n + 1) b subsetEnd).1 = countT l := by
  have hL : b + n * ((subsetEnd - b) / (n + 1)) ≤ subsetEnd := by
    have h1 : (subsetEnd - b) / (n + 1) * (n + 1) ≤ subsetEnd - b :=
      Nat.div_mul_le_self _ _
    have h2 : (subsetEnd - b) / (n + 1) * n ≤ (subsetEnd - b) / (n + 1) * (n + 1) :=
      Nat.mul_le_mul_left _ (by omega)
    have h3 : n * ((subsetEnd - b) / (n + 1)) = (subsetEnd - b) / (n + 1) * n :=
      Nat.mul_comm _ _
    omega
  obtain ⟨P1, P2, P3, P4, P5, P6, P7, P8, P9⟩ :=
    runThreads_spec acRR hpres g ((subsetEnd - b) / (n + 1)) subsetEnd n b l hL hel
  have heq : implementationPushTForward acRR g l (n + 1) b subsetEnd =
      ((runThreads acRR g ((subsetEnd - b) / (n + 1)) subsetEnd (n + 1) b l).1,
        (runThreads acRR g ((subsetEnd - b) / (n + 1)) subsetEnd (n + 1) b l).2.headD 0,
        (runThreads acRR g ((subsetEnd - b) / (n + 1)) subsetEnd (n + 1) b l).2.getLastD 0) := by
    simp only [implementationPushTForward]
  rw [heq]
  exact ⟨P1, P3, P4, P5, P6, P7, P8, P9⟩

/-- Invariant of the `while (numThreads > 1)` loop of `pushTForward`: the
all-T prefix `[0, b)` and the T-free suffix `[e, end)` shrink the unsorted
middle round by round, keeping length and T count. -/
theorem pushTForwardWhile_spec (acRR : Rotation → Rotation → Rotation)
    (hpres : preservesT acRR) (g : Measure → Int) :
    ∀ (n : Nat) (l : List Operation) (b e : Nat),
      b ≤ e → e ≤ l.length →
      (∀ j, j < b → (l.getD j default).isTgate = true) →
      (∀ j, e ≤ j → j < l.length → (l.getD j default).isTgate = false) →
      (pushTForwardWhile acRR g n l b e).1.length = l.length ∧
      (pushTForwardWhile acRR g n l b e).2.1 ≤ (pushTForwardWhile acRR g n l b e).2.2 ∧
      (pushTForwardWhile acRR g n l b e).2.2 ≤ l.length ∧
      (∀ j, j < (pushTForwardWhile acRR g n l b e).2.1 →
        ((pushTForwardWhile acRR g n l b e).1.getD j default).isTgate = true) ∧
      (∀ j, (pushTForwardWhile acRR g n l b e).2.2 ≤ j → j < l.length →
        ((pushTForwardWhile acRR g n l b e).1.getD j default).isTgate = false) ∧
      countT (pushTForwardWhile acRR g n l b e).1 = countT l := by
  intro n
  induction n with
  | zero =>
    intro l b e hbe hel hT hNT
    exact ⟨rfl, hbe, hel, fun j hj => hT j hj, fun j hj1 hj2 => hNT j hj1 hj2, rfl⟩
  | succ n ih =>
    intro l b e hbe hel hT hNT
    by_cases hn : 1 < n + 1
    · have heq : pushTForwardWhile acRR g (n + 1) l b e =
          pushTForwardWhile acRR g n
            (implementationPushTForward acRR g l (n + 1) b e).1
            (implementationPushTForward acRR g l (n + 1) b e).2.1
            (implementationPushTForward acRR g l (n + 1) b e).2.2 := by
        simp only [pushTForwardWhile]
        rw [if_pos hn]
      obtain ⟨hnn, rfl⟩ : ∃ m, n = m + 1 := ⟨n - 1, by omega⟩
      obtain ⟨I1, I2, I3, I4, I5, I6, I7, I8⟩ :=
        implementationPushTForward_spec acRR hpres g l (hnn + 1) b e hbe hel
      obtain ⟨W1, W2, W3, W4, W5, W6⟩ :=
        ih (implementationPushTForward acRR g l (hnn + 1 + 1) b e).1
          (implementationPushTForward acRR g l (hnn + 1 + 1) b e).2.1
          (implementationPushTForward acRR g l (hnn + 1 + 1) b e).2.2
          I3 (by omega)
          (by
            intro j hj
            by_cases hjb : j < b
            · rw [I7 j (Or.inl hjb)]
              exact hT j hjb
            · exact I5 j (by omega) hj)
          (by
            intro j hj1 hj2
            by_cases hje : j < e
            · exact I6 j hj1 hje
            · rw [I7 j (Or.inr (by omega))]
              exact hNT j (by omega) (by omega))
      rw [heq]
      exact ⟨by rw [W1, I1], W2, by omega, W4, fun j hj1 hj2 => W5 j hj1 (by omega),
        by rw [W6, I8]⟩
    · have heq : pushTForwardWhile acRR g (n + 1) l b e = (l, b, e) := by
        simp only [pushTForwardWhile]
        rw [if_neg hn]
      rw [heq]
      exact ⟨rfl, hbe, hel, fun j hj => hT j hj, fun j hj1 hj2 => hNT j hj1 hj2, rfl⟩

theorem implementationPushTForward_one (acRR : Rotation → Rotation → Rotation)
    (g : Measure → Int) (l : List Operation) (b e : Nat) :
    implementationPushTForward acRR g l 1 b e =
      ((pushTForwardThread acRR g l b e).1,
        (pushTForwardThread acRR g l b e).2,
        (pushTForwardThread acRR g l b e).2) := rfl

/-- `pushTForward` (sliced rounds plus final serial pass), for any `acRR`
whose anticommuting rewrites keep T-ness: the returned split `k` has `[0, k)`
all T rotations and `[k, end)` free of them, and length and T count are
kept. -/
theorem pushTForward_spec (acRR : Rotation → Rotation → Rotation)
    (hpres : preservesT acRR) (g : Measure → Int) (l : List Operation) :
    (pushTForward acRR g l).1.length = l.length ∧
    (pushTForward acRR g l).2 ≤ l.length ∧
    (∀ j, j < (pushTForward acRR g l).2 →
      ((pushTForward acRR g l).1.getD j default).isTgate = true) ∧
    (∀ j, (pushTForward acRR g l).2 ≤ j → j < l.length →
      ((pushTForward acRR g l).1.getD j default).isTgate = false) ∧
    countT (pushTForward acRR g l).1 = countT l := by
  obtain ⟨W1, W2, W3, W4, W5, W6⟩ :=
    pushTForwardWhile_spec acRR hpres g
      (if 50 < l.length / 100 then 50 else l.length / 100) l 0 l.length
      (by omega) (le_refl _)
      (fun j hj => absurd hj (by omega))
      (fun j hj1 hj2 => absurd hj2 (by omega))
  set w := pushTForwardWhile acRR g
    (if 50 < l.length / 100 then 50 else l.length / 100) l 0 l.length with hw
  obtain ⟨T1, T2, T3, T4, T5, T6, T7⟩ :=
    pushTForwardThread_spec acRR hpres g w.1 w.2.1 w.2.2 W2 (by omega)
  have heq : pushTForward acRR g l =
      ((pushTForwardThread acRR g w.1 w.2.1 w.2.2).1,
        (pushTForwardThread acRR g w.1 w.2.1 w.2.2).2) := by
    simp only [pushTForward]
    rw [← hw, implementationPushTForward_one]
  rw [heq]
  refine ⟨by rw [T1, W1], by omega, ?_, ?_, by rw [T7, W6]⟩
  · intro j hj
    by_cases hjb : j < w.2.1
    · rw [T6 j (Or.inl hjb)]
      exact W4 j hjb
    · exact T4 j (by omega) hj
  · intro j hj1 hj2
    by_cases hje : j < w.2.2
    · exact T5 j (by omega) hje
    · rw [T6 j (Or.inr (by omega))]
      exact W5 j (by omega) (by omega)

/-- C1: `pushTForward` (Trillium revision) returns a split index `k` such
that after it returns, the prefix `[0, k)` holds only T rotations and the
suffix `[k, end)` holds none; the serial path (`pushTForwardThread` run on
one range `[b, e)`, as the final round of `pushTForward` does over the whole
remaining range) establishes the same split for its range.  Length and T
count are preserved; `g` models the angle read through the unchecked
`static_pointer_cast<Rotation>` when a crossed gate is a measurement. -/
theorem pushTForward_splits_trillium (g : Measure → Int) (l : List Operation) :
    ((pushTForward Trillium.applyCommutationRR g l).1.length = l.length ∧
     (pushTForward Trillium.applyCommutationRR g l).2 ≤ l.length ∧
     (∀ j, j < (pushTForward Trillium.applyCommutationRR g l).2 →
       ((pushTForward Trillium.applyCommutationRR g l).1.getD j default).isTgate = true) ∧
     (∀ j, (pushTForward Trillium.applyCommutationRR g l).2 ≤ j → j < l.length →
       ((pushTForward Trillium.applyCommutationRR g l).1.getD j default).isTgate = false) ∧
     countT (pushTForward Trillium.applyCommutationRR g l).1 = countT l) ∧
    (∀ b e, b ≤ e → e ≤ l.length →
      b ≤ (pushTForwardThread Trillium.applyCommutationRR g l b e).2 ∧
      (pushTForwardThread Trillium.applyCommutationRR g l b e).2 ≤ e ∧
      (∀ j, b ≤ j → j < (pushTForwardThread Trillium.applyCommutationRR g l b e).2 →
        ((pushTForwardThread Trillium.applyCommutationRR g l b e).1.getD j
          default).isTgate = true) ∧
      (∀ j, (pushTForwardThread Trillium.applyCommutationRR g l b e).2 ≤ j → j < e →
        ((pushTForwardThread Trillium.applyCommutationRR g l b e).1.getD j
          default).isTgate = false)) := by
  refine ⟨pushTForward_spec Trillium.applyCommutationRR preservesT_trillium g l, ?_⟩
  intro b e hbe hel
  obtain ⟨_, T2, T3, T4, T5, _, _⟩ :=
    pushTForwardThread_spec Trillium.applyCommutationRR preservesT_trillium g l b e hbe hel
  exact ⟨T2, T3, T4, T5⟩

theorem pushTForward_splits_trillium_witness :
    (0 : Nat) ≤ 1 ∧
    (pushTForwardThread Trillium.applyCommutationRR (fun _ => 0)
      [Operation.rot ⟨1, 1, 0⟩] 0 1).2 ≤ 1 :=
  ⟨by decide, ((pushTForward_splits_trillium (fun _ => 0)
      [Operation.rot ⟨1, 1, 0⟩]).2 0 1 (by decide) (by decide)).2.1⟩

/-- C2 (counterexample): two adjacent T rotations on the same Pauli string
are merged by the optimizer's adjacent-combination sweep into one Clifford
rotation; the T count drops from 2 to 0.  (The run uses the never-timed-out
check oracle; no measurement is crossed, so the cast oracle is inert.) -/
theorem optimizeRotation_tcount_counterexample :
    countT [Operation.rot ⟨1, 1, 0⟩, Operation.rot ⟨1, 1, 0⟩] = 2 ∧
    Part8.optimizeRotation (fun _ => 0) (fun _ => false) 3
      [Operation.rot ⟨1, 1, 0⟩, Operation.rot ⟨1, 1, 0⟩] =
      ([Operation.rot ⟨2, 1, 0⟩], 0) ∧
    countT (Part8.optimizeRotation (fun _ => 0) (fun _ => false) 3
      [Operation.rot ⟨1, 1, 0⟩, Operation.rot ⟨1, 1, 0⟩]).1 = 0 :=
  ⟨rfl, rfl, rfl⟩

/-- C2 (amended): the push pass (`pushTForward`, `part_008` rewrite rules)
preserves the T count exactly — commutation only relocates and rewrites T
gates into T gates — but the combination steps are not T-count preserving:
two angle `+1` rotations on one nonidentity Pauli string combine into a
single angle `+2` Clifford rotation, and `optimizeRotation` strictly reduces
the T count on such an input. -/
theorem optimizeRotation_tcount (g0 : Measure → Int) (l0 : List Operation) :
    countT (pushTForward Part8.applyCommutationRR g0 l0).1 = countT l0 ∧
    (∀ x z : Nat, ¬(x = 0 ∧ z = 0) →
      combineRotation ⟨1, x, z⟩ ⟨1, x, z⟩ = (true, [⟨2, x, z⟩])) ∧
    countT (Part8.optimizeRotation (fun _ => 0) (fun _ => false) 3
      [Operation.rot ⟨1, 1, 0⟩, Operation.rot ⟨1, 1, 0⟩]).1 <
      countT [Operation.rot ⟨1, 1, 0⟩, Operation.rot ⟨1, 1, 0⟩] := by
  refine ⟨(pushTForward_spec Part8.applyCommutationRR preservesT_part8 g0 l0).2.2.2.2,
    ?_, by decide⟩
  intro x z hxz
  have hid : Rotation.isIdentity ⟨1, x, z⟩ = false := by
    simp only [Rotation.isIdentity, Bool.and_eq_false_iff, decide_eq_false_iff_not]
    by_contra hcon
    push_neg at hcon
    exact hxz ⟨hcon.1, hcon.2⟩
  simp [combineRotation, hid]

/-- Witness for `optimizeRotation_tcount` at the concrete single-qubit `X`
string. -/
theorem optimizeRotation_tcount_witness :
    countT (pushTForward Part8.applyCommutationRR (fun _ => 0)
      [Operation.rot ⟨1, 1, 0⟩]).1 = countT [Operation.rot ⟨1, 1, 0⟩] ∧
    ¬((1 : Nat) = 0 ∧ (0 : Nat) = 0) ∧
    combineRotation ⟨1, 1, 0⟩ ⟨1, 1, 0⟩ = (true, [⟨2, 1, 0⟩]) :=
  ⟨(optimizeRotation_tcount (fun _ => 0) [Operation.rot ⟨1, 1, 0⟩]).1,
    by decide,
    (optimizeRotation_tcount (fun _ => 0) [Operation.rot ⟨1, 1, 0⟩]).2.1 1 0
      (by decide)⟩

theorem bpAbsorbGo_length (R : Rotation) :
    ∀ (rem : Nat) (c : List Operation) (i : Int) (c2 : List Operation),
      Part8.bpAbsorbGo R rem c i = .ok c2 → c2.length = c.length := by
  intro rem
  induction rem with
  | zero =>
    intro c i c2 h
    simp only [Part8.bpAbsorbGo] at h
    cases h
    rfl
  | succ n ih =>
    intro c i c2 h
    simp only [Part8.bpAbsorbGo] at h
    split at h
    · exact ih c (i + 1) c2 h
    · split at h
      · split at h
        · cases h
        · rename_i m2 heq
          have := ih _ (i + 1) c2 h
          simpa using this
      · have := ih _ (i + 1) c2 h
        simpa using this

theorem bpMark_length (ancillaBegin : Nat) (rUB : Rotation) (mo ma : Nat)
    (idxGate idxLastM idxOfT : Int) :
    ∀ (fuel : Nat) (c : List Operation) (idxR : Int) (mv dl : List Nat)
      (cnt : Nat) (c1 : List Operation) (mv1 dl1 : List Nat) (cnt1 : Nat),
      Part8.bpMark ancillaBegin rUB mo ma idxGate idxLastM idxOfT fuel
        c idxR mv dl cnt = .ok (c1, mv1, dl1, cnt1) →
      c1.length = c.length := by
  intro fuel
  induction fuel with
  | zero =>
    intro c idxR mv dl cnt c1 mv1 dl1 cnt1 h
    simp only [Part8.bpMark] at h
    cases h
    rfl
  | succ n ih =>
    intro c idxR mv dl cnt c1 mv1 dl1 cnt1 h
    simp only [Part8.bpMark] at h
    split at h
    · split at h
      · split at h
        · simp at h
        · rename_i c3 heq
          split at h
          · have h1 := ih _ _ _ _ _ _ _ _ _ h
            have h2 := bpAbsorbGo_length _ _ _ _ _ heq
            omega
          · have h1 := ih _ _ _ _ _ _ _ _ _ h
            have h2 := bpAbsorbGo_length _ _ _ _ _ heq
            omega
      · cases h
        rfl
    · cases h
      rfl

theorem countFrom_succ (p : Nat → Bool) (s k : Nat) :
    countFrom p s (k + 1) = (if p s then 1 else 0) + countFrom p (s + 1) k := rfl

theorem countFrom_add3 (pA pB pC : Nat → Bool)
    (hpt : ∀ j, (if pA j then 1 else 0) + (if pB j then 1 else 0) +
      (if pC j then 1 else 0) = 1) :
    ∀ (k start : Nat),
      countFrom pA start k + countFrom pB start k + countFrom pC start k = k := by
  intro k
  induction k with
  | zero => intro _; rfl
  | succ n ih =>
    intro start
    simp only [countFrom]
    have h1 := hpt start
    have h2 := ih (start + 1)
    omega

/-- Pointwise partition of the three compaction outcomes. -/
theorem countFrom_partition (mv dl : List Nat) :
    ∀ (k start : Nat),
      countFrom (fun j => mv.contains j) start k +
        countFrom (fun j => !(mv.contains j) && dl.contains j) start k +
        countFrom (fun j => !(mv.contains j) && !(dl.contains j)) start k = k := by
  refine countFrom_add3 _ _ _ ?_
  intro j
  cases mv.contains j <;> cases dl.contains j <;> rfl

theorem bpCompactGo_spec (mv dl : List Nat) :
    ∀ (fuel : Nat) (c : List Operation) (p1 p2 : Nat) (perm : List Operation),
      c.length ≤ p2 + fuel →
      (Part8.bpCompactGo mv dl fuel c p1 p2 perm).1.length = c.length ∧
      (Part8.bpCompactGo mv dl fuel c p1 p2 perm).2.1 =
        p1 + countFrom (fun j => !(mv.contains j) && !(dl.contains j)) p2
          (c.length - p2) ∧
      (Part8.bpCompactGo mv dl fuel c p1 p2 perm).2.2.length =
        perm.length + countFrom (fun j => mv.contains j) p2 (c.length - p2) := by
  intro fuel
  induction fuel with
  | zero =>
    intro c p1 p2 perm hf
    have hp : c.length - p2 = 0 := by omega
    simp only [Part8.bpCompactGo, hp, countFrom]
    exact ⟨trivial, by omega, by omega⟩
  | succ n ih =>
    intro c p1 p2 perm hf
    by_cases hlt : p2 < c.length
    · have heq : c.length - p2 = (c.length - (p2 + 1)) + 1 := by omega
      by_cases hm : mv.contains p2 = true
      · have hstep : Part8.bpCompactGo mv dl (n + 1) c p1 p2 perm =
            Part8.bpCompactGo mv dl n c p1 (p2 + 1)
              (perm ++ [c.getD p2 default]) := by
          simp only [Part8.bpCompactGo]
          rw [if_pos hlt, if_pos hm]
        obtain ⟨I1, I2, I3⟩ := ih c p1 (p2 + 1) (perm ++ [c.getD p2 default])
          (by omega)
        rw [hstep]
        have hm2 : p2 ∈ mv := by simpa using hm
        refine ⟨I1, ?_, ?_⟩
        · rw [I2, heq, countFrom_succ]
          simp [hm2]
        · rw [I3, heq, countFrom_succ]
          simp [hm2]
          try omega
      · by_cases hd : dl.contains p2 = true
        · have hstep : Part8.bpCompactGo mv dl (n + 1) c p1 p2 perm =
              Part8.bpCompactGo mv dl n c p1 (p2 + 1) perm := by
            simp only [Part8.bpCompactGo]
            rw [if_pos hlt, if_neg hm, if_pos hd]
          obtain ⟨I1, I2, I3⟩ := ih c p1 (p2 + 1) perm (by omega)
          rw [hstep]
          have hm2 : p2 ∉ mv := by simpa using hm
          have hd2 : p2 ∈ dl := by simpa using hd
          refine ⟨I1, ?_, ?_⟩
          · rw [I2, heq, countFrom_succ]
            simp [hm2, hd2]
          · rw [I3, heq, countFrom_succ]
            simp [hm2]
        · have hstep : Part8.bpCompactGo mv dl (n + 1) c p1 p2 perm =
              Part8.bpCompactGo mv dl n (c.set p1 (c.getD p2 default)) (p1 + 1)
                (p2 + 1) perm := by
            simp only [Part8.bpCompactGo]
            rw [if_pos hlt, if_neg hm, if_neg hd]
          have hlen : (c.set p1 (c.getD p2 default)).length = c.length := by simp
          obtain ⟨I1, I2, I3⟩ := ih (c.set p1 (c.getD p2 default)) (p1 + 1)
            (p2 + 1) perm (by omega)
          rw [hstep]
          have hm2 : p2 ∉ mv := by simpa using hm
          have hd2 : p2 ∉ dl := by simpa using hd
          refine ⟨by rw [I1, hlen], ?_, ?_⟩
          · rw [I2, hlen, heq, countFrom_succ]
            simp [hm2, hd2]
            try omega
          · rw [I3, hlen, heq, countFrom_succ]
            simp [hm2]
    · have hstep : Part8.bpCompactGo mv dl (n + 1) c p1 p2 perm = (c, p1, perm) := by
        simp only [Part8.bpCompactGo]
        rw [if_neg hlt]
      have hp : c.length - p2 = 0 := by omega
      rw [hstep, hp]
      simp [countFrom]

/-- `basis_permutation` (`part_008`): the returned count is the marking
loop's moved count, and the final length is the input length minus the
number of deleted (not moved) marked indices in `[numOfTGates, length)`. -/
theorem basis_permutation_spec (ancillaBegin : Nat) (rUB : Rotation)
    (circuit : List Operation) (numT : Nat) (hT : numT ≤ circuit.length)
    (c2 : List Operation) (cnt : Nat)
    (h : Part8.basis_permutation ancillaBegin rUB circuit numT = .ok (c2, cnt)) :
    ∃ c1 mv dl,
      Part8.bpMark ancillaBegin rUB
        (Part8.bpScan ancillaBegin circuit ((numT : Int) - 1)
          (circuit.length + 1) ((circuit.length : Int) - 1) 0 0).1
        (Part8.bpScan ancillaBegin circuit ((numT : Int) - 1)
          (circuit.length + 1) ((circuit.length : Int) - 1) 0 0).2.1
        (Part8.bpScan ancillaBegin circuit ((numT : Int) - 1)
          (circuit.length + 1) ((circuit.length : Int) - 1) 0 0).2.2
        ((circuit.length : Int) - 1) ((numT : Int) - 1)
        (circuit.length + 1) circuit
        (Part8.bpScan ancillaBegin circuit ((numT : Int) - 1)
          (circuit.length + 1) ((circuit.length : Int) - 1) 0 0).2.2
        [] [] 0 = .ok (c1, mv, dl, cnt) ∧
      c1.length = circuit.length ∧
      c2.length + countFrom (fun j => !(mv.contains j) && dl.contains j) numT
        (circuit.length - numT) = circuit.length := by
  simp only [Part8.basis_permutation] at h
  split at h
  · cases h
  · rename_i c1 mv dl cnt0 heq
    cases h
    refine ⟨c1, mv, dl, heq, bpMark_length _ _ _ _ _ _ _ _ _ _ _ _ _ _ _ _ _ heq, ?_⟩
    have hlen1 : c1.length = circuit.length :=
      bpMark_length _ _ _ _ _ _ _ _ _ _ _ _ _ _ _ _ _ heq
    obtain ⟨C1, C2, C3⟩ := bpCompactGo_spec mv dl (c1.length + 1) c1 numT numT []
      (by omega)
    have hfin : (Part8.bpCompactGo mv dl (c1.length + 1) c1 numT numT []).2.1 ≤
        c1.length := by
      rw [C2]
      have hpart := countFrom_partition mv dl (c1.length - numT) numT
      omega
    simp only [List.length_append, List.length_take, C1]
    rw [C2, C3]
    have hpart := countFrom_partition mv dl (c1.length - numT) numT
    rw [hlen1] at *
    simp only [List.length_nil]
    omega

/-- C7 (counterexample): with `N = 4` and `ancillaBegin = 2`, a Clifford
rotation supported on a measured ancilla qubit is absorbed and deleted (not
moved): `basis_permutation` reports `0` moved rotations while shrinking the
circuit from 2 gates to 1, and `runLysCompiler` returns split index `2` where
the claimed value (final length minus moved) is `1`. -/
theorem runLysCompiler_split_counterexample :
    Part8.optimizeRotation (fun _ => 0) (fun _ => false) 3
      [Operation.rot ⟨2, 2, 0⟩, Operation.meas ⟨false, 2, 0, [], -1⟩] =
      ([Operation.rot ⟨2, 2, 0⟩, Operation.meas ⟨false, 2, 0, [], -1⟩], 0) ∧
    Part8.basis_permutation 2 ⟨0, 0, 0⟩
      [Operation.rot ⟨2, 2, 0⟩, Operation.meas ⟨false, 2, 0, [], -1⟩] 0 =
      .ok ([Operation.meas ⟨false, 2, 0, [], -1⟩], 0) ∧
    Part8.runLysCompiler (fun _ => 0) (fun _ => false) 2 ⟨0, 0, 0⟩ 3 true
      [Operation.rot ⟨2, 2, 0⟩, Operation.meas ⟨false, 2, 0, [], -1⟩] =
      .ok ([Operation.meas ⟨false, 2, 0, [], -1⟩], 2) ∧
    (2 : Int) ≠ (([Operation.meas ⟨false, 2, 0, [], -1⟩] : List Operation).length : Int) - 0 :=
  ⟨rfl, rfl, rfl, by decide⟩

/-- C7 (amended): in the `part_008` revision, `runLysCompiler` with
`removeNonT = false` returns the final circuit length as the split index;
with `removeNonT = true` it returns the pre-absorption circuit length minus
the moved count, while the final circuit length is the pre-absorption length
minus the number of deleted (fully-deallocated ancilla, not moved) indices —
so the split exceeds `final length - moved` by the deleted count.  (In the
Trillium revision the split with `combine = true` is taken from the
post-absorption length, matching the claimed formula, but with
`combine = false` the returned value is an uninitialized read.) -/
theorem runLysCompiler_split (g : Measure → Int) (checks : Nat → Bool)
    (ancillaBegin : Nat) (rUB : Rotation) (fuel : Nat) (l : List Operation) :
    (∀ c s, Part8.runLysCompiler g checks ancillaBegin rUB fuel false l =
        .ok (c, s) → s = (c.length : Int)) ∧
    (∀ c s, Part8.runLysCompiler g checks ancillaBegin rUB fuel true l =
        .ok (c, s) →
      ∃ c1 mv dl cnt,
        Part8.bpMark ancillaBegin rUB
          (Part8.bpScan ancillaBegin (Part8.optimizeRotation g checks fuel l).1
            (((Part8.optimizeRotation g checks fuel l).2 : Int) - 1)
            ((Part8.optimizeRotation g checks fuel l).1.length + 1)
            (((Part8.optimizeRotation g checks fuel l).1.length : Int) - 1) 0 0).1
          (Part8.bpScan ancillaBegin (Part8.optimizeRotation g checks fuel l).1
            (((Part8.optimizeRotation g checks fuel l).2 : Int) - 1)
            ((Part8.optimizeRotation g checks fuel l).1.length + 1)
            (((Part8.optimizeRotation g checks fuel l).1.length : Int) - 1) 0 0).2.1
          (Part8.bpScan ancillaBegin (Part8.optimizeRotation g checks fuel l).1
            (((Part8.optimizeRotation g checks fuel l).2 : Int) - 1)
            ((Part8.optimizeRotation g checks fuel l).1.length + 1)
            (((Part8.optimizeRotation g checks fuel l).1.length : Int) - 1) 0 0).2.2
          (((Part8.optimizeRotation g checks fuel l).1.length : Int) - 1)
          (((Part8.optimizeRotation g checks fuel l).2 : Int) - 1)
          ((Part8.optimizeRotation g checks fuel l).1.length + 1)
          (Part8.optimizeRotation g checks fuel l).1
          (Part8.bpScan ancillaBegin (Part8.optimizeRotation g checks fuel l).1
            (((Part8.optimizeRotation g checks fuel l).2 : Int) - 1)
            ((Part8.optimizeRotation g checks fuel l).1.length + 1)
            (((Part8.optimizeRotation g checks fuel l).1.length : Int) - 1) 0 0).2.2
          [] [] 0 = .ok (c1, mv, dl, cnt) ∧
        s + cnt = ((Part8.optimizeRotation g checks fuel l).1.length : Int) ∧
        c.length + countFrom (fun j => !(mv.contains j) && dl.contains j)
          (Part8.optimizeRotation g checks fuel l).2
          ((Part8.optimizeRotation g checks fuel l).1.length -
            (Part8.optimizeRotation g checks fuel l).2) =
          (Part8.optimizeRotation g checks fuel l).1.length) := by
  constructor
  · intro c s h
    simp only [Part8.runLysCompiler, if_neg (Bool.false_ne_true)] at h
    cases h
    rfl
  · intro c s h
    have hT : (Part8.optimizeRotation g checks fuel l).2 ≤
        (Part8.optimizeRotation g checks fuel l).1.length := by
      simp [Part8.optimizeRotation]
    simp only [Part8.runLysCompiler, if_pos rfl] at h
    cases heq : Part8.basis_permutation ancillaBegin rUB
        (Part8.optimizeRotation g checks fuel l).1
        (Part8.optimizeRotation g checks fuel l).2 with
    | error e =>
      rw [heq] at h
      simp at h
    | ok r =>
      rw [heq] at h
      obtain ⟨c2, cnt⟩ := r
      simp only [if_true, Except.ok.injEq, Prod.mk.injEq] at h
      obtain ⟨hc, hs⟩ := h
      subst hc
      obtain ⟨c1, mv, dl, hmark, hlen1, hlen2⟩ :=
        basis_permutation_spec ancillaBegin rUB
          (Part8.optimizeRotation g checks fuel l).1
          (Part8.optimizeRotation g checks fuel l).2 hT c2 cnt heq
      exact ⟨c1, mv, dl, cnt, hmark, by omega, hlen2⟩

/-- Witness for `runLysCompiler_split`: the no-absorption run on the
counterexample circuit returns the final length as the split. -/
theorem runLysCompiler_split_witness :
    (2 : Int) = (([Operation.rot ⟨2, 2, 0⟩,
      Operation.meas ⟨false, 2, 0, [], -1⟩] : List Operation).length : Int) :=
  (runLysCompiler_split (fun _ => 0) (fun _ => false) 2 ⟨0, 0, 0⟩ 3
    [Operation.rot ⟨2, 2, 0⟩, Operation.meas ⟨false, 2, 0, [], -1⟩]).1
    [Operation.rot ⟨2, 2, 0⟩, Operation.meas ⟨false, 2, 0, [], -1⟩] 2 rfl

theorem scanNext_mem {α : Type} (isRot : α → Bool) (comm : α → α → Bool)
    (cur : List α) :
    ∀ (l : List α) (p : Nat) (a : α),
      a ∈ (scanNext isRot comm cur l p).1 → a ∈ l := by
  intro l
  induction l with
  | nil => intro p a h; simp [scanNext] at h
  | cons g rest ih =>
    intro p a h
    simp only [scanNext] at h
    split at h
    · split at h
      · rcases List.mem_cons.mp h with h | h
        · exact h ▸ List.mem_cons_self g rest
        · exact List.mem_cons_of_mem _ (ih (p + 1) a h)
      · exact List.mem_cons_of_mem _ (ih (p + 1) a h)
    · simp at h

theorem scanNext_commAll {α : Type} (isRot : α → Bool) (comm : α → α → Bool)
    (cur : List α) :
    ∀ (l : List α) (p : Nat) (a : α),
      a ∈ (scanNext isRot comm cur l p).1 →
      ∀ c ∈ cur, comm a c = true := by
  intro l
  induction l with
  | nil => intro p a h; simp [scanNext] at h
  | cons g rest ih =>
    intro p a h
    simp only [scanNext] at h
    split at h
    · split at h
      · rename_i hall
        rcases List.mem_cons.mp h with h | h
        · subst h
          simp only [commAll] at hall
          intro c hc
          exact List.all_eq_true.mp hall c hc
        · exact ih (p + 1) a h
      · exact ih (p + 1) a h
    · simp at h

theorem eraseIdx_map' {α β : Type} (f : α → β) :
    ∀ (l : List α) (i : Nat), (l.map f).eraseIdx i = (l.eraseIdx i).map f := by
  intro l
  induction l with
  | nil => intro i; rfl
  | cons a t ih =>
    intro i
    cases i with
    | zero => rfl
    | succ n => simp only [List.map_cons, List.eraseIdx_cons_succ, ih n]

theorem eraseIdxs_subset {α : Type} :
    ∀ (idxs : List Nat) (xs : List α) (b : α),
      b ∈ eraseIdxs idxs xs → b ∈ xs := by
  intro idxs
  induction idxs with
  | nil => intro xs b h; exact h
  | cons i rest ih =>
    intro xs b h
    have h1 : b ∈ eraseIdxs rest xs :=
      (List.eraseIdx_sublist (eraseIdxs rest xs) i).mem h
    exact ih xs b h1

theorem scanNext_shift {α : Type} (isRot : α → Bool) (comm : α → α → Bool)
    (cur : List α) :
    ∀ (l : List α) (p : Nat),
      (scanNext isRot comm cur l (p + 1)).1 = (scanNext isRot comm cur l p).1 ∧
      (scanNext isRot comm cur l (p + 1)).2.1 =
        (scanNext isRot comm cur l p).2.1.map (· + 1) ∧
      (scanNext isRot comm cur l (p + 1)).2.2 =
        (scanNext isRot comm cur l p).2.2 := by
  intro l
  induction l with
  | nil => intro p; exact ⟨rfl, rfl, rfl⟩
  | cons g rest ih =>
    intro p
    obtain ⟨ih1, ih2, ih3⟩ := ih (p + 1)
    simp only [scanNext]
    split
    · split
      · exact ⟨by rw [ih1], by rw [ih2]; rfl, ih3⟩
      · exact ⟨ih1, ih2, ih3⟩
    · exact ⟨rfl, rfl, rfl⟩

theorem eraseIdxs_shift {α : Type} (g : α) :
    ∀ (idxs : List Nat) (t : List α),
      eraseIdxs (idxs.map (· + 1)) (g :: t) = g :: eraseIdxs idxs t := by
  intro idxs
  induction idxs with
  | nil => intro t; rfl
  | cons i rest ih =>
    intro t
    simp only [List.map_cons, eraseIdxs, List.foldr_cons]
    have := ih t
    simp only [eraseIdxs] at this
    rw [this]
    rfl

/-- One scan of the next layer splits it, up to permutation, into the
collected gates and the remainder left by the erasure loop. -/
theorem scan_erase_perm {α : Type} (isRot : α → Bool) (comm : α → α → Bool)
    (cur : List α) :
    ∀ (l : List α),
      ((scanNext isRot comm cur l 0).1 ++
        eraseIdxs (scanNext isRot comm cur l 0).2.1 l).Perm l := by
  intro l
  induction l with
  | nil => simp [scanNext, eraseIdxs]
  | cons g rest ih =>
    obtain ⟨hs1, hs2, _⟩ := scanNext_shift isRot comm cur rest 0
    simp only [scanNext]
    split
    · split
      · simp only [eraseIdxs, List.foldr_cons]
        have hsh : eraseIdxs ((scanNext isRot comm cur rest 1).2.1) (g :: rest) =
            g :: eraseIdxs (scanNext isRot comm cur rest 0).2.1 rest := by
          rw [hs2]
          exact eraseIdxs_shift g _ rest
        simp only [eraseIdxs] at hsh
        rw [hsh]
        simp only [List.eraseIdx_cons_zero, List.cons_append]
        refine List.Perm.cons g ?_
        rw [hs1]
        exact ih
      · have hsh : eraseIdxs ((scanNext isRot comm cur rest 1).2.1) (g :: rest) =
            g :: eraseIdxs (scanNext isRot comm cur rest 0).2.1 rest := by
          rw [hs2]
          exact eraseIdxs_shift g _ rest
        rw [hsh, hs1]
        refine List.Perm.trans List.perm_middle ?_
        exact List.Perm.cons g ih
    · simp [eraseIdxs]

theorem set_append_len {β : Type} :
    ∀ (pre : List β) (x y : β) (t : List β),
      (pre ++ x :: t).set pre.length y = pre ++ y :: t := by
  intro pre
  induction pre with
  | nil => intro x y t; rfl
  | cons a p ih =>
    intro x y t
    simp only [List.cons_append, List.length_cons, List.set_cons_succ, ih]

theorem set_append_len1 {β : Type} :
    ∀ (pre : List β) (x z y : β) (t : List β),
      (pre ++ x :: z :: t).set (pre.length + 1) y = pre ++ x :: y :: t := by
  intro pre
  induction pre with
  | nil => intro x z y t; rfl
  | cons a p ih =>
    intro x z y t
    simp only [List.cons_append, List.length_cons, List.set_cons_succ, ih]

theorem erase_append_len {β : Type} :
    ∀ (pre : List β) (x : β) (t : List β),
      (pre ++ x :: t).eraseIdx pre.length = pre ++ t := by
  intro pre
  induction pre with
  | nil => intro x t; rfl
  | cons a p ih =>
    intro x t
    simp only [List.cons_append, List.length_cons, List.eraseIdx_cons_succ, ih]

theorem erase_append_len1 {β : Type} :
    ∀ (pre : List β) (x z : β) (t : List β),
      (pre ++ x :: z :: t).eraseIdx (pre.length + 1) = pre ++ x :: t := by
  intro pre
  induction pre with
  | nil => intro x z t; rfl
  | cons a p ih =>
    intro x z t
    simp only [List.cons_append, List.length_cons, List.eraseIdx_cons_succ, ih]

theorem layers_decomp {α : Type} (ls : List (List α)) (idx : Nat)
    (h : idx + 1 < ls.length) :
    ls = ls.take idx ++ ls.getD idx [] :: ls.getD (idx + 1) [] ::
      ls.drop (idx + 2) := by
  have h0 : idx < ls.length := by omega
  conv_lhs => rw [← List.take_append_drop idx ls]
  congr 1
  rw [List.drop_eq_getElem_cons h0, List.drop_eq_getElem_cons h]
  rw [List.getD_eq_getElem ls [] h0, List.getD_eq_getElem ls [] h]

theorem greedyInv_sublist {α : Type} (comm : α → α → Bool) (ord : α → α → Prop)
    {ls2 ls : List (List α)} (hsub : ls2.Sublist ls)
    (h : GreedyInv comm ord ls) : GreedyInv comm ord ls2 :=
  ⟨fun L hL => h.1 L (hsub.subset hL), h.2.sublist hsub⟩

/-- Moving gates of the next layer that commute with the whole current layer
down into the current layer preserves both layering invariants, whether the
rest of the next layer survives or the layer is dissolved. -/
theorem greedyInv_step {α : Type} (comm : α → α → Bool) (ord : α → α → Prop)
    (hsymm : ∀ a b, comm a b = comm b a)
    (pre post : List (List α)) (cur next adds next2 : List α)
    (hInv : GreedyInv comm ord (pre ++ cur :: next :: post))
    (hadds : ∀ a ∈ adds, a ∈ next)
    (hcomm : ∀ a ∈ adds, ∀ c ∈ cur, comm a c = true)
    (hnext2 : ∀ b ∈ next2, b ∈ next) :
    GreedyInv comm ord (pre ++ (cur ++ adds) :: next2 :: post) ∧
    GreedyInv comm ord (pre ++ (cur ++ adds) :: post) := by
  obtain ⟨hPW, hSep⟩ := hInv
  have hPWcur : PW comm cur := hPW cur (by simp)
  have hPWnext : PW comm next := hPW next (by simp)
  rw [List.pairwise_append] at hSep
  obtain ⟨hSepPre, hSepRest, hCross⟩ := hSep
  rw [List.pairwise_cons] at hSepRest
  obtain ⟨hCurRest, hSepRest2⟩ := hSepRest
  rw [List.pairwise_cons] at hSepRest2
  obtain ⟨hNextPost, hSepPost⟩ := hSepRest2
  have hCurNext : LRel comm ord cur next := hCurRest next (by simp)
  have hCurPost : ∀ L ∈ post, LRel comm ord cur L := fun L hL =>
    hCurRest L (List.mem_cons_of_mem _ hL)
  have hPWC : PW comm (cur ++ adds) := by
    intro x hx y hy
    rcases List.mem_append.mp hx with hx | hx <;>
      rcases List.mem_append.mp hy with hy | hy
    · exact hPWcur x hx y hy
    · rw [hsymm]; exact hcomm y hy x hx
    · exact hcomm x hx y hy
    · exact hPWnext x (hadds x hx) y (hadds y hy)
  have hRelPreC : ∀ P ∈ pre, LRel comm ord P (cur ++ adds) := by
    intro P hP x hx y hy hf
    rcases List.mem_append.mp hy with hy | hy
    · exact hCross P hP cur (by simp) x hx y hy hf
    · exact hCross P hP next (by simp) x hx y (hadds y hy) hf
  have hRelCN : LRel comm ord (cur ++ adds) next2 := by
    intro x hx y hy hf
    rcases List.mem_append.mp hx with hx | hx
    · exact hCurNext x hx y (hnext2 y hy) hf
    · exact absurd (hPWnext x (hadds x hx) y (hnext2 y hy)) (by simp [hf])
  have hRelCPost : ∀ L ∈ post, LRel comm ord (cur ++ adds) L := by
    intro L hL x hx y hy hf
    rcases List.mem_append.mp hx with hx | hx
    · exact hCurPost L hL x hx y hy hf
    · exact hNextPost L hL x (hadds x hx) y hy hf
  have hRelPreN : ∀ P ∈ pre, LRel comm ord P next2 := by
    intro P hP x hx y hy hf
    exact hCross P hP next (by simp) x hx y (hnext2 y hy) hf
  have hRelNPost : ∀ L ∈ post, LRel comm ord next2 L := by
    intro L hL x hx y hy hf
    exact hNextPost L hL x (hnext2 x hx) y hy hf
  have hPWn2 : PW comm next2 := fun x hx y hy =>
    hPWnext x (hnext2 x hx) y (hnext2 y hy)
  constructor
  · constructor
    · intro L hL
      rcases List.mem_append.mp hL with hL | hL
      · exact hPW L (List.mem_append.mpr (Or.inl hL))
      · rcases List.mem_cons.mp hL with rfl | hL
        · exact hPWC
        · rcases List.mem_cons.mp hL with rfl | hL
          · exact hPWn2
          · exact hPW L (List.mem_append.mpr (Or.inr
              (List.mem_cons_of_mem _ (List.mem_cons_of_mem _ hL))))
    · rw [List.pairwise_append]
      refine ⟨hSepPre, ?_, ?_⟩
      · rw [List.pairwise_cons]
        refine ⟨?_, ?_⟩
        · intro L hL
          rcases List.mem_cons.mp hL with rfl | hL
          · exact hRelCN
          · exact hRelCPost L hL
        · rw [List.pairwise_cons]
          exact ⟨fun L hL => hRelNPost L hL, hSepPost⟩
      · intro P hP L hL
        rcases List.mem_cons.mp hL with rfl | hL
        · exact hRelPreC P hP
        · rcases List.mem_cons.mp hL with rfl | hL
          · exact hRelPreN P hP
          · exact hCross P hP L (List.mem_cons_of_mem _ (List.mem_cons_of_mem _ hL))
  · constructor
    · intro L hL
      rcases List.mem_append.mp hL with hL | hL
      · exact hPW L (List.mem_append.mpr (Or.inl hL))
      · rcases List.mem_cons.mp hL with rfl | hL
        · exact hPWC
        · exact hPW L (List.mem_append.mpr (Or.inr
            (List.mem_cons_of_mem _ (List.mem_cons_of_mem _ hL))))
    · rw [List.pairwise_append]
      refine ⟨hSepPre, ?_, ?_⟩
      · rw [List.pairwise_cons]
        exact ⟨fun L hL => hRelCPost L hL, hSepPost⟩
      · intro P hP L hL
        rcases List.mem_cons.mp hL with rfl | hL
        · exact hRelPreC P hP
        · exact hCross P hP L (List.mem_cons_of_mem _ (List.mem_cons_of_mem _ hL))

theorem greedyInner_succ {α : Type} (isRot : α → Bool) (comm : α → α → Bool)
    (n idx : Nat) (ls : List (List α)) (d c : Bool) :
    greedyInner isRot comm (n + 1) idx ls d c =
      if idx + 1 < ls.length then
        if (ls.getD idx []).length = 0 then
          greedyInner isRot comm n idx (ls.eraseIdx idx) d c
        else
          if (ls.getD (idx + 1) []).length ≠
              (scanNext isRot comm (ls.getD idx [])
                (ls.getD (idx + 1) []) 0).1.length then
            if (scanNext isRot comm (ls.getD idx [])
                (ls.getD (idx + 1) []) 0).2.2 then
              ((ls.set idx (ls.getD idx [] ++ (scanNext isRot comm
                  (ls.getD idx []) (ls.getD (idx + 1) []) 0).1)).set (idx + 1)
                (eraseIdxs (scanNext isRot comm (ls.getD idx [])
                  (ls.getD (idx + 1) []) 0).2.1 (ls.getD (idx + 1) [])),
                d && (scanNext isRot comm (ls.getD idx [])
                  (ls.getD (idx + 1) []) 0).1.isEmpty,
                c || !(scanNext isRot comm (ls.getD idx [])
                  (ls.getD (idx + 1) []) 0).1.isEmpty)
            else
              greedyInner isRot comm n (idx + 1)
                ((ls.set idx (ls.getD idx [] ++ (scanNext isRot comm
                    (ls.getD idx []) (ls.getD (idx + 1) []) 0).1)).set (idx + 1)
                  (eraseIdxs (scanNext isRot comm (ls.getD idx [])
                    (ls.getD (idx + 1) []) 0).2.1 (ls.getD (idx + 1) [])))
                (d && (scanNext isRot comm (ls.getD idx [])
                  (ls.getD (idx + 1) []) 0).1.isEmpty)
                (c || !(scanNext isRot comm (ls.getD idx [])
                  (ls.getD (idx + 1) []) 0).1.isEmpty)
          else
            if (scanNext isRot comm (ls.getD idx [])
                (ls.getD (idx + 1) []) 0).2.2 then
              ((ls.set idx (ls.getD idx [] ++ (scanNext isRot comm
                  (ls.getD idx []) (ls.getD (idx + 1) []) 0).1)).eraseIdx (idx + 1),
                d && (scanNext isRot comm (ls.getD idx [])
                  (ls.getD (idx + 1) []) 0).1.isEmpty,
                c || !(scanNext isRot comm (ls.getD idx [])
                  (ls.getD (idx + 1) []) 0).1.isEmpty)
            else
              greedyInner isRot comm n idx
                ((ls.set idx (ls.getD idx [] ++ (scanNext isRot comm
                    (ls.getD idx []) (ls.getD (idx + 1) []) 0).1)).eraseIdx (idx + 1))
                (d && (scanNext isRot comm (ls.getD idx [])
                  (ls.getD (idx + 1) []) 0).1.isEmpty)
                (c || !(scanNext isRot comm (ls.getD idx [])
                  (ls.getD (idx + 1) []) 0).1.isEmpty)
      else (ls, d, c) := rfl


theorem set_set_getD {α : Type} (ls : List (List α)) (idx : Nat)
    (h : idx + 1 < ls.length) (A B : List α) :
    (ls.set idx A).set (idx + 1) B = ls.take idx ++ A :: B :: ls.drop (idx + 2) := by
  have h0 : idx < ls.length := by omega
  have hpl : (ls.take idx).length = idx := by
    rw [List.length_take]
    omega
  rw [List.set_eq_take_cons_drop A h0, List.drop_eq_getElem_cons h]
  have h2 := set_append_len1 (ls.take idx) A (ls[idx + 1]) B (ls.drop (idx + 2))
  rw [hpl] at h2
  exact h2

theorem set_erase_getD {α : Type} (ls : List (List α)) (idx : Nat)
    (h : idx + 1 < ls.length) (A : List α) :
    (ls.set idx A).eraseIdx (idx + 1) = ls.take idx ++ A :: ls.drop (idx + 2) := by
  have h0 : idx < ls.length := by omega
  have hpl : (ls.take idx).length = idx := by
    rw [List.length_take]
    omega
  rw [List.set_eq_take_cons_drop A h0, List.drop_eq_getElem_cons h]
  have h2 := erase_append_len1 (ls.take idx) A (ls[idx + 1]) (ls.drop (idx + 2))
  rw [hpl] at h2
  exact h2

theorem erase_getD {α : Type} (ls : List (List α)) (idx : Nat)
    (h : idx + 1 < ls.length) :
    ls.eraseIdx idx = ls.take idx ++ ls.getD (idx + 1) [] :: ls.drop (idx + 2) := by
  rw [List.eraseIdx_eq_take_drop_succ, List.drop_eq_getElem_cons h,
    List.getD_eq_getElem ls [] h]

/-- The inner loop of the greedy layering thread preserves the layering
invariants and permutes the flattened gate sequence. -/
theorem greedyInner_spec {α : Type} (isRot : α → Bool) (comm : α → α → Bool)
    (ord : α → α → Prop) (hsymm : ∀ a b, comm a b = comm b a) :
    ∀ (fuel idx : Nat) (ls : List (List α)) (d c : Bool),
      GreedyInv comm ord ls →
      GreedyInv comm ord (greedyInner isRot comm fuel idx ls d c).1 ∧
      (greedyInner isRot comm fuel idx ls d c).1.flatten.Perm ls.flatten := by
  intro fuel
  induction fuel with
  | zero => intro idx ls d c h; exact ⟨h, List.Perm.refl _⟩
  | succ n ih =>
    intro idx ls d c h
    rw [greedyInner_succ]
    by_cases hlt : idx + 1 < ls.length
    · rw [if_pos hlt]
      by_cases hcur : (ls.getD idx []).length = 0
      · rw [if_pos hcur]
        have hdec := layers_decomp ls idx hlt
        have hpl : (ls.take idx).length = idx := by
          rw [List.length_take]
          omega
        have hnil : ls.getD idx [] = [] := List.length_eq_zero.mp hcur
        have herase : ls.eraseIdx idx = ls.take idx ++ ls.getD (idx + 1) [] ::
            ls.drop (idx + 2) := erase_getD ls idx hlt
        obtain ⟨P1, P2⟩ := ih idx (ls.eraseIdx idx) d c
          (by
            refine greedyInv_sublist comm ord ?_ h
            rw [herase]
            conv_rhs => rw [hdec]
            refine List.Sublist.append_left ?_ _
            rw [hnil]
            exact List.sublist_cons_self _ _)
        refine ⟨P1, P2.trans ?_⟩
        rw [herase]
        conv_rhs => rw [hdec]
        rw [hnil]
        simp
      · rw [if_neg hcur]
        have hdec := layers_decomp ls idx hlt
        have hpl : (ls.take idx).length = idx := by
          rw [List.length_take]
          omega
        have hadds := scanNext_mem isRot comm (ls.getD idx [])
          (ls.getD (idx + 1) []) 0
        have hcomm := scanNext_commAll isRot comm (ls.getD idx [])
          (ls.getD (idx + 1) []) 0
        have hnext2 := eraseIdxs_subset
          (scanNext isRot comm (ls.getD idx []) (ls.getD (idx + 1) []) 0).2.1
          (ls.getD (idx + 1) [])
        have hInv2 : GreedyInv comm ord (ls.take idx ++ ls.getD idx [] ::
            ls.getD (idx + 1) [] :: ls.drop (idx + 2)) := by
          rw [← hdec]
          exact h
        obtain ⟨hstep1, hstep2⟩ := greedyInv_step comm ord hsymm
          (ls.take idx) (ls.drop (idx + 2)) (ls.getD idx [])
          (ls.getD (idx + 1) [])
          (scanNext isRot comm (ls.getD idx []) (ls.getD (idx + 1) []) 0).1
          (eraseIdxs (scanNext isRot comm (ls.getD idx [])
            (ls.getD (idx + 1) []) 0).2.1 (ls.getD (idx + 1) []))
          hInv2 (fun a ha => hadds a ha) (fun a ha => hcomm a ha)
          (fun b hb => hnext2 b hb)
        have hperm := scan_erase_perm isRot comm (ls.getD idx [])
          (ls.getD (idx + 1) [])
        have hset2 : (ls.set idx (ls.getD idx [] ++ (scanNext isRot comm
            (ls.getD idx []) (ls.getD (idx + 1) []) 0).1)).set (idx + 1)
              (eraseIdxs (scanNext isRot comm (ls.getD idx [])
                (ls.getD (idx + 1) []) 0).2.1 (ls.getD (idx + 1) [])) =
            ls.take idx ++ (ls.getD idx [] ++ (scanNext isRot comm
              (ls.getD idx []) (ls.getD (idx + 1) []) 0).1) ::
              (eraseIdxs (scanNext isRot comm (ls.getD idx [])
                (ls.getD (idx + 1) []) 0).2.1 (ls.getD (idx + 1) [])) ::
              ls.drop (idx + 2) := by
          exact set_set_getD ls idx hlt _ _
        have hsete : (ls.set idx (ls.getD idx [] ++ (scanNext isRot comm
            (ls.getD idx []) (ls.getD (idx + 1) []) 0).1)).eraseIdx (idx + 1) =
            ls.take idx ++ (ls.getD idx [] ++ (scanNext isRot comm
              (ls.getD idx []) (ls.getD (idx + 1) []) 0).1) ::
              ls.drop (idx + 2) := by
          exact set_erase_getD ls idx hlt _
        have hflat2 : (ls.take idx ++ (ls.getD idx [] ++ (scanNext isRot comm
            (ls.getD idx []) (ls.getD (idx + 1) []) 0).1) ::
            (eraseIdxs (scanNext isRot comm (ls.getD idx [])
              (ls.getD (idx + 1) []) 0).2.1 (ls.getD (idx + 1) [])) ::
            ls.drop (idx + 2)).flatten.Perm ls.flatten := by
          conv_rhs => rw [hdec]
          simp only [List.flatten_append, List.flatten_cons, List.append_assoc]
          refine List.Perm.append_left _ ?_
          refine List.Perm.append_left _ ?_
          rw [← List.append_assoc]
          exact List.Perm.append_right _ hperm
        by_cases hlen : (ls.getD (idx + 1) []).length ≠ (scanNext isRot comm
            (ls.getD idx []) (ls.getD (idx + 1) []) 0).1.length
        · rw [if_pos hlen]
          by_cases hbm : (scanNext isRot comm (ls.getD idx [])
              (ls.getD (idx + 1) []) 0).2.2 = true
          · rw [if_pos hbm]
            rw [hset2]
            refine ⟨hstep1, ?_⟩
            exact hflat2
          · rw [if_neg hbm]
            obtain ⟨P1, P2⟩ := ih (idx + 1)
              ((ls.set idx (ls.getD idx [] ++ (scanNext isRot comm
                  (ls.getD idx []) (ls.getD (idx + 1) []) 0).1)).set (idx + 1)
                (eraseIdxs (scanNext isRot comm (ls.getD idx [])
                  (ls.getD (idx + 1) []) 0).2.1 (ls.getD (idx + 1) []))) _ _
              (by rw [hset2]; exact hstep1)
            refine ⟨P1, P2.trans ?_⟩
            rw [hset2]
            exact hflat2
        · rw [if_neg hlen]
          push_neg at hlen
          have hn2 : eraseIdxs (scanNext isRot comm (ls.getD idx [])
              (ls.getD (idx + 1) []) 0).2.1 (ls.getD (idx + 1) []) = [] := by
            have hl := hperm.length_eq
            simp only [List.length_append] at hl
            have : (eraseIdxs (scanNext isRot comm (ls.getD idx [])
                (ls.getD (idx + 1) []) 0).2.1 (ls.getD (idx + 1) [])).length = 0 := by
              omega
            exact List.length_eq_zero.mp this
          have hpermA : ((scanNext isRot comm (ls.getD idx [])
              (ls.getD (idx + 1) []) 0).1).Perm (ls.getD (idx + 1) []) := by
            have := hperm
            rw [hn2, List.append_nil] at this
            exact this
          have hstep2' : GreedyInv comm ord (ls.take idx ++ (ls.getD idx [] ++
              (scanNext isRot comm (ls.getD idx [])
                (ls.getD (idx + 1) []) 0).1) :: ls.drop (idx + 2)) := hstep2
          have hflate : (ls.take idx ++ (ls.getD idx [] ++ (scanNext isRot comm
              (ls.getD idx []) (ls.getD (idx + 1) []) 0).1) ::
              ls.drop (idx + 2)).flatten.Perm ls.flatten := by
            conv_rhs => rw [hdec]
            simp only [List.flatten_append, List.flatten_cons, List.append_assoc]
            refine List.Perm.append_left _ ?_
            refine List.Perm.append_left _ ?_
            exact List.Perm.append_right _ hpermA
          by_cases hbm : (scanNext isRot comm (ls.getD idx [])
              (ls.getD (idx + 1) []) 0).2.2 = true
          · rw [if_pos hbm]
            rw [hsete]
            exact ⟨hstep2', hflate⟩
          · rw [if_neg hbm]
            obtain ⟨P1, P2⟩ := ih idx
              ((ls.set idx (ls.getD idx [] ++ (scanNext isRot comm
                  (ls.getD idx []) (ls.getD (idx + 1) []) 0).1)).eraseIdx (idx + 1))
              _ _ (by rw [hsete]; exact hstep2')
            refine ⟨P1, P2.trans ?_⟩
            rw [hsete]
            exact hflate
    · rw [if_neg hlt]
      exact ⟨h, List.Perm.refl _⟩

theorem greedyThreadGo_spec {α : Type} (isRot : α → Bool) (comm : α → α → Bool)
    (ord : α → α → Prop) (hsymm : ∀ a b, comm a b = comm b a)
    (innerFuel : Nat) :
    ∀ (fuel : Nat) (ls : List (List α)) (c : Bool),
      GreedyInv comm ord ls →
      GreedyInv comm ord (greedyThreadGo isRot comm innerFuel fuel ls c).1 ∧
      (greedyThreadGo isRot comm innerFuel fuel ls c).1.flatten.Perm
        ls.flatten := by
  intro fuel
  induction fuel with
  | zero => intro ls c h; exact ⟨h, List.Perm.refl _⟩
  | succ n ih =>
    intro ls c h
    have heq : greedyThreadGo isRot comm innerFuel (n + 1) ls c =
        if (greedyInner isRot comm innerFuel 0 ls true c).2.1 then
          ((greedyInner isRot comm innerFuel 0 ls true c).1,
            (greedyInner isRot comm innerFuel 0 ls true c).2.2)
        else greedyThreadGo isRot comm innerFuel n
          (greedyInner isRot comm innerFuel 0 ls true c).1
          (greedyInner isRot comm innerFuel 0 ls true c).2.2 := rfl
    rw [heq]
    obtain ⟨I1, I2⟩ := greedyInner_spec isRot comm ord hsymm innerFuel 0 ls true c h
    by_cases hdone : (greedyInner isRot comm innerFuel 0 ls true c).2.1 = true
    · rw [if_pos hdone]
      exact ⟨I1, I2⟩
    · rw [if_neg hdone]
      obtain ⟨P1, P2⟩ := ih (greedyInner isRot comm innerFuel 0 ls true c).1
        (greedyInner isRot comm innerFuel 0 ls true c).2.2 I1
      exact ⟨P1, P2.trans I2⟩

theorem greedyThread_spec {α : Type} (isRot : α → Bool) (comm : α → α → Bool)
    (ord : α → α → Prop) (hsymm : ∀ a b, comm a b = comm b a)
    (fuel : Nat) (ls : List (List α)) (c : Bool) (h : GreedyInv comm ord ls) :
    GreedyInv comm ord (greedyThread isRot comm fuel ls c).1 ∧
    (greedyThread isRot comm fuel ls c).1.flatten.Perm ls.flatten :=
  greedyThreadGo_spec isRot comm ord hsymm (2 * ls.length + 2) fuel ls c h

theorem greedySlicesGo_spec {α : Type} (isRot : α → Bool) (comm : α → α → Bool)
    (ord : α → α → Prop) (hsymm : ∀ a b, comm a b = comm b a)
    (fuel L : Nat) (ls : List (List α)) (h : GreedyInv comm ord ls) :
    ∀ (k i : Nat),
      GreedyInv comm ord (greedySlicesGo isRot comm fuel L ls (k + 1) i).1 ∧
      (greedySlicesGo isRot comm fuel L ls (k + 1) i).1.flatten.Perm
        (ls.drop (i * L)).flatten := by
  intro k
  induction k with
  | zero =>
    intro i
    have heq : greedySlicesGo isRot comm fuel L ls 1 i =
        ((greedyThread isRot comm fuel (ls.drop (i * L)) false).1 ++ [],
          (greedyThread isRot comm fuel (ls.drop (i * L)) false).2 || false) := rfl
    rw [heq]
    obtain ⟨P1, P2⟩ := greedyThread_spec isRot comm ord hsymm fuel
      (ls.drop (i * L)) false
      (greedyInv_sublist comm ord (List.drop_sublist _ _) h)
    simp only [List.append_nil]
    exact ⟨P1, P2⟩
  | succ k ih =>
    intro i
    have heq : greedySlicesGo isRot comm fuel L ls (k + 1 + 1) i =
        ((greedyThread isRot comm fuel ((ls.drop (i * L)).take L) false).1 ++
          (greedySlicesGo isRot comm fuel L ls (k + 1) (i + 1)).1,
          (greedyThread isRot comm fuel ((ls.drop (i * L)).take L) false).2 ||
          (greedySlicesGo isRot comm fuel L ls (k + 1) (i + 1)).2) := rfl
    rw [heq]
    have hsubslice : ((ls.drop (i * L)).take L).Sublist ls :=
      (List.take_sublist _ _).trans (List.drop_sublist _ _)
    obtain ⟨T1, T2⟩ := greedyThread_spec isRot comm ord hsymm fuel
      ((ls.drop (i * L)).take L) false
      (greedyInv_sublist comm ord hsubslice h)
    obtain ⟨R1, R2⟩ := ih (i + 1)
    have hdd : ls.drop ((i + 1) * L) = (ls.drop (i * L)).drop L := by
      rw [List.drop_drop]
      congr 1
      ring
    have hPairD : ((ls.drop (i * L)).take L ++ (ls.drop (i * L)).drop L).Pairwise
        (LRel comm ord) := by
      rw [List.take_append_drop]
      exact (h.2).sublist (List.drop_sublist _ _)
    have hCrossD := (List.pairwise_append.mp hPairD).2.2
    refine ⟨⟨?_, ?_⟩, ?_⟩
    · intro M hM
      rcases List.mem_append.mp hM with hM | hM
      · exact T1.1 M hM
      · exact R1.1 M hM
    · rw [List.pairwise_append]
      refine ⟨T1.2, R1.2, ?_⟩
      intro A hA B hB x hx y hy hf
      have hxf : x ∈ ((ls.drop (i * L)).take L).flatten :=
        (T2.mem_iff).mp (List.mem_flatten.mpr ⟨A, hA, hx⟩)
      obtain ⟨A0, hA0, hxA0⟩ := List.mem_flatten.mp hxf
      have hyf : y ∈ (ls.drop ((i + 1) * L)).flatten :=
        (R2.mem_iff).mp (List.mem_flatten.mpr ⟨B, hB, hy⟩)
      obtain ⟨B0, hB0, hyB0⟩ := List.mem_flatten.mp hyf
      rw [hdd] at hB0
      exact hCrossD A0 hA0 B0 hB0 x hxA0 y hyB0 hf
    · rw [List.flatten_append]
      have hperm := T2.append R2
      refine hperm.trans ?_
      rw [hdd, ← List.flatten_append, List.take_append_drop]

theorem greedyRound_spec {α : Type} (isRot : α → Bool) (comm : α → α → Bool)
    (ord : α → α → Prop) (hsymm : ∀ a b, comm a b = comm b a)
    (fuel : Nat) (ls : List (List α)) (h : GreedyInv comm ord ls) :
    GreedyInv comm ord (greedyRound isRot comm fuel ls).1 ∧
    (greedyRound isRot comm fuel ls).1.flatten.Perm ls.flatten := by
  obtain ⟨P1, P2⟩ := greedySlicesGo_spec isRot comm ord hsymm fuel
    (ls.length / 50) ls h 49 0
  refine ⟨P1, P2.trans ?_⟩
  simp

theorem greedyWhile_spec {α : Type} (isRot : α → Bool) (comm : α → α → Bool)
    (ord : α → α → Prop) (hsymm : ∀ a b, comm a b = comm b a) (fuel : Nat) :
    ∀ (f : Nat) (ls : List (List α)) (c : Bool),
      GreedyInv comm ord ls →
      GreedyInv comm ord (greedyWhile isRot comm fuel f ls c) ∧
      (greedyWhile isRot comm fuel f ls c).flatten.Perm ls.flatten := by
  intro f
  induction f with
  | zero => intro ls c h; exact ⟨h, List.Perm.refl _⟩
  | succ n ih =>
    intro ls c h
    have heq : greedyWhile isRot comm fuel (n + 1) ls c =
        if decide (100 < ls.length) && c then
          greedyWhile isRot comm fuel n (greedyRound isRot comm fuel ls).1
            (greedyRound isRot comm fuel ls).2
        else ls := rfl
    rw [heq]
    by_cases hcond : (decide (100 < ls.length) && c) = true
    · rw [if_pos hcond]
      obtain ⟨R1, R2⟩ := greedyRound_spec isRot comm ord hsymm fuel ls h
      obtain ⟨P1, P2⟩ := ih (greedyRound isRot comm fuel ls).1
        (greedyRound isRot comm fuel ls).2 R1
      exact ⟨P1, P2.trans R2⟩
    · rw [if_neg hcond]
      exact ⟨h, List.Perm.refl _⟩

theorem greedyFinal_spec {α : Type} (isRot : α → Bool) (comm : α → α → Bool)
    (ord : α → α → Prop) (hsymm : ∀ a b, comm a b = comm b a) (fuel : Nat) :
    ∀ (f : Nat) (ls : List (List α)),
      GreedyInv comm ord ls →
      GreedyInv comm ord (greedyFinal isRot comm fuel f ls) ∧
      (greedyFinal isRot comm fuel f ls).flatten.Perm ls.flatten := by
  intro f
  induction f with
  | zero => intro ls h; exact ⟨h, List.Perm.refl _⟩
  | succ n ih =>
    intro ls h
    have heq : greedyFinal isRot comm fuel (n + 1) ls =
        if (greedyThread isRot comm fuel ls false).2 then
          greedyFinal isRot comm fuel n (greedyThread isRot comm fuel ls false).1
        else (greedyThread isRot comm fuel ls false).1 := rfl
    rw [heq]
    obtain ⟨T1, T2⟩ := greedyThread_spec isRot comm ord hsymm fuel ls false h
    by_cases hch : (greedyThread isRot comm fuel ls false).2 = true
    · rw [if_pos hch]
      obtain ⟨P1, P2⟩ := ih (greedyThread isRot comm fuel ls false).1 T1
      exact ⟨P1, P2.trans T2⟩
    · rw [if_neg hch]
      exact ⟨T1, T2⟩

theorem flatten_map_singleton {α : Type} :
    ∀ (v : List α), (v.map (fun op => [op])).flatten = v := by
  intro v
  induction v with
  | nil => rfl
  | cons a t ih => simp only [List.map_cons, List.flatten_cons, ih]; rfl

/-- The full greedy layering (Trillium `reduceLayerGreedyAlgo`, generic):
starting from singleton layers of a gate sequence whose anticommuting pairs
respect `ord` in sequence order, the output layers are mutually commuting,
anticommuting pairs respect `ord` in layer order, and the flattened output
is a permutation of the input. -/
theorem reduceLayerGreedyAlgoG_spec {α : Type} (isRot : α → Bool)
    (comm : α → α → Bool) (ord : α → α → Prop)
    (hsymm : ∀ a b, comm a b = comm b a) (hrefl : ∀ a, comm a a = true)
    (fuel : Nat) (v : List α)
    (hord : v.Pairwise (fun a b => comm a b = false → ord a b)) :
    GreedyInv comm ord (reduceLayerGreedyAlgoG isRot comm fuel v) ∧
    (reduceLayerGreedyAlgoG isRot comm fuel v).flatten.Perm v := by
  have hInit : GreedyInv comm ord (v.map fun op => [op]) := by
    constructor
    · intro L hL
      obtain ⟨a, _, rfl⟩ := List.mem_map.mp hL
      intro x hx y hy
      rw [List.mem_singleton.mp hx, List.mem_singleton.mp hy]
      exact hrefl a
    · rw [List.pairwise_map]
      refine hord.imp ?_
      intro a b hab x hx y hy hf
      have hx2 := List.mem_singleton.mp hx
      have hy2 := List.mem_singleton.mp hy
      subst hx2
      subst hy2
      exact hab hf
  obtain ⟨W1, W2⟩ := greedyWhile_spec isRot comm ord hsymm fuel fuel
    (v.map fun op => [op]) true hInit
  obtain ⟨F1, F2⟩ := greedyFinal_spec isRot comm ord hsymm fuel fuel
    (greedyWhile isRot comm fuel fuel (v.map fun op => [op]) true) W1
  refine ⟨F1, (F2.trans W2).trans ?_⟩
  rw [flatten_map_singleton]

theorem getD_map_nil {α β : Type} (φ : β → α) :
    ∀ (ls : List (List β)) (i : Nat),
      (ls.map (List.map φ)).getD i [] = (ls.getD i []).map φ := by
  intro ls
  induction ls with
  | nil => intro i; cases i <;> rfl
  | cons a t ih =>
    intro i
    cases i with
    | zero => rfl
    | succ n =>
      simp only [List.map_cons, List.getD_cons_succ]
      exact ih n

theorem isEmpty_map {α β : Type} (φ : β → α) (l : List β) :
    (l.map φ).isEmpty = l.isEmpty := by
  cases l <;> rfl

theorem commAll_map {α β : Type} (φ : β → α) (comm2 : β → β → Bool)
    (comm : α → α → Bool) (hcomm : ∀ x y, comm2 x y = comm (φ x) (φ y))
    (cur : List β) (g : β) :
    commAll comm (cur.map φ) (φ g) = commAll comm2 cur g := by
  induction cur with
  | nil => rfl
  | cons a t ih =>
    simp only [commAll, List.map_cons, List.all_cons] at ih ⊢
    rw [ih, hcomm]

theorem scanNext_map {α β : Type} (φ : β → α) (isRot2 : β → Bool)
    (isRot : α → Bool) (comm2 : β → β → Bool) (comm : α → α → Bool)
    (hrot : ∀ x, isRot2 x = isRot (φ x))
    (hcomm : ∀ x y, comm2 x y = comm (φ x) (φ y)) (cur : List β) :
    ∀ (l : List β) (p : Nat),
      (scanNext isRot comm (cur.map φ) (l.map φ) p).1 =
        (scanNext isRot2 comm2 cur l p).1.map φ ∧
      (scanNext isRot comm (cur.map φ) (l.map φ) p).2.1 =
        (scanNext isRot2 comm2 cur l p).2.1 ∧
      (scanNext isRot comm (cur.map φ) (l.map φ) p).2.2 =
        (scanNext isRot2 comm2 cur l p).2.2 := by
  intro l
  induction l with
  | nil => intro p; exact ⟨rfl, rfl, rfl⟩
  | cons g rest ih =>
    intro p
    obtain ⟨ih1, ih2, ih3⟩ := ih (p + 1)
    simp only [List.map_cons, scanNext, ← hrot g,
      commAll_map φ comm2 comm hcomm cur g]
    split
    · split
      · exact ⟨by rw [ih1]; rfl, by rw [ih2], ih3⟩
      · exact ⟨ih1, ih2, ih3⟩
    · exact ⟨rfl, rfl, rfl⟩

theorem eraseIdxs_map {α β : Type} (φ : β → α) :
    ∀ (idxs : List Nat) (xs : List β),
      eraseIdxs idxs (xs.map φ) = (eraseIdxs idxs xs).map φ := by
  intro idxs
  induction idxs with
  | nil => intro xs; rfl
  | cons i rest ih =>
    intro xs
    simp only [eraseIdxs, List.foldr_cons]
    have h1 : (eraseIdxs rest (xs.map φ)) = (eraseIdxs rest xs).map φ := ih xs
    simp only [eraseIdxs] at h1
    rw [h1]
    exact eraseIdx_map' φ (eraseIdxs rest xs) i

theorem greedyInner_map {α β : Type} (φ : β → α) (isRot2 : β → Bool)
    (isRot : α → Bool) (comm2 : β → β → Bool) (comm : α → α → Bool)
    (hrot : ∀ x, isRot2 x = isRot (φ x))
    (hcomm : ∀ x y, comm2 x y = comm (φ x) (φ y)) :
    ∀ (fuel idx : Nat) (ls : List (List β)) (d c : Bool),
      greedyInner isRot comm fuel idx (ls.map (List.map φ)) d c =
        ((greedyInner isRot2 comm2 fuel idx ls d c).1.map (List.map φ),
          (greedyInner isRot2 comm2 fuel idx ls d c).2) := by
  intro fuel
  induction fuel with
  | zero => intro idx ls d c; rfl
  | succ n ih =>
    intro idx ls d c
    have hgd1 : (ls.map (List.map φ)).getD idx [] = (ls.getD idx []).map φ :=
      getD_map_nil φ ls idx
    have hgd2 : (ls.map (List.map φ)).getD (idx + 1) [] =
        (ls.getD (idx + 1) []).map φ := getD_map_nil φ ls (idx + 1)
    obtain ⟨hs1, hs2, hs3⟩ := scanNext_map φ isRot2 isRot comm2 comm hrot hcomm
      (ls.getD idx []) (ls.getD (idx + 1) []) 0
    rw [greedyInner_succ, greedyInner_succ]
    rw [hgd1, hgd2, hs1, hs2, hs3]
    simp only [List.length_map]
    by_cases h1 : idx + 1 < ls.length
    · rw [if_pos h1, if_pos h1]
      by_cases h2 : (ls.getD idx []).length = 0
      · rw [if_pos h2, if_pos h2]
        rw [eraseIdx_map' (List.map φ) ls idx]
        exact ih idx (ls.eraseIdx idx) d c
      · rw [if_neg h2, if_neg h2]
        have hsetset : ((ls.map (List.map φ)).set idx ((ls.getD idx []).map φ ++
            ((scanNext isRot2 comm2 (ls.getD idx [])
              (ls.getD (idx + 1) []) 0).1.map φ))).set (idx + 1)
            (eraseIdxs (scanNext isRot2 comm2 (ls.getD idx [])
              (ls.getD (idx + 1) []) 0).2.1 ((ls.getD (idx + 1) []).map φ)) =
            ((ls.set idx (ls.getD idx [] ++ (scanNext isRot2 comm2
              (ls.getD idx []) (ls.getD (idx + 1) []) 0).1)).set (idx + 1)
              (eraseIdxs (scanNext isRot2 comm2 (ls.getD idx [])
                (ls.getD (idx + 1) []) 0).2.1
                (ls.getD (idx + 1) []))).map (List.map φ) := by
          rw [eraseIdxs_map, ← List.map_append, ← List.map_set, ← List.map_set]
        have hseterase : ((ls.map (List.map φ)).set idx ((ls.getD idx []).map φ ++
            ((scanNext isRot2 comm2 (ls.getD idx [])
              (ls.getD (idx + 1) []) 0).1.map φ))).eraseIdx (idx + 1) =
            ((ls.set idx (ls.getD idx [] ++ (scanNext isRot2 comm2
              (ls.getD idx []) (ls.getD (idx + 1) []) 0).1)).eraseIdx
              (idx + 1)).map (List.map φ) := by
          rw [← List.map_append, ← List.map_set]
          exact eraseIdx_map' (List.map φ) _ (idx + 1)
        by_cases h3 : (ls.getD (idx + 1) []).length ≠
            (scanNext isRot2 comm2 (ls.getD idx [])
              (ls.getD (idx + 1) []) 0).1.length
        · rw [if_pos h3, if_pos h3]
          by_cases h4 : (scanNext isRot2 comm2 (ls.getD idx [])
              (ls.getD (idx + 1) []) 0).2.2 = true
          · rw [if_pos h4, if_pos h4]
            rw [hsetset, isEmpty_map]
          · rw [if_neg h4, if_neg h4]
            rw [hsetset, isEmpty_map]
            exact ih (idx + 1) _ _ _
        · rw [if_neg h3, if_neg h3]
          by_cases h4 : (scanNext isRot2 comm2 (ls.getD idx [])
              (ls.getD (idx + 1) []) 0).2.2 = true
          · rw [if_pos h4, if_pos h4]
            rw [hseterase, isEmpty_map]
          · rw [if_neg h4, if_neg h4]
            rw [hseterase, isEmpty_map]
            exact ih idx _ _ _
    · rw [if_neg h1, if_neg h1]

theorem greedyThread_map {α β : Type} (φ : β → α) (isRot2 : β → Bool)
    (isRot : α → Bool) (comm2 : β → β → Bool) (comm : α → α → Bool)
    (hrot : ∀ x, isRot2 x = isRot (φ x))
    (hcomm : ∀ x y, comm2 x y = comm (φ x) (φ y)) :
    ∀ (innerFuel fuel : Nat) (ls : List (List β)) (c : Bool),
      greedyThreadGo isRot comm innerFuel fuel (ls.map (List.map φ)) c =
        ((greedyThreadGo isRot2 comm2 innerFuel fuel ls c).1.map (List.map φ),
          (greedyThreadGo isRot2 comm2 innerFuel fuel ls c).2) := by
  intro innerFuel fuel
  induction fuel with
  | zero => intro ls c; rfl
  | succ n ih =>
    intro ls c
    have hmap := greedyInner_map φ isRot2 isRot comm2 comm hrot hcomm
      innerFuel 0 ls true c
    have heqL : greedyThreadGo isRot comm innerFuel (n + 1)
        (ls.map (List.map φ)) c =
        if (greedyInner isRot comm innerFuel 0 (ls.map (List.map φ)) true c).2.1 then
          ((greedyInner isRot comm innerFuel 0 (ls.map (List.map φ)) true c).1,
            (greedyInner isRot comm innerFuel 0 (ls.map (List.map φ)) true c).2.2)
        else greedyThreadGo isRot comm innerFuel n
          (greedyInner isRot comm innerFuel 0 (ls.map (List.map φ)) true c).1
          (greedyInner isRot comm innerFuel 0 (ls.map (List.map φ)) true c).2.2 := rfl
    have heqR : greedyThreadGo isRot2 comm2 innerFuel (n + 1) ls c =
        if (greedyInner isRot2 comm2 innerFuel 0 ls true c).2.1 then
          ((greedyInner isRot2 comm2 innerFuel 0 ls true c).1,
            (greedyInner isRot2 comm2 innerFuel 0 ls true c).2.2)
        else greedyThreadGo isRot2 comm2 innerFuel n
          (greedyInner isRot2 comm2 innerFuel 0 ls true c).1
          (greedyInner isRot2 comm2 innerFuel 0 ls true c).2.2 := rfl
    rw [heqL, heqR, hmap]
    by_cases hdone : (greedyInner isRot2 comm2 innerFuel 0 ls true c).2.1 = true
    · rw [if_pos hdone, if_pos hdone]
    · rw [if_neg hdone, if_neg hdone]
      exact ih _ _

theorem greedySlices_map {α β : Type} (φ : β → α) (isRot2 : β → Bool)
    (isRot : α → Bool) (comm2 : β → β → Bool) (comm : α → α → Bool)
    (hrot : ∀ x, isRot2 x = isRot (φ x))
    (hcomm : ∀ x y, comm2 x y = comm (φ x) (φ y)) (fuel L : Nat)
    (ls : List (List β)) :
    ∀ (k i : Nat),
      greedySlicesGo isRot comm fuel L (ls.map (List.map φ)) k i =
        ((greedySlicesGo isRot2 comm2 fuel L ls k i).1.map (List.map φ),
          (greedySlicesGo isRot2 comm2 fuel L ls k i).2) := by
  intro k
  induction k with
  | zero => intro i; rfl
  | succ k ih =>
    intro i
    have hslice : (if k = 0 then (ls.map (List.map φ)).drop (i * L)
        else ((ls.map (List.map φ)).drop (i * L)).take L) =
        (if k = 0 then ls.drop (i * L) else (ls.drop (i * L)).take L).map
          (List.map φ) := by
      split
      · exact (List.map_drop ..).symm
      · rw [← List.map_drop, List.map_take]
    have hthr : ∀ (s : List (List β)),
        greedyThread isRot comm fuel (s.map (List.map φ)) false =
          ((greedyThread isRot2 comm2 fuel s false).1.map (List.map φ),
            (greedyThread isRot2 comm2 fuel s false).2) := by
      intro s
      simp only [greedyThread, List.length_map]
      exact greedyThread_map φ isRot2 isRot comm2 comm hrot hcomm _ fuel s false
    have heqR : greedySlicesGo isRot2 comm2 fuel L ls (k + 1) i =
        ((greedyThread isRot2 comm2 fuel (if k = 0 then ls.drop (i * L)
            else (ls.drop (i * L)).take L) false).1 ++
          (greedySlicesGo isRot2 comm2 fuel L ls k (i + 1)).1,
          (greedyThread isRot2 comm2 fuel (if k = 0 then ls.drop (i * L)
            else (ls.drop (i * L)).take L) false).2 ||
          (greedySlicesGo isRot2 comm2 fuel L ls k (i + 1)).2) := rfl
    have heqL : greedySlicesGo isRot comm fuel L (ls.map (List.map φ))
        (k + 1) i =
        ((greedyThread isRot comm fuel (if k = 0 then
            (ls.map (List.map φ)).drop (i * L)
            else ((ls.map (List.map φ)).drop (i * L)).take L) false).1 ++
          (greedySlicesGo isRot comm fuel L (ls.map (List.map φ)) k (i + 1)).1,
          (greedyThread isRot comm fuel (if k = 0 then
            (ls.map (List.map φ)).drop (i * L)
            else ((ls.map (List.map φ)).drop (i * L)).take L) false).2 ||
          (greedySlicesGo isRot comm fuel L (ls.map (List.map φ)) k
            (i + 1)).2) := rfl
    rw [heqL, heqR, hslice, hthr, ih (i + 1)]
    simp only [List.map_append]

theorem greedyWhile_map {α β : Type} (φ : β → α) (isRot2 : β → Bool)
    (isRot : α → Bool) (comm2 : β → β → Bool) (comm : α → α → Bool)
    (hrot : ∀ x, isRot2 x = isRot (φ x))
    (hcomm : ∀ x y, comm2 x y = comm (φ x) (φ y)) (fuel : Nat) :
    ∀ (f : Nat) (ls : List (List β)) (c : Bool),
      greedyWhile isRot comm fuel f (ls.map (List.map φ)) c =
        (greedyWhile isRot2 comm2 fuel f ls c).map (List.map φ) := by
  intro f
  induction f with
  | zero => intro ls c; rfl
  | succ n ih =>
    intro ls c
    have hround : greedyRound isRot comm fuel (ls.map (List.map φ)) =
        ((greedyRound isRot2 comm2 fuel ls).1.map (List.map φ),
          (greedyRound isRot2 comm2 fuel ls).2) := by
      simp only [greedyRound, List.length_map]
      exact greedySlices_map φ isRot2 isRot comm2 comm hrot hcomm fuel _ ls 50 0
    have heqL : greedyWhile isRot comm fuel (n + 1) (ls.map (List.map φ)) c =
        if decide (100 < (ls.map (List.map φ)).length) && c then
          greedyWhile isRot comm fuel n
            (greedyRound isRot comm fuel (ls.map (List.map φ))).1
            (greedyRound isRot comm fuel (ls.map (List.map φ))).2
        else ls.map (List.map φ) := rfl
    have heqR : greedyWhile isRot2 comm2 fuel (n + 1) ls c =
        if decide (100 < ls.length) && c then
          greedyWhile isRot2 comm2 fuel n (greedyRound isRot2 comm2 fuel ls).1
            (greedyRound isRot2 comm2 fuel ls).2
        else ls := rfl
    rw [heqL, heqR]
    simp only [List.length_map]
    by_cases hcond : (decide (100 < ls.length) && c) = true
    · rw [if_pos hcond, if_pos hcond, hround]
      exact ih _ _
    · rw [if_neg hcond, if_neg hcond]

theorem greedyFinal_map {α β : Type} (φ : β → α) (isRot2 : β → Bool)
    (isRot : α → Bool) (comm2 : β → β → Bool) (comm : α → α → Bool)
    (hrot : ∀ x, isRot2 x = isRot (φ x))
    (hcomm : ∀ x y, comm2 x y = comm (φ x) (φ y)) (fuel : Nat) :
    ∀ (f : Nat) (ls : List (List β)),
      greedyFinal isRot comm fuel f (ls.map (List.map φ)) =
        (greedyFinal isRot2 comm2 fuel f ls).map (List.map φ) := by
  intro f
  induction f with
  | zero => intro ls; rfl
  | succ n ih =>
    intro ls
    have hthr : greedyThread isRot comm fuel (ls.map (List.map φ)) false =
        ((greedyThread isRot2 comm2 fuel ls false).1.map (List.map φ),
          (greedyThread isRot2 comm2 fuel ls false).2) := by
      simp only [greedyThread, List.length_map]
      exact greedyThread_map φ isRot2 isRot comm2 comm hrot hcomm _ fuel ls false
    have heqL : greedyFinal isRot comm fuel (n + 1) (ls.map (List.map φ)) =
        if (greedyThread isRot comm fuel (ls.map (List.map φ)) false).2 then
          greedyFinal isRot comm fuel n
            (greedyThread isRot comm fuel (ls.map (List.map φ)) false).1
        else (greedyThread isRot comm fuel (ls.map (List.map φ)) false).1 := rfl
    have heqR : greedyFinal isRot2 comm2 fuel (n + 1) ls =
        if (greedyThread isRot2 comm2 fuel ls false).2 then
          greedyFinal isRot2 comm2 fuel n
            (greedyThread isRot2 comm2 fuel ls false).1
        else (greedyThread isRot2 comm2 fuel ls false).1 := rfl
    rw [heqL, heqR, hthr]
    by_cases hch : (greedyThread isRot2 comm2 fuel ls false).2 = true
    · rw [if_pos hch, if_pos hch]
      exact ih _
    · rw [if_neg hch, if_neg hch]

/-- Projecting the tags away commutes with the whole greedy layering: the
tagged run mirrors the program's run exactly. -/
theorem reduceLayerGreedyAlgoG_map {α β : Type} (φ : β → α) (isRot2 : β → Bool)
    (isRot : α → Bool) (comm2 : β → β → Bool) (comm : α → α → Bool)
    (hrot : ∀ x, isRot2 x = isRot (φ x))
    (hcomm : ∀ x y, comm2 x y = comm (φ x) (φ y)) (fuel : Nat) (v : List β) :
    reduceLayerGreedyAlgoG isRot comm fuel (v.map φ) =
      (reduceLayerGreedyAlgoG isRot2 comm2 fuel v).map (List.map φ) := by
  have hinit : (v.map φ).map (fun op => [op]) =
      (v.map (fun op => [op])).map (List.map φ) := by
    simp only [List.map_map]
    rfl
  simp only [reduceLayerGreedyAlgoG]
  rw [hinit, greedyWhile_map φ isRot2 isRot comm2 comm hrot hcomm fuel fuel _ true,
    greedyFinal_map φ isRot2 isRot comm2 comm hrot hcomm fuel fuel _]

theorem isCommuteB_symm (ax az bx bz : Nat) :
    isCommuteB ax az bx bz = isCommuteB bx bz ax az := by
  simp only [isCommuteB]
  rw [Nat.land_comm ax bz, Nat.land_comm az bx, Nat.add_comm]

theorem isCommute_symm (a b : Operation) :
    a.isCommute b = b.isCommute a := by
  simp only [Operation.isCommute]
  exact isCommuteB_symm a.xB a.zB b.xB b.zB

theorem isCommute_refl (a : Operation) : a.isCommute a = true := by
  simp only [Operation.isCommute, isCommuteB]
  rw [Nat.land_comm a.zB a.xB]
  have h2 : popCount (a.xB &&& a.zB) + popCount (a.xB &&& a.zB) =
      2 * popCount (a.xB &&& a.zB) := by omega
  rw [h2]
  simp [Nat.mul_mod_right]

theorem enum_pairwise_fst {γ : Type} (l : List γ) :
    l.enum.Pairwise (fun a b => a.1 < b.1) := by
  rw [List.pairwise_iff_getElem]
  intro i j hi hj hij
  simp only [List.getElem_enum]
  exact hij

/-- C6: in the Trillium greedy layering, every pair inside one output layer
commutes; and (index-tagged run) every tagged gate of the input lands in some
layer, the tagged run projects exactly onto the program's run, and any two
tagged gates with input order `x.1 < y.1` that anticommute land in layers with
`li < lj`. -/
theorem reduceLayerGreedyAlgo_layering (fuel : Nat) (v : List Operation) :
    (∀ L ∈ reduceLayerGreedyAlgo fuel v, ∀ x ∈ L, ∀ y ∈ L,
        x.isCommute y = true) ∧
    ((reduceLayerGreedyAlgoG (fun t : Nat × Operation => t.2.isRotation)
        (fun t u : Nat × Operation => t.2.isCommute u.2) fuel v.enum).map
        (List.map Prod.snd) = reduceLayerGreedyAlgo fuel v) ∧
    (∀ p ∈ v.enum, ∃ li,
        p ∈ (reduceLayerGreedyAlgoG (fun t : Nat × Operation => t.2.isRotation)
          (fun t u : Nat × Operation => t.2.isCommute u.2) fuel
          v.enum).getD li []) ∧
    (∀ li lj (x y : Nat × Operation),
        x ∈ (reduceLayerGreedyAlgoG (fun t : Nat × Operation => t.2.isRotation)
          (fun t u : Nat × Operation => t.2.isCommute u.2) fuel
          v.enum).getD li [] →
        y ∈ (reduceLayerGreedyAlgoG (fun t : Nat × Operation => t.2.isRotation)
          (fun t u : Nat × Operation => t.2.isCommute u.2) fuel
          v.enum).getD lj [] →
        x.1 < y.1 → x.2.isCommute y.2 = false → li < lj) := by
  have hordT : v.enum.Pairwise
      (fun a b : Nat × Operation => a.2.isCommute b.2 = false → a.1 < b.1) := by
    refine (enum_pairwise_fst v).imp ?_
    intro a b h _
    exact h
  obtain ⟨⟨hPW, hPair⟩, hPerm⟩ := reduceLayerGreedyAlgoG_spec
    (fun t : Nat × Operation => t.2.isRotation)
    (fun t u : Nat × Operation => t.2.isCommute u.2)
    (fun t u : Nat × Operation => t.1 < u.1)
    (fun a b => isCommute_symm a.2 b.2) (fun a => isCommute_refl a.2)
    fuel v.enum hordT
  have hsim : reduceLayerGreedyAlgoG Operation.isRotation Operation.isCommute
      fuel (v.enum.map Prod.snd) =
      (reduceLayerGreedyAlgoG (fun t : Nat × Operation => t.2.isRotation)
        (fun t u : Nat × Operation => t.2.isCommute u.2) fuel v.enum).map
        (List.map Prod.snd) :=
    reduceLayerGreedyAlgoG_map Prod.snd
      (fun t : Nat × Operation => t.2.isRotation) Operation.isRotation
      (fun t u : Nat × Operation => t.2.isCommute u.2) Operation.isCommute
      (fun _ => rfl) (fun _ _ => rfl) fuel v.enum
  rw [List.enum_map_snd] at hsim
  refine ⟨?_, ?_, ?_, ?_⟩
  · intro L hL x hx y hy
    have hplain := reduceLayerGreedyAlgoG_spec Operation.isRotation
      Operation.isCommute (fun _ _ => True) isCommute_symm isCommute_refl
      fuel v (List.pairwise_iff_getElem.mpr (fun _ _ _ _ _ _ => trivial))
    exact hplain.1.1 L hL x hx y hy
  · exact hsim.symm
  · intro p hp
    have hp2 : p ∈ (reduceLayerGreedyAlgoG
        (fun t : Nat × Operation => t.2.isRotation)
        (fun t u : Nat × Operation => t.2.isCommute u.2) fuel
        v.enum).flatten := hPerm.mem_iff.mpr hp
    obtain ⟨L, hL, hpL⟩ := List.mem_flatten.mp hp2
    obtain ⟨li, hli, heq⟩ := List.mem_iff_getElem.mp hL
    refine ⟨li, ?_⟩
    rw [List.getD_eq_getElem _ _ hli, heq]
    exact hpL
  · intro li lj x y hx hy hlt hanti
    by_cases hli : li < (reduceLayerGreedyAlgoG
        (fun t : Nat × Operation => t.2.isRotation)
        (fun t u : Nat × Operation => t.2.isCommute u.2) fuel
        v.enum).length
    · by_cases hlj : lj < (reduceLayerGreedyAlgoG
          (fun t : Nat × Operation => t.2.isRotation)
          (fun t u : Nat × Operation => t.2.isCommute u.2) fuel
          v.enum).length
      · rw [List.getD_eq_getElem _ _ hli] at hx
        rw [List.getD_eq_getElem _ _ hlj] at hy
        rcases Nat.lt_trichotomy li lj with h | h | h
        · exact h
        · subst h
          have hc2 : x.2.isCommute y.2 = true :=
            hPW _ (List.getElem_mem hli) x hx y hy
          rw [hanti] at hc2
          exact Bool.noConfusion hc2
        · have hrel := List.pairwise_iff_getElem.mp hPair lj li hlj hli h
          have hyx : y.2.isCommute x.2 = false := by
            rw [isCommute_symm]
            exact hanti
          have hyl : y.1 < x.1 := hrel y hy x hx hyx
          omega
      · rw [List.getD_eq_default _ _ (Nat.le_of_not_lt hlj)] at hy
        exact absurd hy (List.not_mem_nil y)
    · rw [List.getD_eq_default _ _ (Nat.le_of_not_lt hli)] at hx
      exact absurd hx (List.not_mem_nil x)

theorem reduceLayerGreedyAlgo_layering_witness :
    (reduceLayerGreedyAlgoG (fun t : Nat × Operation => t.2.isRotation)
        (fun t u : Nat × Operation => t.2.isCommute u.2) 2
        ([Operation.rot ⟨1, 1, 0⟩, Operation.rot ⟨1, 0, 1⟩]).enum).map
        (List.map Prod.snd) =
      reduceLayerGreedyAlgo 2 [Operation.rot ⟨1, 1, 0⟩, Operation.rot ⟨1, 0, 1⟩] :=
  (reduceLayerGreedyAlgo_layering 2
    [Operation.rot ⟨1, 1, 0⟩, Operation.rot ⟨1, 0, 1⟩]).2.1

end Lys
